import Mathlib

/-!
Verification of the gluino schema serialization kernel.

This file gives a shallow embedding, in Lean, of the Rust sources of the
gluino repository (src/util.rs, src/spec.rs, src/compiled_spec.rs,
src/fingerprint.rs, src/serde/encode.rs, src/serde/ser_impls.rs) and proves
or refutes the frozen specification claims about them.

Modelling conventions:
- Machine bytes are `Nat`s below 256; byte streams are `List Nat`.  A Rust
  reader is modelled by passing the remaining input list and returning the
  unconsumed tail; a Rust writer by returning the list of emitted bytes.
- `u8`/`u64` values are `Nat`s; where the Rust code masks or truncates,
  the model does so explicitly (x &&& 0x7F = x % 128, x >> 7 = x / 128,
  a u8 shift-left truncates mod 256).
- Rust `String`s are represented by their UTF-8 byte lists (`List Nat`);
  `String` validity (what `read_to_string` checks) is the executable
  predicate `validUtf8`.
- Fallible Rust functions return `Except`.  Functions whose Rust form
  recurses through a reader are given explicit fuel so that every
  definition is executable and kernel-reducible; the wrappers supply fuel
  that is always sufficient for the inputs of interest, and the artifact
  value `FuelExhausted` never occurs in any behaviour established below.
-/

namespace Gluino

/-- Little-endian interpretation of a byte list, as in `from_le_bytes`
(`src/util.rs`, `gen_vldt_impls_nums`). -/
def fromLEBytes : List Nat → Nat
  | [] => 0
  | b :: bs => b + 256 * fromLEBytes bs

/-- `MAX_LANG_BYTES` from src/util.rs: size of the decoder scratch buffer. -/
def MAX_LANG_BYTES : Nat := 16

/-- Result of variable-length decoding (`VariableLengthResult` in
src/util.rs, including the source's spelling of `Respresentable`).
The `Unrepresentable` payload is a little-endian arbitrary-length uint. -/
inductive VariableLengthResult where
  | Respresentable (n : Nat)
  | Unrepresentable (bytes : List Nat)
deriving DecidableEq

/-- `VariableLengthDecodingError` from src/util.rs.  The `IoError` case is
unreachable for in-memory byte-list readers and is not modelled. -/
inductive VariableLengthDecodingError where
  | IncompleteVariableLengthEncoding
deriving DecidableEq

/-- The `while z > 0x7F` loop of `variable_length_encode_u64`
(src/util.rs), with structural fuel so that the definition is
kernel-reducible.  `variable_length_encode_u64` supplies fuel `z + 1`,
which always exceeds the iteration count (`z` shrinks by a factor of 128
per iteration), so the fuel-exhausted base case is unreachable; it is
given the final-byte behaviour. -/
def vleLoop : Nat → Nat → List Nat
  | 0, z => [z % 0x80]
  | fuel + 1, z =>
    if z ≤ 0x7F then
      [z % 0x80]
    else
      Nat.lor 0x80 (z % 0x80) :: vleLoop fuel (z / 0x80)

/-- `variable_length_encode_u64` from src/util.rs: 7-bit little-endian
groups, continuation bit 0x80 on every byte but the last.  The loop body
emits `0x80 | (z & 0x7F)` and the final byte is `z & 0x7F`. -/
def variable_length_encode_u64 (z : Nat) : List Nat :=
  vleLoop (z + 1) z

/-- State of the `variable_lenth_decode` loop from src/util.rs: the 16-byte
scratch `read_buffer`, `tracking_index`, the `overflow` vector and
`shift_offset`. -/
structure VldState where
  rb : List Nat
  ti : Nat
  overflow : List Nat
  so : Nat
deriving DecidableEq

/-- One iteration of the `variable_lenth_decode` loop body (src/util.rs),
translated step-for-step for the byte `b` just read:
spill the scratch buffer into `overflow` when `tracking_index` reached
`BYTE_LEN`; store `b & 0x7F`; compact 7-bit groups into whole bytes
(`rb[ti-1] |= rb[ti].checked_shl(8 - so % 8)` — 0 when the shift is ≥ 8 —
then `rb[ti] >>= so % 8`, both as u8 operations); advance `shift_offset`
and `tracking_index`. -/
def vldStep (BYTE_LEN b : Nat) (s : VldState) : VldState :=
  let overflow' := if BYTE_LEN ≤ s.ti then s.overflow ++ s.rb.take (BYTE_LEN - 1) else s.overflow
  let rb1 := if BYTE_LEN ≤ s.ti then s.rb.set 0 (s.rb.getD (BYTE_LEN - 1) 0) else s.rb
  let ti1 := if BYTE_LEN ≤ s.ti then 1 else s.ti
  let rb2 := rb1.set ti1 (b % 128)
  let rb3 :=
    if 0 < ti1 then
      let sh := 8 - s.so % 8
      let add := if 8 ≤ sh then 0 else rb2.getD ti1 0 * 2 ^ sh % 256
      let rb' := rb2.set (ti1 - 1) (Nat.lor (rb2.getD (ti1 - 1) 0) add)
      rb'.set ti1 (rb'.getD ti1 0 / 2 ^ (s.so % 8))
    else rb2
  let so1 := s.so + 1
  let ti2 := (if 8 ≤ so1 ∧ so1 % 8 = 0 then ti1 - 1 else ti1) + 1
  ⟨rb3, ti2, overflow', so1⟩

/-- The loop of `variable_lenth_decode` from src/util.rs.  One input byte is
consumed per iteration; `last_byte_reached` iff its continuation bit is
clear; end of input is the `UnexpectedEof` branch, which yields
`IncompleteVariableLengthEncoding`.  The returned list is the unconsumed
remainder of the input. -/
def variable_lenth_decode_loop (BYTE_LEN : Nat) :
    List Nat → VldState →
    Except VariableLengthDecodingError (VariableLengthResult × List Nat)
  | [], _ => .error .IncompleteVariableLengthEncoding
  | b :: input, s =>
    let s1 := vldStep BYTE_LEN b s
    if b % 128 = b then
      if s1.overflow = [] ∧ s1.ti < BYTE_LEN then
        .ok (.Respresentable (fromLEBytes (s1.rb.take BYTE_LEN)), input)
      else
        .ok (.Unrepresentable (s1.overflow ++ s1.rb.take s1.ti), input)
    else
      variable_lenth_decode_loop BYTE_LEN input s1

/-- `variable_lenth_decode` from src/util.rs, for a target of `BYTE_LEN`
bytes, started on the all-zero scratch buffer. -/
def variable_lenth_decode (BYTE_LEN : Nat) (input : List Nat) :
    Except VariableLengthDecodingError (VariableLengthResult × List Nat) :=
  variable_lenth_decode_loop BYTE_LEN input ⟨List.replicate MAX_LANG_BYTES 0, 0, [], 0⟩

/-- `variable_length_decode_u64` from src/util.rs: decode with the u64
target width (`BYTE_LEN = 8`). -/
def variable_length_decode_u64 (input : List Nat) :
    Except VariableLengthDecodingError (VariableLengthResult × List Nat) :=
  variable_lenth_decode 8 input

theorem lor_two_pow_mul (k a b : Nat) (ha : a < 2 ^ k) :
    Nat.lor a (2 ^ k * b) = a + 2 ^ k * b := by
  show a ||| (2 ^ k * b) = a + 2 ^ k * b
  rw [Nat.add_comm]
  apply Nat.eq_of_testBit_eq
  intro i
  rw [Nat.testBit_or, Nat.testBit_mul_pow_two, Nat.testBit_mul_pow_two_add b ha i]
  rcases Nat.lt_or_ge i k with h | h
  · simp [Nat.not_le.mpr h, h]
  · simp [h, Nat.not_lt.mpr h,
      Nat.testBit_lt_two_pow (Nat.lt_of_lt_of_le ha (Nat.pow_le_pow_right (by omega) h))]

theorem getD_set_eq (l : List Nat) (i v : Nat) (h : i < l.length) : (l.set i v).getD i 0 = v := by
  simp [List.getD, List.getElem?_set, h]

theorem getD_set_ne (l : List Nat) (i j v : Nat) (h : i ≠ j) :
    (l.set i v).getD j 0 = l.getD j 0 := by
  simp [List.getD, List.getElem?_set, h]

theorem getD_take (l : List Nat) (i n : Nat) (h : i < n) : (l.take n).getD i 0 = l.getD i 0 := by
  simp [List.getD, List.getElem?_take, h]

theorem getD_replicate (i n : Nat) : (List.replicate n (0 : Nat)).getD i 0 = 0 := by
  simp [List.getD, List.getElem?_replicate]
  split <;> rfl

/-- The scratch buffer holds the little-endian bytes of `N`. -/
def BufIs (rb : List Nat) (N : Nat) : Prop :=
  rb.length = 16 ∧ ∀ i, i < 16 → rb.getD i 0 = N / 256 ^ i % 256

theorem BufIs_zero : BufIs (List.replicate MAX_LANG_BYTES 0) 0 := by
  constructor
  · simp [MAX_LANG_BYTES]
  · intro i _
    rw [MAX_LANG_BYTES, getD_replicate]
    simp

theorem fromLEBytes_eq (l : List Nat) :
    ∀ N, (∀ i, i < l.length → l.getD i 0 = N / 256 ^ i % 256) → N < 256 ^ l.length →
    fromLEBytes l = N := by
  induction l with
  | nil =>
    intro N _ hN
    have hN0 : N = 0 := by simpa using hN
    simp [fromLEBytes, hN0]
  | cons b bs ih =>
    intro N h hN
    have h0 : b = N % 256 := by simpa using h 0 (by simp)
    have hrec : fromLEBytes bs = N / 256 := by
      apply ih
      · intro i hi
        have := h (i + 1) (by simpa using Nat.succ_lt_succ hi)
        simpa [Nat.div_div_eq_div_mul, Nat.pow_succ, Nat.mul_comm, List.getD_cons_succ] using this
      · have : N < 256 ^ (bs.length + 1) := by simpa [List.length_cons] using hN
        rw [Nat.div_lt_iff_lt_mul (by omega)]
        calc N < 256 ^ (bs.length + 1) := this
        _ = 256 ^ bs.length * 256 := by rw [Nat.pow_succ]
    rw [fromLEBytes, h0, hrec]
    omega

theorem vleLoop_fuel_irrel (z : Nat) : ∀ f g, z < f → z < g → vleLoop f z = vleLoop g z := by
  induction z using Nat.strong_induction_on with
  | _ z ih =>
    intro f g hf hg
    match f, g with
    | f + 1, g + 1 =>
      rw [vleLoop, vleLoop]
      by_cases h : z ≤ 0x7F
      · rw [if_pos h, if_pos h]
      · rw [if_neg h, if_neg h]
        congr 1
        exact ih (z / 0x80) (Nat.div_lt_self (by omega) (by omega)) f g
          (by have := Nat.div_lt_self (show 0 < z by omega) (show 1 < 0x80 by omega); omega)
          (by have := Nat.div_lt_self (show 0 < z by omega) (show 1 < 0x80 by omega); omega)

theorem vl_enc_small (z : Nat) (h : z ≤ 127) : variable_length_encode_u64 z = [z] := by
  rw [variable_length_encode_u64, vleLoop]
  rw [if_pos (by omega)]
  simp [Nat.mod_eq_of_lt (by omega : z < 128)]

theorem lor_cont_byte (z : Nat) : Nat.lor 0x80 (z % 0x80) = 128 + z % 128 := by
  show (128 : Nat) ||| (z % 128) = 128 + z % 128
  rw [Nat.lor_comm]
  have := lor_two_pow_mul 7 (z % 128) 1 (Nat.mod_lt _ (by omega))
  simpa [Nat.add_comm] using this

theorem vl_enc_big (z : Nat) (h : 128 ≤ z) :
    variable_length_encode_u64 z = (128 + z % 128) :: variable_length_encode_u64 (z / 128) := by
  rw [variable_length_encode_u64, variable_length_encode_u64, vleLoop]
  rw [if_neg (by omega)]
  rw [lor_cont_byte]
  congr 1
  exact vleLoop_fuel_irrel (z / 128) z (z / 128 + 1)
    (Nat.div_lt_self (by omega) (by omega)) (by omega)

theorem vl_enc_len (k : Nat) : ∀ z, z < 2 ^ (7 * (k + 1)) →
    (variable_length_encode_u64 z).length ≤ k + 1 := by
  induction k with
  | zero =>
    intro z hz
    rw [vl_enc_small z (by omega)]
    simp
  | succ k ih =>
    intro z hz
    by_cases h : z ≤ 127
    · rw [vl_enc_small z h]; simp
    · rw [vl_enc_big z (by omega)]
      have : z / 128 < 2 ^ (7 * (k + 1)) := by
        rw [Nat.div_lt_iff_lt_mul (by omega)]
        calc z < 2 ^ (7 * (k + 2)) := hz
        _ = 2 ^ (7 * (k + 1)) * 128 := by ring
      simpa using ih (z / 128) this


theorem pow256 (i : Nat) : (256 : Nat) ^ i = 2 ^ (8 * i) := by
  rw [show (256 : Nat) = 2 ^ 8 from rfl, ← pow_mul]

theorem byte_eq_of_ne (N d j i : Nat) (hj1 : 1 ≤ j) (hj7 : j ≤ 7)
    (hN : N < 2 ^ (7 * j)) (hd : d < 128) (hi1 : i ≠ j - 1) (hij : i ≠ j) :
    (N + d * 2 ^ (7 * j)) / 256 ^ i % 256 = N / 256 ^ i % 256 := by
  rw [pow256]
  rcases Nat.lt_or_ge i j with hlt | hge
  · -- i < j - 1
    have hi : i + 2 ≤ j := by omega
    have hsplit : d * 2 ^ (7 * j) = d * 2 ^ (7 * j - 8 * i - 8) * 2 ^ 8 * 2 ^ (8 * i) := by
      rw [Nat.mul_assoc, Nat.mul_assoc, ← pow_add, ← pow_add]
      congr 2
      omega
    rw [hsplit, Nat.add_mul_div_right _ _ (Nat.pos_pow_of_pos _ (by omega))]
    rw [show d * 2 ^ (7 * j - 8 * i - 8) * 2 ^ 8 = d * 2 ^ (7 * j - 8 * i - 8) * 256 from rfl,
      Nat.add_mul_mod_self_right]
  · -- i > j: both bytes are zero
    have hNi : N < 2 ^ (8 * i) := lt_of_lt_of_le hN (Nat.pow_le_pow_right (by omega) (by omega))
    have hNi2 : N + d * 2 ^ (7 * j) < 2 ^ (8 * i) := by
      have h1 : N + d * 2 ^ (7 * j) < 2 ^ (7 * j + 7) :=
        calc N + d * 2 ^ (7 * j) < 2 ^ (7 * j) + d * 2 ^ (7 * j) := by omega
          _ = (d + 1) * 2 ^ (7 * j) := by ring
          _ ≤ 128 * 2 ^ (7 * j) := Nat.mul_le_mul_right _ (by omega)
          _ = 2 ^ (7 * j + 7) := by rw [pow_add]; ring
      exact lt_of_lt_of_le h1 (Nat.pow_le_pow_right (by omega) (by omega))
    rw [Nat.div_eq_of_lt hNi, Nat.div_eq_of_lt hNi2]

theorem byte_at_j (N d j : Nat) (hN : N < 2 ^ (7 * j)) (hd : d < 128) :
    (N + d * 2 ^ (7 * j)) / 256 ^ j % 256 = d / 2 ^ j := by
  rw [pow256]
  have h8 : 2 ^ (8 * j) = 2 ^ (7 * j) * 2 ^ j := by rw [← pow_add]; congr 1; omega
  rw [h8, ← Nat.div_div_eq_div_mul, Nat.add_mul_div_right _ _ (Nat.pos_pow_of_pos _ (by omega)),
    Nat.div_eq_of_lt hN, Nat.zero_add]
  exact Nat.mod_eq_of_lt (lt_of_le_of_lt (Nat.div_le_self _ _) (by omega))

theorem byte_at_jm1 (N d j : Nat) (hj1 : 1 ≤ j) (hj7 : j ≤ 7)
    (hN : N < 2 ^ (7 * j)) (hd : d < 128) :
    (N + d * 2 ^ (7 * j)) / 256 ^ (j - 1) % 256 =
      Nat.lor (N / 256 ^ (j - 1) % 256) (d * 2 ^ (8 - j) % 256) := by
  rw [pow256]
  have hpow : 2 ^ (8 - j) * 2 ^ j = 256 := by
    rw [← pow_add, show 8 - j + j = 8 from by omega]
    norm_num
  have hmodlt : d % 2 ^ j < 2 ^ j := Nat.mod_lt _ (Nat.pos_pow_of_pos _ (by omega))
  have hp1 : 0 < 2 ^ (8 - j) := Nat.pos_pow_of_pos _ (by omega)
  have hp2 : 0 < 2 ^ j := Nat.pos_pow_of_pos _ (by omega)
  have hx : 2 ^ (8 - j) * (2 ^ j - 1) = 256 - 2 ^ (8 - j) := by
    rw [Nat.mul_sub_one, hpow]
  have hA : N / 2 ^ (8 * (j - 1)) < 2 ^ (8 - j) := by
    rw [Nat.div_lt_iff_lt_mul (Nat.pos_pow_of_pos _ (by omega)), ← pow_add]
    exact lt_of_lt_of_le hN (Nat.pow_le_pow_right (by omega) (by omega))
  have hAmod : N / 2 ^ (8 * (j - 1)) % 256 = N / 2 ^ (8 * (j - 1)) := by
    apply Nat.mod_eq_of_lt
    have h1 : 2 ^ (8 - j) ≤ 256 := by
      calc 2 ^ (8 - j) ≤ 2 ^ 8 := Nat.pow_le_pow_right (by omega) (by omega)
        _ = 256 := by norm_num
    omega
  have hdsplit : d * 2 ^ (8 - j) = d % 2 ^ j * 2 ^ (8 - j) + d / 2 ^ j * 256 := by
    conv_lhs => rw [← Nat.div_add_mod d (2 ^ j)]
    rw [← hpow]
    ring
  have hmul : d % 2 ^ j * 2 ^ (8 - j) ≤ 2 ^ (8 - j) * (2 ^ j - 1) := by
    rw [Nat.mul_comm]
    exact Nat.mul_le_mul_left _ (by omega)
  have hlow : d % 2 ^ j * 2 ^ (8 - j) < 256 := by omega
  have haddmod : d * 2 ^ (8 - j) % 256 = d % 2 ^ j * 2 ^ (8 - j) := by
    rw [hdsplit, Nat.add_mul_mod_self_right]
    exact Nat.mod_eq_of_lt hlow
  have hsplit : d * 2 ^ (7 * j) = d * 2 ^ (8 - j) * 2 ^ (8 * (j - 1)) := by
    rw [Nat.mul_assoc, ← pow_add]
    congr 2
    omega
  rw [hsplit, Nat.add_mul_div_right _ _ (Nat.pos_pow_of_pos _ (by omega))]
  rw [hAmod, haddmod, Nat.mul_comm (d % 2 ^ j) (2 ^ (8 - j)),
    lor_two_pow_mul (8 - j) _ (d % 2 ^ j) hA]
  conv_lhs => rw [hdsplit]
  rw [show N / 2 ^ (8 * (j - 1)) + (d % 2 ^ j * 2 ^ (8 - j) + d / 2 ^ j * 256) =
    N / 2 ^ (8 * (j - 1)) + d % 2 ^ j * 2 ^ (8 - j) + d / 2 ^ j * 256 from by ring,
    Nat.add_mul_mod_self_right]
  rw [Nat.mul_comm (2 ^ (8 - j)) (d % 2 ^ j)]
  apply Nat.mod_eq_of_lt
  omega

theorem BufIs_step (rb : List Nat) (N d j : Nat) (hj1 : 1 ≤ j) (hj7 : j ≤ 7)
    (hN : N < 2 ^ (7 * j)) (hd : d < 128) (hb : BufIs rb N) :
    BufIs
      (((rb.set j d).set (j - 1)
          (Nat.lor ((rb.set j d).getD (j - 1) 0) ((rb.set j d).getD j 0 * 2 ^ (8 - j) % 256))).set j
        ((((rb.set j d).set (j - 1)
            (Nat.lor ((rb.set j d).getD (j - 1) 0)
              ((rb.set j d).getD j 0 * 2 ^ (8 - j) % 256))).getD j 0) / 2 ^ j))
      (N + d * 2 ^ (7 * j)) := by
  obtain ⟨hlen, hbyte⟩ := hb
  have hjlen : j < rb.length := by omega
  have hne : j ≠ j - 1 := by omega
  have hgd1 : (rb.set j d).getD (j - 1) 0 = N / 256 ^ (j - 1) % 256 := by
    rw [getD_set_ne _ _ _ _ hne]
    exact hbyte (j - 1) (by omega)
  have hgd2 : (rb.set j d).getD j 0 = d := getD_set_eq _ _ _ hjlen
  have hgd3 :
      ((rb.set j d).set (j - 1)
        (Nat.lor ((rb.set j d).getD (j - 1) 0)
          ((rb.set j d).getD j 0 * 2 ^ (8 - j) % 256))).getD j 0 = d := by
    rw [getD_set_ne _ _ _ _ (by omega : j - 1 ≠ j), hgd2]
  constructor
  · simp [List.length_set, hlen]
  · intro i hi
    have hxlen : ((rb.set j d).set (j - 1)
        (Nat.lor ((rb.set j d).getD (j - 1) 0)
          ((rb.set j d).getD j 0 * 2 ^ (8 - j) % 256))).length = rb.length := by
      simp [List.length_set]
    by_cases hij : i = j
    · subst hij
      rw [getD_set_eq _ _ _ (by omega), hgd3]
      exact (byte_at_j N d i hN hd).symm
    · rw [getD_set_ne _ _ _ _ (fun h => hij h.symm)]
      by_cases hij1 : i = j - 1
      · subst hij1
        rw [getD_set_eq _ _ _ (by rw [List.length_set]; omega), hgd1, hgd2]
        exact (byte_at_jm1 N d j hj1 hj7 hN hd).symm
      · rw [getD_set_ne _ _ _ _ (fun h => hij1 h.symm), getD_set_ne _ _ _ _ (fun h => hij h.symm)]
        rw [hbyte i hi]
        exact (byte_eq_of_ne N d j i hj1 hj7 hN hd (fun h => hij1 h) (fun h => hij h)).symm

theorem fromLE_take8 (buf : List Nat) (N : Nat) (hb : BufIs buf N) (hN : N < 2 ^ 64) :
    fromLEBytes (List.take 8 buf) = N := by
  obtain ⟨hlen, hbyte⟩ := hb
  apply fromLEBytes_eq
  · intro i hi
    rw [List.length_take] at hi
    rw [getD_take _ _ _ (by omega)]
    exact hbyte i (by omega)
  · rw [List.length_take, hlen]
    exact lt_of_lt_of_le hN (by norm_num)

theorem vld_loop_enc (m : Nat) : ∀ j N r rb, 1 ≤ j → j ≤ 7 → N < 2 ^ (7 * j) →
    (variable_length_encode_u64 m).length + j ≤ 8 → BufIs rb N →
    variable_lenth_decode_loop 8 (variable_length_encode_u64 m ++ r) ⟨rb, j, [], j⟩ =
      .ok (.Respresentable (N + m * 2 ^ (7 * j)), r) := by
  induction m using Nat.strong_induction_on with
  | _ m IH =>
    intro j N r rb hj1 hj7 hN hlen hb
    have h8j : ¬ 8 ≤ j := by omega
    have hjm : j % 8 = j := Nat.mod_eq_of_lt (by omega)
    by_cases hm : m ≤ 127
    · rw [vl_enc_small m hm]
      rw [List.cons_append, List.nil_append, variable_lenth_decode_loop]
      have hmod : m % 128 = m := Nat.mod_eq_of_lt (by omega)
      have hti : (if 8 ≤ j + 1 ∧ (j + 1) % 8 = 0 then j - 1 else j) + 1 < 8 := by
        by_cases h : 8 ≤ j + 1 ∧ (j + 1) % 8 = 0
        · rw [if_pos h]; omega
        · rw [if_neg h]; omega
      simp only [vldStep, if_neg h8j, hmod, hjm, if_pos (by omega : 0 < j),
        if_neg (by omega : ¬ 8 ≤ 8 - j), if_pos rfl]
      rw [if_pos (And.intro trivial hti)]
      have hstep := BufIs_step rb N m j hj1 hj7 hN (by omega) hb
      have hbound : N + m * 2 ^ (7 * j) < 2 ^ 64 := by
        have h1 : N + m * 2 ^ (7 * j) < 2 ^ (7 * j + 7) :=
          calc N + m * 2 ^ (7 * j) < 2 ^ (7 * j) + m * 2 ^ (7 * j) := by omega
            _ = (m + 1) * 2 ^ (7 * j) := by ring
            _ ≤ 128 * 2 ^ (7 * j) := Nat.mul_le_mul_right _ (by omega)
            _ = 2 ^ (7 * j + 7) := by rw [pow_add]; ring
        exact lt_of_lt_of_le h1 (Nat.pow_le_pow_right (by omega) (by omega))
      rw [fromLE_take8 _ _ hstep hbound]
      simp
    · have hge : 128 ≤ m := by omega
      rw [vl_enc_big m hge, List.cons_append, variable_lenth_decode_loop]
      have hlen2 : (variable_length_encode_u64 (m / 128)).length + (j + 1) ≤ 8 := by
        rw [vl_enc_big m hge, List.length_cons] at hlen
        omega
      have hj6 : j ≤ 6 := by
        have h1 : 1 ≤ (variable_length_encode_u64 (m / 128)).length := by
          by_cases h : m / 128 ≤ 127
          · rw [vl_enc_small _ h]; simp
          · rw [vl_enc_big _ (by omega)]; simp
        omega
      have hbv : (128 + m % 128) % 128 = m % 128 := by omega
      have hcond : ¬ (m % 128 = 128 + m % 128) := by omega
      simp only [vldStep, if_neg h8j, hbv, hjm, if_pos (by omega : 0 < j),
        if_neg (by omega : ¬ 8 ≤ 8 - j), if_neg hcond,
        if_neg (by omega : ¬ (8 ≤ j + 1 ∧ (j + 1) % 8 = 0))]
      have hN' : N + m % 128 * 2 ^ (7 * j) < 2 ^ (7 * (j + 1)) := by
        have hpow : 2 ^ (7 * (j + 1)) = 2 ^ (7 * j) * 128 := by
          rw [show 7 * (j + 1) = 7 * j + 7 from by ring, pow_add]
          norm_num
        calc N + m % 128 * 2 ^ (7 * j) < 2 ^ (7 * j) + m % 128 * 2 ^ (7 * j) := by omega
          _ = (m % 128 + 1) * 2 ^ (7 * j) := by ring
          _ ≤ 128 * 2 ^ (7 * j) := Nat.mul_le_mul_right _ (by omega)
          _ = 2 ^ (7 * (j + 1)) := by rw [hpow]; ring
      have hstep := BufIs_step rb N (m % 128) j hj1 hj7 hN (by omega) hb
      rw [IH (m / 128) (Nat.div_lt_self (by omega) (by omega)) (j + 1)
        (N + m % 128 * 2 ^ (7 * j)) r _ (by omega) (by omega) hN' hlen2 hstep]
      have harith : N + m % 128 * 2 ^ (7 * j) + m / 128 * 2 ^ (7 * (j + 1)) =
          N + m * 2 ^ (7 * j) := by
        have hm128 : m % 128 + 128 * (m / 128) = m := Nat.mod_add_div m 128
        have hpow : 2 ^ (7 * (j + 1)) = 2 ^ (7 * j) * 128 := by
          rw [show 7 * (j + 1) = 7 * j + 7 from by ring, pow_add]
          norm_num
        calc N + m % 128 * 2 ^ (7 * j) + m / 128 * 2 ^ (7 * (j + 1)) =
            N + (m % 128 + 128 * (m / 128)) * 2 ^ (7 * j) := by rw [hpow]; ring
          _ = N + m * 2 ^ (7 * j) := by rw [hm128]
      rw [harith]

theorem BufIs_first (d : Nat) (hd : d < 128) :
    BufIs ((List.replicate MAX_LANG_BYTES 0).set 0 d) d := by
  constructor
  · simp [List.length_set, MAX_LANG_BYTES]
  · intro i hi
    by_cases h0 : i = 0
    · subst h0
      rw [getD_set_eq _ _ _ (by simp [MAX_LANG_BYTES])]
      simp [Nat.mod_eq_of_lt (by omega : d < 256)]
    · rw [getD_set_ne _ _ _ _ (fun h => h0 h.symm), getD_replicate]
      have : d < 256 ^ i := by
        calc d < 256 := by omega
          _ = 256 ^ 1 := by norm_num
          _ ≤ 256 ^ i := Nat.pow_le_pow_right (by omega) (by omega)
      rw [Nat.div_eq_of_lt this]

/-- Correctness of the variable-length decoder on encoder output, below the
2^56 threshold: the value round-trips and exactly the encoding is consumed. -/
theorem variable_length_decode_u64_enc (n : Nat) (hn : n < 2 ^ 56) (r : List Nat) :
    variable_length_decode_u64 (variable_length_encode_u64 n ++ r) =
      .ok (.Respresentable n, r) := by
  rw [variable_length_decode_u64, variable_lenth_decode]
  by_cases hn127 : n ≤ 127
  · rw [vl_enc_small n hn127, List.cons_append, List.nil_append, variable_lenth_decode_loop]
    have hmod : n % 128 = n := Nat.mod_eq_of_lt (by omega)
    simp only [vldStep, if_neg (by omega : ¬ 8 ≤ 0), hmod, if_neg (by omega : ¬ (0:Nat) < 0),
      if_neg (by omega : ¬ (8 ≤ 0 + 1 ∧ (0 + 1) % 8 = 0))]
    rw [if_pos trivial, if_pos (And.intro trivial (by omega : (0:Nat) + 1 < 8))]
    rw [fromLE_take8 _ n (BufIs_first n (by omega)) (by
      calc n < 2 ^ 56 := hn
        _ ≤ 2 ^ 64 := Nat.pow_le_pow_right (by omega) (by omega))]
  · have hge : 128 ≤ n := by omega
    rw [vl_enc_big n hge, List.cons_append, variable_lenth_decode_loop]
    have hbv : (128 + n % 128) % 128 = n % 128 := by omega
    have hcond : ¬ (n % 128 = 128 + n % 128) := by omega
    simp only [vldStep, if_neg (by omega : ¬ 8 ≤ 0), hbv, if_neg (by omega : ¬ (0:Nat) < 0),
      if_neg (by omega : ¬ (8 ≤ 0 + 1 ∧ (0 + 1) % 8 = 0)), if_neg hcond]
    have hdivlt : n / 128 < 2 ^ (7 * 7) := by
      rw [Nat.div_lt_iff_lt_mul (by omega)]
      calc n < 2 ^ 56 := hn
        _ = 2 ^ (7 * 7) * 128 := by norm_num
    have hlen : (variable_length_encode_u64 (n / 128)).length + 1 ≤ 8 := by
      have := vl_enc_len 6 (n / 128) hdivlt
      omega
    rw [vld_loop_enc (n / 128) 1 (n % 128) r _ (by omega) (by omega)
      (by have := Nat.mod_lt n (show 0 < 128 by omega); simpa using this)
      hlen (BufIs_first (n % 128) (Nat.mod_lt n (by omega)))]
    have : n % 128 + n / 128 * 2 ^ (7 * 1) = n := by
      have := Nat.mod_add_div n 128
      simpa [Nat.mul_comm] using this
    rw [this]

/-- The decoder loop only inspects the bytes it consumes: an accepting run
determines a consumed prefix, and any continuation may follow it. -/
theorem vld_loop_locality (input : List Nat) : ∀ s res rest,
    variable_lenth_decode_loop 8 input s = Except.ok (res, rest) →
    ∃ c, input = c ++ rest ∧
      ∀ q, variable_lenth_decode_loop 8 (c ++ q) s = Except.ok (res, q) := by
  induction input with
  | nil =>
    intro s res rest h
    rw [variable_lenth_decode_loop] at h
    exact absurd h (by simp)
  | cons b bs ih =>
    intro s res rest h
    rw [variable_lenth_decode_loop] at h
    by_cases h1 : b % 128 = b
    · rw [if_pos h1] at h
      by_cases h2 : (vldStep 8 b s).overflow = [] ∧ (vldStep 8 b s).ti < 8
      · rw [if_pos h2, Except.ok.injEq, Prod.mk.injEq] at h
        obtain ⟨rfl, rfl⟩ := h
        refine ⟨[b], rfl, fun q => ?_⟩
        rw [List.cons_append, List.nil_append, variable_lenth_decode_loop, if_pos h1, if_pos h2]
      · rw [if_neg h2, Except.ok.injEq, Prod.mk.injEq] at h
        obtain ⟨rfl, rfl⟩ := h
        refine ⟨[b], rfl, fun q => ?_⟩
        rw [List.cons_append, List.nil_append, variable_lenth_decode_loop, if_pos h1, if_neg h2]
    · rw [if_neg h1] at h
      obtain ⟨c, hc1, hc2⟩ := ih _ _ _ h
      refine ⟨b :: c, by rw [List.cons_append, hc1], fun q => ?_⟩
      rw [List.cons_append, variable_lenth_decode_loop, if_neg h1]
      exact hc2 q


/-! ## Schema AST and wire codec (src/spec.rs)

Rust `String`s appear in the AST as their UTF-8 byte lists.  `validUtf8`
is the UTF-8 well-formedness check that `Read::read_to_string` performs
(RFC 3629: no overlong forms, no surrogates, maximum U+10FFFF); a byte
list that is the contents of a Rust `String` always satisfies it. -/

/-- A byte stream (used in signatures of `Spec.`-namespaced definitions,
where the bare name `List` would resolve to the `Spec.List` constructor). -/
abbrev ByteStream : Type := List Nat

/-- Is `c` a UTF-8 continuation byte (`0x80..=0xBF`)? -/
def utf8Cont (c : Nat) : Bool := 0x80 ≤ c ∧ c ≤ 0xBF

/-- UTF-8 validity of a byte list, as checked by `read_to_string`. -/
def validUtf8 : List Nat → Bool
  | [] => true
  | b :: rest =>
    if b < 0x80 then validUtf8 rest
    else if 0xC2 ≤ b ∧ b ≤ 0xDF then
      match rest with
      | c1 :: r => utf8Cont c1 && validUtf8 r
      | [] => false
    else if b = 0xE0 then
      match rest with
      | c1 :: c2 :: r => (0xA0 ≤ c1 && c1 ≤ 0xBF) && utf8Cont c2 && validUtf8 r
      | _ => false
    else if (0xE1 ≤ b ∧ b ≤ 0xEC) ∨ b = 0xEE ∨ b = 0xEF then
      match rest with
      | c1 :: c2 :: r => utf8Cont c1 && utf8Cont c2 && validUtf8 r
      | _ => false
    else if b = 0xED then
      match rest with
      | c1 :: c2 :: r => (0x80 ≤ c1 && c1 ≤ 0x9F) && utf8Cont c2 && validUtf8 r
      | _ => false
    else if b = 0xF0 then
      match rest with
      | c1 :: c2 :: c3 :: r => (0x90 ≤ c1 && c1 ≤ 0xBF) && utf8Cont c2 && utf8Cont c3 && validUtf8 r
      | _ => false
    else if 0xF1 ≤ b ∧ b ≤ 0xF3 then
      match rest with
      | c1 :: c2 :: c3 :: r => utf8Cont c1 && utf8Cont c2 && utf8Cont c3 && validUtf8 r
      | _ => false
    else if b = 0xF4 then
      match rest with
      | c1 :: c2 :: c3 :: r => (0x80 ≤ c1 && c1 ≤ 0x8F) && utf8Cont c2 && utf8Cont c3 && validUtf8 r
      | _ => false
    else false

/-- `Size` from src/spec.rs. -/
inductive Size where
  | Fixed (n : Nat)
  | Variable
deriving DecidableEq

/-- `InterchangeBinaryFloatingPointFormat` from src/spec.rs. -/
inductive InterchangeBinaryFloatingPointFormat where
  | Half
  | Single
  | Double
  | Quadruple
  | Octuple
deriving DecidableEq

/-- `InterchangeDecimalFloatingPointFormat` from src/spec.rs. -/
inductive InterchangeDecimalFloatingPointFormat where
  | Dec32
  | Dec64
  | Dec128
deriving DecidableEq

/-- `StringEncodingFmt` from src/spec.rs. -/
inductive StringEncodingFmt where
  | Utf8
  | Utf16
  | Ascii
deriving DecidableEq

/-- The schema AST `Spec` from src/spec.rs.  `u8` fields are `Nat`s below
256 and `u64` fields `Nat`s below 2^64 (recorded by `specWF`); `String`s
are UTF-8 byte lists. -/
inductive Spec where
  | Bool
  | Uint (scale : Nat)
  | Int (scale : Nat)
  | BinaryFloatingPoint (fmt : InterchangeBinaryFloatingPointFormat)
  | DecimalFloatingPoint (fmt : InterchangeDecimalFloatingPointFormat)
  | Decimal (precision : Nat) (scale : Nat)
  | Map (size : Size) (key_spec : Spec) (value_spec : Spec)
  | List (size : Size) (value_spec : Spec)
  | String (size : Size) (fmt : StringEncodingFmt)
  | Bytes (size : Size)
  | Optional (spec : Spec)
  | Name (name : List Nat) (spec : Spec)
  | Ref (name : List Nat)
  | Record (fields : List (List Nat × Spec))
  | Tuple (fields : List Spec)
  | Enum (variants : List (List Nat × Spec))
  | Union (variants : List Spec)
  | Void

-- Tag constants from src/spec.rs (core and aliases).
def BOOL : Nat := 32
def UINT : Nat := 33
def NAME : Nat := 34
def INT : Nat := 35
def BINARY_FP : Nat := 36
def DECIMAL_FP : Nat := 37
def REF : Nat := 38
def VOID : Nat := 39
def LIST : Nat := 40
def MAP : Nat := 41
def RECORD : Nat := 42
def ENUM : Nat := 43
def UNION : Nat := 45
def DECIMAL : Nat := 46
def TUPLE : Nat := 47
def BYTES : Nat := 48
def STRING : Nat := 49
def OPTIONAL : Nat := 63
def UINT_0 : Nat := 0
def UINT_1 : Nat := 1
def UINT_2 : Nat := 2
def UINT_3 : Nat := 3
def INT_0 : Nat := 4
def INT_1 : Nat := 5
def INT_2 : Nat := 6
def INT_3 : Nat := 7
def SINGLE_FP : Nat := 8
def DOUBLE_FP : Nat := 9
def UTF8_STRING : Nat := 10

/-- `encode_string_utf8` from src/spec.rs: varint byte length, then the
UTF-8 bytes. -/
def encode_string_utf8 (s : List Nat) : List Nat :=
  variable_length_encode_u64 s.length ++ s

/-- `Size::encode` from src/spec.rs: `Fixed(n)` is tag byte 0 followed by
varint `n`; `Variable` is tag byte 1. -/
def Size.encode : Size → List Nat
  | .Fixed n => 0 :: variable_length_encode_u64 n
  | .Variable => [1]

/-- `InterchangeBinaryFloatingPointFormat::encode` from src/spec.rs. -/
def InterchangeBinaryFloatingPointFormat.encode :
    InterchangeBinaryFloatingPointFormat → List Nat
  | .Half => [0]
  | .Single => [1]
  | .Double => [2]
  | .Quadruple => [3]
  | .Octuple => [4]

/-- `InterchangeDecimalFloatingPointFormat::encode` from src/spec.rs. -/
def InterchangeDecimalFloatingPointFormat.encode :
    InterchangeDecimalFloatingPointFormat → List Nat
  | .Dec32 => [0]
  | .Dec64 => [1]
  | .Dec128 => [2]

/-- `StringEncodingFmt::encode` from src/spec.rs. -/
def StringEncodingFmt.encode : StringEncodingFmt → List Nat
  | .Utf8 => [0]
  | .Utf16 => [1]
  | .Ascii => [2]

mutual
/-- `Spec::to_bytes_internal` from src/spec.rs (and `Spec::to_bytes`,
which writes into a `Vec`): the emitted byte list.  The `usize` byte
count the Rust writer also returns is the length of this list and is not
modelled separately. -/
def Spec.to_bytes : Spec → ByteStream
  | .Bool => [BOOL]
  | .Uint scale =>
    match scale with
    | 0 => [UINT_0]
    | 1 => [UINT_1]
    | 2 => [UINT_2]
    | 3 => [UINT_3]
    | s => [UINT, s]
  | .Int scale =>
    match scale with
    | 0 => [INT_0]
    | 1 => [INT_1]
    | 2 => [INT_2]
    | 3 => [INT_3]
    | s => [INT, s]
  | .BinaryFloatingPoint fmt =>
    match fmt with
    | .Single => [SINGLE_FP]
    | .Double => [DOUBLE_FP]
    | fmt => BINARY_FP :: fmt.encode
  | .DecimalFloatingPoint fmt => DECIMAL_FP :: fmt.encode
  | .Decimal precision scale =>
    DECIMAL :: variable_length_encode_u64 precision ++ variable_length_encode_u64 scale
  | .Map size key_spec value_spec =>
    MAP :: size.encode ++ Spec.to_bytes key_spec ++ Spec.to_bytes value_spec
  | .List size value_spec => LIST :: size.encode ++ Spec.to_bytes value_spec
  | .String size str_fmt =>
    if size = Size.Variable ∧ str_fmt = StringEncodingFmt.Utf8 then
      [UTF8_STRING]
    else
      STRING :: size.encode ++ str_fmt.encode
  | .Bytes size => BYTES :: size.encode
  | .Optional optional_type => OPTIONAL :: Spec.to_bytes optional_type
  | .Name name spec => NAME :: encode_string_utf8 name ++ Spec.to_bytes spec
  | .Ref name => REF :: encode_string_utf8 name
  | .Record fields =>
    RECORD :: variable_length_encode_u64 fields.length ++ namedFieldsToBytes fields
  | .Tuple fields => TUPLE :: variable_length_encode_u64 fields.length ++ specListToBytes fields
  | .Enum variants =>
    ENUM :: variable_length_encode_u64 variants.length ++ namedFieldsToBytes variants
  | .Union variants =>
    UNION :: variable_length_encode_u64 variants.length ++ specListToBytes variants
  | .Void => [VOID]
termination_by structural s => s

/-- The field iteration inside `Spec::to_bytes_internal` for `Record` and
`Enum`: each entry is the UTF-8-encoded name followed by the spec. -/
def namedFieldsToBytes : List (List Nat × Spec) → List Nat
  | [] => []
  | (name, spec) :: rest => encode_string_utf8 name ++ Spec.to_bytes spec ++ namedFieldsToBytes rest
termination_by structural l => l

/-- The field iteration inside `Spec::to_bytes_internal` for `Tuple` and
`Union`. -/
def specListToBytes : List Spec → List Nat
  | [] => []
  | spec :: rest => Spec.to_bytes spec ++ specListToBytes rest
termination_by structural l => l
end

/-- `SpecParsingError` from src/spec.rs.  `ReadError(io::Error)` arises,
for a byte-list reader, only from `read_to_string` rejecting invalid
UTF-8 (an `InvalidData` error, which `From<io::Error>` does not map to
`UnexpectedEndOfBytes`); the `io::Error` payload is not modelled.
`FuelExhausted` is an artifact of the fuel-based embedding of the
recursive descent and never occurs with the fuel supplied by
`Spec.read_from_bytes`. -/
inductive SpecParsingError where
  | ReadError
  | UnexpectedEndOfBytes
  | UnknownSpecFlag (flag : Nat)
  | UnknownBinaryFormatFlag (flag : Nat)
  | UnknownDecimalFormatFlag (flag : Nat)
  | UnknownStringFormatFlag (flag : Nat)
  | UnknownSizeFormatFlag (flag : Nat)
  | VariableLengthDecodingError (e : VariableLengthDecodingError)
  | IntegerOverflowVariableLengthDecodingError (bytes : List Nat)
  | FuelExhausted
deriving DecidableEq

/-- `next_byte` from src/spec.rs: one byte, or `UnexpectedEndOfBytes`. -/
def next_byte : List Nat → Except SpecParsingError (Nat × List Nat)
  | [] => .error .UnexpectedEndOfBytes
  | b :: rest => .ok (b, rest)

/-- `decode_u64` from src/spec.rs: variable-length decode into a u64
target; an `Unrepresentable` result becomes
`IntegerOverflowVariableLengthDecodingError`. -/
def decode_u64 (input : List Nat) : Except SpecParsingError (Nat × List Nat) :=
  match variable_length_decode_u64 input with
  | .ok (.Respresentable n, rest) => .ok (n, rest)
  | .ok (.Unrepresentable v, _) => .error (.IntegerOverflowVariableLengthDecodingError v)
  | .error e => .error (.VariableLengthDecodingError e)

/-- `decode_utf8_string` from src/spec.rs: varint length `n`, then
`take(n).read_to_string`.  `read_to_string` reads the available bytes (at
most `n`), failing with `InvalidData` (here `ReadError`) if they are not
valid UTF-8; reading fewer than `n` valid bytes yields
`UnexpectedEndOfBytes`. -/
def decode_utf8_string (input : List Nat) : Except SpecParsingError (List Nat × List Nat) :=
  match decode_u64 input with
  | .error e => .error e
  | .ok (n, rest) =>
    let s := rest.take n
    if validUtf8 s then
      if s.length < n then .error .UnexpectedEndOfBytes
      else .ok (s, rest.drop n)
    else .error .ReadError

/-- `Size::decode` from src/spec.rs: tag 0 is `Fixed` (varint payload
follows), tag 1 is `Variable`, anything else `UnknownSizeFormatFlag`. -/
def Size.decode (input : List Nat) : Except SpecParsingError (Size × List Nat) :=
  match next_byte input with
  | .error e => .error e
  | .ok (b, rest) =>
    match b with
    | 0 =>
      match decode_u64 rest with
      | .error e => .error e
      | .ok (n, rest') => .ok (.Fixed n, rest')
    | 1 => .ok (.Variable, rest)
    | b => .error (.UnknownSizeFormatFlag b)

/-- `InterchangeBinaryFloatingPointFormat::decode` from src/spec.rs. -/
def InterchangeBinaryFloatingPointFormat.decode (input : List Nat) :
    Except SpecParsingError (InterchangeBinaryFloatingPointFormat × List Nat) :=
  match next_byte input with
  | .error e => .error e
  | .ok (b, rest) =>
    match b with
    | 0 => .ok (.Half, rest)
    | 1 => .ok (.Single, rest)
    | 2 => .ok (.Double, rest)
    | 3 => .ok (.Quadruple, rest)
    | 4 => .ok (.Octuple, rest)
    | b => .error (.UnknownBinaryFormatFlag b)

/-- `InterchangeDecimalFloatingPointFormat::decode` from src/spec.rs. -/
def InterchangeDecimalFloatingPointFormat.decode (input : List Nat) :
    Except SpecParsingError (InterchangeDecimalFloatingPointFormat × List Nat) :=
  match next_byte input with
  | .error e => .error e
  | .ok (b, rest) =>
    match b with
    | 0 => .ok (.Dec32, rest)
    | 1 => .ok (.Dec64, rest)
    | 2 => .ok (.Dec128, rest)
    | b => .error (.UnknownDecimalFormatFlag b)

/-- `StringEncodingFmt::decode` from src/spec.rs. -/
def StringEncodingFmt.decode (input : List Nat) :
    Except SpecParsingError (StringEncodingFmt × List Nat) :=
  match next_byte input with
  | .error e => .error e
  | .ok (b, rest) =>
    match b with
    | 0 => .ok (.Utf8, rest)
    | 1 => .ok (.Utf16, rest)
    | 2 => .ok (.Ascii, rest)
    | b => .error (.UnknownStringFormatFlag b)

mutual
/-- `Spec::read_from_bytes` from src/spec.rs, with explicit fuel bounding
the recursive-descent depth (the Rust recursion is bounded by the input it
consumes; `Spec.read_from_bytes` below supplies always-sufficient fuel).
Tag dispatch follows the constant table of src/spec.rs. -/
def readSpecF : Nat → List Nat → Except SpecParsingError (Spec × List Nat)
  | 0, _ => .error .FuelExhausted
  | fuel + 1, input =>
    match next_byte input with
    | .error e => .error e
    | .ok (b, r) =>
      match b with
      | 32 => .ok (.Bool, r)
      | 39 => .ok (.Void, r)
      | 33 =>
        match next_byte r with
        | .error e => .error e
        | .ok (s, r') => .ok (.Uint s, r')
      | 35 =>
        match next_byte r with
        | .error e => .error e
        | .ok (s, r') => .ok (.Int s, r')
      | 34 =>
        match decode_utf8_string r with
        | .error e => .error e
        | .ok (name, r') =>
          match readSpecF fuel r' with
          | .error e => .error e
          | .ok (spec, r'') => .ok (.Name name spec, r'')
      | 38 =>
        match decode_utf8_string r with
        | .error e => .error e
        | .ok (name, r') => .ok (.Ref name, r')
      | 36 =>
        match InterchangeBinaryFloatingPointFormat.decode r with
        | .error e => .error e
        | .ok (fmt, r') => .ok (.BinaryFloatingPoint fmt, r')
      | 37 =>
        match InterchangeDecimalFloatingPointFormat.decode r with
        | .error e => .error e
        | .ok (fmt, r') => .ok (.DecimalFloatingPoint fmt, r')
      | 40 =>
        match Size.decode r with
        | .error e => .error e
        | .ok (size, r') =>
          match readSpecF fuel r' with
          | .error e => .error e
          | .ok (value_spec, r'') => .ok (.List size value_spec, r'')
      | 41 =>
        match Size.decode r with
        | .error e => .error e
        | .ok (size, r') =>
          match readSpecF fuel r' with
          | .error e => .error e
          | .ok (key_spec, r'') =>
            match readSpecF fuel r'' with
            | .error e => .error e
            | .ok (value_spec, r3) => .ok (.Map size key_spec value_spec, r3)
      | 46 =>
        match decode_u64 r with
        | .error e => .error e
        | .ok (precision, r') =>
          match decode_u64 r' with
          | .error e => .error e
          | .ok (scale, r'') => .ok (.Decimal precision scale, r'')
      | 48 =>
        match Size.decode r with
        | .error e => .error e
        | .ok (size, r') => .ok (.Bytes size, r')
      | 49 =>
        match Size.decode r with
        | .error e => .error e
        | .ok (size, r') =>
          match StringEncodingFmt.decode r' with
          | .error e => .error e
          | .ok (fmt, r'') => .ok (.String size fmt, r'')
      | 63 =>
        match readSpecF fuel r with
        | .error e => .error e
        | .ok (spec, r') => .ok (.Optional spec, r')
      | 42 =>
        match decode_u64 r with
        | .error e => .error e
        | .ok (n, r') =>
          match readNamedEntriesF fuel n r' with
          | .error e => .error e
          | .ok (v, r'') => .ok (.Record v, r'')
      | 47 =>
        match decode_u64 r with
        | .error e => .error e
        | .ok (n, r') =>
          match readSpecListF fuel n r' with
          | .error e => .error e
          | .ok (v, r'') => .ok (.Tuple v, r'')
      | 43 =>
        match decode_u64 r with
        | .error e => .error e
        | .ok (n, r') =>
          match readNamedEntriesF fuel n r' with
          | .error e => .error e
          | .ok (v, r'') => .ok (.Enum v, r'')
      | 45 =>
        match decode_u64 r with
        | .error e => .error e
        | .ok (n, r') =>
          match readSpecListF fuel n r' with
          | .error e => .error e
          | .ok (v, r'') => .ok (.Union v, r'')
      | 0 => .ok (.Uint 0, r)
      | 1 => .ok (.Uint 1, r)
      | 2 => .ok (.Uint 2, r)
      | 3 => .ok (.Uint 3, r)
      | 4 => .ok (.Int 0, r)
      | 5 => .ok (.Int 1, r)
      | 6 => .ok (.Int 2, r)
      | 7 => .ok (.Int 3, r)
      | 8 => .ok (.BinaryFloatingPoint .Single, r)
      | 9 => .ok (.BinaryFloatingPoint .Double, r)
      | 10 => .ok (.String .Variable .Utf8, r)
      | flag => .error (.UnknownSpecFlag flag)

/-- The `for _ in 0..n` loop of the `RECORD`/`ENUM` branches of
`Spec::read_from_bytes`: `n` (name, spec) pairs in sequence. -/
def readNamedEntriesF : Nat → Nat → List Nat →
    Except SpecParsingError (List (List Nat × Spec) × List Nat)
  | 0, _, _ => .error .FuelExhausted
  | _ + 1, 0, input => .ok ([], input)
  | fuel + 1, n + 1, input =>
    match decode_utf8_string input with
    | .error e => .error e
    | .ok (name, r) =>
      match readSpecF fuel r with
      | .error e => .error e
      | .ok (spec, r') =>
        match readNamedEntriesF fuel n r' with
        | .error e => .error e
        | .ok (rest, r'') => .ok ((name, spec) :: rest, r'')

/-- The `for _ in 0..n` loop of the `TUPLE`/`UNION` branches of
`Spec::read_from_bytes`: `n` specs in sequence. -/
def readSpecListF : Nat → Nat → List Nat →
    Except SpecParsingError (List Spec × List Nat)
  | 0, _, _ => .error .FuelExhausted
  | _ + 1, 0, input => .ok ([], input)
  | fuel + 1, n + 1, input =>
    match readSpecF fuel input with
    | .error e => .error e
    | .ok (spec, r) =>
      match readSpecListF fuel n r with
      | .error e => .error e
      | .ok (rest, r') => .ok (spec :: rest, r')
end

/-- `Spec::read_from_bytes` from src/spec.rs on a byte list, with fuel
that is sufficient for every input (the descent consumes at least one
byte per fuel level except for constant bookkeeping, see
`readSpecF_enc`). -/
def Spec.read_from_bytes (input : ByteStream) : Except SpecParsingError (Spec × ByteStream) :=
  readSpecF (3 * input.length + 3) input

/-! ## Validity of schema ASTs

`specWF` records the domain constraints of the Rust types — `u8` fields
below 256, `String`s valid UTF-8 — together with the bound `< 2^56` on
every varint-encoded quantity (Decimal precision/scale, `Fixed` sizes,
name lengths and collection lengths).  The bound is where the wire
round-trip actually holds: the variable-length decoder misclassifies
values of `2^56` and above as unrepresentable (see
`variable_length_decode_u64_enc` and claim C4), so round-tripping fails
beyond it even though such `Spec` values are legal in Rust. -/

/-- A Rust `String` as seen by the wire codec: valid UTF-8 bytes with a
decodable length. -/
def nameWF (n : List Nat) : Bool := validUtf8 n && decide (n.length < 2 ^ 56)

/-- Validity of a `Size` (the `Fixed` payload is a u64; bounded for the
decoder as above). -/
def sizeWF : Size → Bool
  | .Fixed n => decide (n < 2 ^ 56)
  | .Variable => true

mutual
/-- Validity of a `Spec` (see the section comment). -/
def specWF : Spec → Bool
  | .Bool => true
  | .Uint s => decide (s < 256)
  | .Int s => decide (s < 256)
  | .BinaryFloatingPoint _ => true
  | .DecimalFloatingPoint _ => true
  | .Decimal p s => decide (p < 2 ^ 56) && decide (s < 2 ^ 56)
  | .Map size k v => sizeWF size && specWF k && specWF v
  | .List size v => sizeWF size && specWF v
  | .String size _ => sizeWF size
  | .Bytes size => sizeWF size
  | .Optional s => specWF s
  | .Name n s => nameWF n && specWF s
  | .Ref n => nameWF n
  | .Record fs => decide (fs.length < 2 ^ 56) && namedFieldsWF fs
  | .Tuple fs => decide (fs.length < 2 ^ 56) && specListWF fs
  | .Enum vs => decide (vs.length < 2 ^ 56) && namedFieldsWF vs
  | .Union vs => decide (vs.length < 2 ^ 56) && specListWF vs
  | .Void => true
termination_by structural s => s

/-- Validity of record/enum entries. -/
def namedFieldsWF : List (List Nat × Spec) → Bool
  | [] => true
  | (n, s) :: rest => nameWF n && specWF s && namedFieldsWF rest
termination_by structural l => l

/-- Validity of tuple/union entries. -/
def specListWF : List Spec → Bool
  | [] => true
  | s :: rest => specWF s && specListWF rest
termination_by structural l => l
end

/-! ## Round-trip of the schema wire codec (helpers) -/

theorem vle_len_pos (z : Nat) : 1 ≤ (variable_length_encode_u64 z).length := by
  by_cases h : z ≤ 127
  · rw [vl_enc_small z h]; simp
  · rw [vl_enc_big z (by omega)]; simp

theorem encode_string_len_pos (s : List Nat) : 1 ≤ (encode_string_utf8 s).length := by
  rw [encode_string_utf8, List.length_append]
  have := vle_len_pos s.length
  omega

theorem to_bytes_len_pos (s : Spec) : 1 ≤ (Spec.to_bytes s).length := by
  cases s with
  | Uint sc => rcases sc with _ | _ | _ | _ | sc <;> simp [Spec.to_bytes]
  | Int sc => rcases sc with _ | _ | _ | _ | sc <;> simp [Spec.to_bytes]
  | BinaryFloatingPoint fmt => cases fmt <;> simp [Spec.to_bytes]
  | String size fmt =>
    rw [Spec.to_bytes]
    split <;> simp
  | _ => simp [Spec.to_bytes]

theorem namedFields_len_ge (entries : List (List Nat × Spec)) :
    2 * entries.length ≤ (namedFieldsToBytes entries).length := by
  induction entries with
  | nil => simp [namedFieldsToBytes]
  | cons e rest ih =>
    obtain ⟨n, s⟩ := e
    rw [namedFieldsToBytes]
    simp only [List.length_append, List.length_cons]
    have h1 := encode_string_len_pos n
    have h2 := to_bytes_len_pos s
    omega

theorem specList_len_ge (specs : List Spec) :
    specs.length ≤ (specListToBytes specs).length := by
  induction specs with
  | nil => simp [specListToBytes]
  | cons s rest ih =>
    rw [specListToBytes]
    simp only [List.length_append, List.length_cons]
    have h2 := to_bytes_len_pos s
    omega

theorem decode_u64_enc (n : Nat) (hn : n < 2 ^ 56) (r : List Nat) :
    decode_u64 (variable_length_encode_u64 n ++ r) = .ok (n, r) := by
  rw [decode_u64, variable_length_decode_u64_enc n hn r]

theorem decode_utf8_string_enc (s : List Nat) (hv : nameWF s = true) (r : List Nat) :
    decode_utf8_string (encode_string_utf8 s ++ r) = .ok (s, r) := by
  rw [nameWF, Bool.and_eq_true, decide_eq_true_eq] at hv
  rw [encode_string_utf8, List.append_assoc, decode_utf8_string, decode_u64_enc _ hv.2]
  simp only [List.take_left, List.drop_left, hv.1, if_true, Nat.lt_irrefl, if_false, if_neg]

theorem size_decode_enc (sz : Size) (h : sizeWF sz = true) (r : List Nat) :
    Size.decode (Size.encode sz ++ r) = .ok (sz, r) := by
  cases sz with
  | Fixed n =>
    rw [sizeWF, decide_eq_true_eq] at h
    rw [Size.encode, List.cons_append, Size.decode, next_byte]
    simp only [decode_u64_enc n h r]
  | Variable => rfl

theorem bin_fmt_decode_enc (fmt : InterchangeBinaryFloatingPointFormat) (r : List Nat) :
    InterchangeBinaryFloatingPointFormat.decode (fmt.encode ++ r) = .ok (fmt, r) := by
  cases fmt <;> rfl

theorem dec_fmt_decode_enc (fmt : InterchangeDecimalFloatingPointFormat) (r : List Nat) :
    InterchangeDecimalFloatingPointFormat.decode (fmt.encode ++ r) = .ok (fmt, r) := by
  cases fmt <;> rfl

theorem str_fmt_decode_enc (fmt : StringEncodingFmt) (r : List Nat) :
    StringEncodingFmt.decode (fmt.encode ++ r) = .ok (fmt, r) := by
  cases fmt <;> rfl

theorem size_encode_len_pos (sz : Size) : 1 ≤ sz.encode.length := by
  cases sz with
  | Fixed n => rw [Size.encode]; simp
  | Variable => rfl

/-- The round-trip of the schema wire codec, by induction on fuel, with
the three mutually recursive readers handled together.  The fuel bounds
reflect that each reader consumes at least one byte per recursive call
(up to constant bookkeeping). -/
theorem readF_enc_all : ∀ fuel : Nat,
    (∀ s r, specWF s = true → 3 * (Spec.to_bytes s).length + 1 ≤ fuel →
      readSpecF fuel (Spec.to_bytes s ++ r) = .ok (s, r)) ∧
    (∀ entries r, namedFieldsWF entries = true →
      3 * (namedFieldsToBytes entries).length + 2 ≤ fuel →
      readNamedEntriesF fuel entries.length (namedFieldsToBytes entries ++ r) = .ok (entries, r)) ∧
    (∀ specs r, specListWF specs = true →
      3 * (specListToBytes specs).length + 2 ≤ fuel →
      readSpecListF fuel specs.length (specListToBytes specs ++ r) = .ok (specs, r)) := by
  intro fuel
  induction fuel with
  | zero => refine ⟨?_, ?_, ?_⟩ <;> intro a b hwf hf <;> omega
  | succ f ih =>
    obtain ⟨ihS, ihN, ihL⟩ := ih
    refine ⟨?_, ?_, ?_⟩
    · intro s r hwf hfuel
      cases s with
      | Bool => rfl
      | Void => rfl
      | Uint sc => rcases sc with _ | _ | _ | _ | sc <;> rfl
      | Int sc => rcases sc with _ | _ | _ | _ | sc <;> rfl
      | BinaryFloatingPoint fmt => cases fmt <;> rfl
      | DecimalFloatingPoint fmt => cases fmt <;> rfl
      | Decimal p sc =>
        simp only [specWF, Bool.and_eq_true, decide_eq_true_eq] at hwf
        obtain ⟨hp, hs⟩ := hwf
        have e1 := decode_u64_enc p hp (variable_length_encode_u64 sc ++ r)
        have e2 := decode_u64_enc sc hs r
        simp only [Spec.to_bytes, List.cons_append, List.append_assoc, DECIMAL, readSpecF,
          next_byte, e1, e2]
      | Map size key value =>
        simp only [specWF, Bool.and_eq_true] at hwf
        obtain ⟨⟨hsz, hk⟩, hv⟩ := hwf
        simp only [Spec.to_bytes, List.length_cons, List.length_append] at hfuel
        have e1 := size_decode_enc size hsz (Spec.to_bytes key ++ (Spec.to_bytes value ++ r))
        have e2 := ihS key (Spec.to_bytes value ++ r) hk (by
          have := size_encode_len_pos size
          have := to_bytes_len_pos value
          omega)
        have e3 := ihS value r hv (by
          have := size_encode_len_pos size
          have := to_bytes_len_pos key
          omega)
        simp only [Spec.to_bytes, List.cons_append, List.append_assoc, MAP, readSpecF,
          next_byte, e1, e2, e3]
      | List size value =>
        simp only [specWF, Bool.and_eq_true] at hwf
        obtain ⟨hsz, hv⟩ := hwf
        simp only [Spec.to_bytes, List.length_cons, List.length_append] at hfuel
        have e1 := size_decode_enc size hsz (Spec.to_bytes value ++ r)
        have e2 := ihS value r hv (by
          have := size_encode_len_pos size
          omega)
        simp only [Spec.to_bytes, List.cons_append, List.append_assoc, LIST, readSpecF,
          next_byte, e1, e2]
      | String size fmt =>
        simp only [specWF] at hwf
        simp only [Spec.to_bytes]
        split
        · next h =>
          obtain ⟨h1, h2⟩ := h
          subst h1; subst h2
          rfl
        · have e1 := size_decode_enc size hwf (fmt.encode ++ r)
          have e2 := str_fmt_decode_enc fmt r
          simp only [List.cons_append, List.append_assoc, STRING, readSpecF,
            next_byte, e1, e2]
      | Bytes size =>
        simp only [specWF] at hwf
        have e1 := size_decode_enc size hwf r
        simp only [Spec.to_bytes, List.cons_append, BYTES, readSpecF, next_byte, e1]
      | Optional sp =>
        simp only [specWF] at hwf
        simp only [Spec.to_bytes, List.length_cons] at hfuel
        have e1 := ihS sp r hwf (by omega)
        simp only [Spec.to_bytes, List.cons_append, OPTIONAL, readSpecF, next_byte, e1]
      | Name name sp =>
        simp only [specWF, Bool.and_eq_true] at hwf
        obtain ⟨hn, hs⟩ := hwf
        simp only [Spec.to_bytes, List.length_cons, List.length_append] at hfuel
        have e1 := decode_utf8_string_enc name hn (Spec.to_bytes sp ++ r)
        have e2 := ihS sp r hs (by
          have := encode_string_len_pos name
          omega)
        simp only [Spec.to_bytes, List.cons_append, List.append_assoc, NAME, readSpecF,
          next_byte, e1, e2]
      | Ref name =>
        simp only [specWF] at hwf
        have e1 := decode_utf8_string_enc name hwf r
        simp only [Spec.to_bytes, List.cons_append, REF, readSpecF, next_byte, e1]
      | Record fs =>
        simp only [specWF, Bool.and_eq_true, decide_eq_true_eq] at hwf
        obtain ⟨hlen, hfs⟩ := hwf
        simp only [Spec.to_bytes, List.length_cons, List.length_append] at hfuel
        have e1 := decode_u64_enc fs.length hlen (namedFieldsToBytes fs ++ r)
        have e2 := ihN fs r hfs (by
          have := vle_len_pos fs.length
          omega)
        simp only [Spec.to_bytes, List.cons_append, List.append_assoc, RECORD, readSpecF,
          next_byte, e1, e2]
      | Tuple fs =>
        simp only [specWF, Bool.and_eq_true, decide_eq_true_eq] at hwf
        obtain ⟨hlen, hfs⟩ := hwf
        simp only [Spec.to_bytes, List.length_cons, List.length_append] at hfuel
        have e1 := decode_u64_enc fs.length hlen (specListToBytes fs ++ r)
        have e2 := ihL fs r hfs (by
          have := vle_len_pos fs.length
          omega)
        simp only [Spec.to_bytes, List.cons_append, List.append_assoc, TUPLE, readSpecF,
          next_byte, e1, e2]
      | Enum vs =>
        simp only [specWF, Bool.and_eq_true, decide_eq_true_eq] at hwf
        obtain ⟨hlen, hvs⟩ := hwf
        simp only [Spec.to_bytes, List.length_cons, List.length_append] at hfuel
        have e1 := decode_u64_enc vs.length hlen (namedFieldsToBytes vs ++ r)
        have e2 := ihN vs r hvs (by
          have := vle_len_pos vs.length
          omega)
        simp only [Spec.to_bytes, List.cons_append, List.append_assoc, ENUM, readSpecF,
          next_byte, e1, e2]
      | Union vs =>
        simp only [specWF, Bool.and_eq_true, decide_eq_true_eq] at hwf
        obtain ⟨hlen, hvs⟩ := hwf
        simp only [Spec.to_bytes, List.length_cons, List.length_append] at hfuel
        have e1 := decode_u64_enc vs.length hlen (specListToBytes vs ++ r)
        have e2 := ihL vs r hvs (by
          have := vle_len_pos vs.length
          omega)
        simp only [Spec.to_bytes, List.cons_append, List.append_assoc, UNION, readSpecF,
          next_byte, e1, e2]
    · intro entries r hwf hfuel
      cases entries with
      | nil => rfl
      | cons e rest =>
        obtain ⟨n, sp⟩ := e
        simp only [namedFieldsWF, Bool.and_eq_true] at hwf
        obtain ⟨⟨hn, hs⟩, hrest⟩ := hwf
        simp only [namedFieldsToBytes, List.length_append] at hfuel
        have e1 := decode_utf8_string_enc n hn
          (Spec.to_bytes sp ++ (namedFieldsToBytes rest ++ r))
        have e2 := ihS sp (namedFieldsToBytes rest ++ r) hs (by
          have := encode_string_len_pos n
          omega)
        have e3 := ihN rest r hrest (by
          have := encode_string_len_pos n
          have := to_bytes_len_pos sp
          omega)
        simp only [namedFieldsToBytes, List.append_assoc, List.length_cons,
          readNamedEntriesF, e1, e2, e3]
    · intro specs r hwf hfuel
      cases specs with
      | nil => rfl
      | cons sp rest =>
        simp only [specListWF, Bool.and_eq_true] at hwf
        obtain ⟨hs, hrest⟩ := hwf
        simp only [specListToBytes, List.length_append] at hfuel
        have e1 := ihS sp (specListToBytes rest ++ r) hs (by omega)
        have e2 := ihL rest r hrest (by
          have := to_bytes_len_pos sp
          omega)
        simp only [specListToBytes, List.append_assoc, List.length_cons,
          readSpecListF, e1, e2]

/-- The wire round-trip, stated on `Spec.read_from_bytes` with a trailing
remainder. -/
theorem read_from_bytes_enc (s : Spec) (h : specWF s = true) (r : List Nat) :
    Spec.read_from_bytes (Spec.to_bytes s ++ r) = .ok (s, r) := by
  rw [Spec.read_from_bytes]
  exact (readF_enc_all (3 * (Spec.to_bytes s ++ r).length + 3)).1 s r h
    (by simp only [List.length_append]; omega)

/-! ## Truncation behaviour of the schema wire codec

A strict prefix of a valid encoding always fails to decode, but not
always with `UnexpectedEndOfBytes`: truncating inside a varint produces
`IncompleteVariableLengthEncoding`, and truncating inside a multi-byte
UTF-8 character produces `ReadError` (the `read_to_string` failure). -/

/-- The errors a truncated valid stream can produce. -/
def truncErr : SpecParsingError → Bool
  | .UnexpectedEndOfBytes => true
  | .VariableLengthDecodingError .IncompleteVariableLengthEncoding => true
  | .ReadError => true
  | _ => false

/-- Splitting a truncated concatenation: either the cut is inside the
first component, or the first component is wholly present. -/
theorem split_pre {p t a R : List Nat} (h : p ++ t = a ++ R) (ht : t ≠ []) :
    (∃ u, u ≠ [] ∧ p ++ u = a) ∨ (∃ q, p = a ++ q ∧ q ++ t = R) := by
  rcases List.append_eq_append_iff.mp h with ⟨u, hc, ht'⟩ | ⟨u, hp, hd⟩
  · by_cases hu : u = []
    · subst hu
      right
      refine ⟨[], by simp [hc], by simpa using ht'⟩
    · left
      exact ⟨u, hu, hc.symm⟩
  · right
    exact ⟨u, hp, hd.symm⟩

theorem pre_singleton {p t : List Nat} {a : Nat} (h : p ++ t = [a]) (ht : t ≠ []) :
    p = [] := by
  cases p with
  | nil => rfl
  | cons x xs =>
    simp only [List.cons_append, List.cons.injEq] at h
    exact absurd (List.append_eq_nil.mp h.2).2 ht

/-- The decode loop fails with `IncompleteVariableLengthEncoding` when
every available byte still has the continuation bit set. -/
theorem vld_loop_all_cont (p : List Nat) :
    ∀ s : VldState, (∀ b ∈ p, ¬(b % 128 = b)) →
      variable_lenth_decode_loop 8 p s = .error .IncompleteVariableLengthEncoding := by
  induction p with
  | nil => intro s _; rfl
  | cons b rest ih =>
    intro s h
    rw [variable_lenth_decode_loop, if_neg (h b (List.mem_cons_self b rest))]
    exact ih _ fun x hx => h x (List.mem_cons_of_mem _ hx)

/-- All bytes of a strict prefix of a varint encoding carry the
continuation bit. -/
theorem vle_pre_cont (n : Nat) : ∀ p t, p ++ t = variable_length_encode_u64 n → t ≠ [] →
    ∀ b ∈ p, ¬(b % 128 = b) := by
  induction n using Nat.strong_induction_on with
  | _ n ih =>
    intro p t h ht b hb
    by_cases hn : n ≤ 127
    · rw [vl_enc_small n hn] at h
      have := pre_singleton h ht
      subst this
      simp at hb
    · rw [vl_enc_big n (by omega)] at h
      cases p with
      | nil => simp at hb
      | cons x xs =>
        simp only [List.cons_append, List.cons.injEq] at h
        obtain ⟨hx, hrest⟩ := h
        rcases List.mem_cons.mp hb with rfl | hmem
        · rw [hx]
          have : (128 + n % 128) % 128 = n % 128 := by omega
          omega
        · exact ih (n / 128) (by omega) xs t hrest ht b hmem

/-- Truncating inside a varint: `decode_u64` reports
`IncompleteVariableLengthEncoding`. -/
theorem decode_u64_pre (n : Nat) (p t : List Nat)
    (h : p ++ t = variable_length_encode_u64 n) (ht : t ≠ []) :
    decode_u64 p = .error (.VariableLengthDecodingError .IncompleteVariableLengthEncoding) := by
  have hc := vle_pre_cont n p t h ht
  rw [decode_u64, variable_length_decode_u64, variable_lenth_decode,
    vld_loop_all_cont p _ hc]

/-- Truncating inside an encoded string: `decode_utf8_string` fails with
a truncation error (which one depends on where the cut falls). -/
theorem decode_utf8_string_pre (nm : List Nat) (hn : nameWF nm = true) (p t : List Nat)
    (h : p ++ t = encode_string_utf8 nm) (ht : t ≠ []) :
    ∃ e, decode_utf8_string p = .error e ∧ truncErr e = true := by
  rw [nameWF, Bool.and_eq_true, decide_eq_true_eq] at hn
  rw [encode_string_utf8] at h
  rcases split_pre h ht with ⟨u, hu, hpu⟩ | ⟨q, rfl, hqt⟩
  · refine ⟨.VariableLengthDecodingError .IncompleteVariableLengthEncoding, ?_, rfl⟩
    simp only [decode_utf8_string, decode_u64_pre nm.length p u hpu hu]
  · have hq : decode_u64 (variable_length_encode_u64 nm.length ++ q) = .ok (nm.length, q) :=
      decode_u64_enc _ hn.2 q
    have hql : q.length < nm.length := by
      have := congrArg List.length hqt
      simp only [List.length_append] at this
      have htl : 1 ≤ t.length := by
        cases t with
        | nil => exact absurd rfl ht
        | cons a b => simp
      omega
    have htake : q.take nm.length = q := List.take_of_length_le (le_of_lt hql)
    by_cases hvq : validUtf8 q = true
    · refine ⟨.UnexpectedEndOfBytes, ?_, rfl⟩
      simp only [decode_utf8_string, hq]
      rw [htake, if_pos hvq, if_pos hql]
    · refine ⟨.ReadError, ?_, rfl⟩
      simp only [decode_utf8_string, hq]
      rw [htake, if_neg hvq]

/-- Truncating inside an encoded `Size`. -/
theorem size_decode_pre (sz : Size) (hs : sizeWF sz = true) (p t : List Nat)
    (h : p ++ t = Size.encode sz) (ht : t ≠ []) :
    ∃ e, Size.decode p = .error e ∧ truncErr e = true := by
  cases sz with
  | Variable =>
    rw [Size.encode] at h
    have := pre_singleton h ht
    subst this
    exact ⟨.UnexpectedEndOfBytes, rfl, rfl⟩
  | Fixed n =>
    rw [Size.encode] at h
    cases p with
    | nil => exact ⟨.UnexpectedEndOfBytes, rfl, rfl⟩
    | cons x xs =>
      simp only [List.cons_append, List.cons.injEq] at h
      obtain ⟨rfl, hrest⟩ := h
      refine ⟨.VariableLengthDecodingError .IncompleteVariableLengthEncoding, ?_, rfl⟩
      simp only [Size.decode, next_byte, decode_u64_pre n xs t hrest ht]

theorem str_fmt_encode_singleton (fmt : StringEncodingFmt) : ∃ a, fmt.encode = [a] := by
  cases fmt <;> exact ⟨_, rfl⟩

/-- Decoding any strict prefix of a valid schema encoding fails, and the
error is one of the truncation errors (`UnexpectedEndOfBytes`,
`IncompleteVariableLengthEncoding`, `ReadError`).  Proved together for
the three mutually recursive readers, by induction on fuel. -/
theorem readF_pre_all : ∀ fuel : Nat,
    (∀ s p t, specWF s = true → p ++ t = Spec.to_bytes s → t ≠ [] →
      3 * p.length + 1 ≤ fuel →
      ∃ e, readSpecF fuel p = .error e ∧ truncErr e = true) ∧
    (∀ entries p t, namedFieldsWF entries = true → p ++ t = namedFieldsToBytes entries →
      t ≠ [] → 3 * p.length + 2 ≤ fuel →
      ∃ e, readNamedEntriesF fuel entries.length p = .error e ∧ truncErr e = true) ∧
    (∀ specs p t, specListWF specs = true → p ++ t = specListToBytes specs →
      t ≠ [] → 3 * p.length + 2 ≤ fuel →
      ∃ e, readSpecListF fuel specs.length p = .error e ∧ truncErr e = true) := by
  intro fuel
  induction fuel with
  | zero => refine ⟨?_, ?_, ?_⟩ <;> intro a p t hwf h ht hf <;> omega
  | succ f ih =>
    obtain ⟨ihS, ihN, ihL⟩ := ih
    refine ⟨?_, ?_, ?_⟩
    · intro s p t hwf h ht hfuel
      cases s with
      | Bool =>
        have := pre_singleton h ht
        subst this
        exact ⟨.UnexpectedEndOfBytes, rfl, rfl⟩
      | Void =>
        have := pre_singleton h ht
        subst this
        exact ⟨.UnexpectedEndOfBytes, rfl, rfl⟩
      | Uint sc =>
        rcases sc with _ | _ | _ | _ | sc
        case _ | _ | _ | _ =>
          have := pre_singleton h ht
          subst this
          exact ⟨.UnexpectedEndOfBytes, rfl, rfl⟩
        cases p with
        | nil => exact ⟨.UnexpectedEndOfBytes, rfl, rfl⟩
        | cons x xs =>
          simp only [Spec.to_bytes, List.cons_append, List.cons.injEq] at h
          obtain ⟨rfl, hrest⟩ := h
          have := pre_singleton hrest ht
          subst this
          exact ⟨.UnexpectedEndOfBytes, rfl, rfl⟩
      | Int sc =>
        rcases sc with _ | _ | _ | _ | sc
        case _ | _ | _ | _ =>
          have := pre_singleton h ht
          subst this
          exact ⟨.UnexpectedEndOfBytes, rfl, rfl⟩
        cases p with
        | nil => exact ⟨.UnexpectedEndOfBytes, rfl, rfl⟩
        | cons x xs =>
          simp only [Spec.to_bytes, List.cons_append, List.cons.injEq] at h
          obtain ⟨rfl, hrest⟩ := h
          have := pre_singleton hrest ht
          subst this
          exact ⟨.UnexpectedEndOfBytes, rfl, rfl⟩
      | BinaryFloatingPoint fmt =>
        cases fmt
        case Single | Double =>
          have := pre_singleton h ht
          subst this
          exact ⟨.UnexpectedEndOfBytes, rfl, rfl⟩
        all_goals
          cases p with
          | nil => exact ⟨.UnexpectedEndOfBytes, rfl, rfl⟩
          | cons x xs =>
            simp only [Spec.to_bytes, InterchangeBinaryFloatingPointFormat.encode,
              List.cons_append, List.cons.injEq] at h
            obtain ⟨rfl, hrest⟩ := h
            have := pre_singleton hrest ht
            subst this
            exact ⟨.UnexpectedEndOfBytes, rfl, rfl⟩
      | DecimalFloatingPoint fmt =>
        cases fmt <;>
        · cases p with
          | nil => exact ⟨.UnexpectedEndOfBytes, rfl, rfl⟩
          | cons x xs =>
            simp only [Spec.to_bytes, InterchangeDecimalFloatingPointFormat.encode,
              List.cons_append, List.cons.injEq] at h
            obtain ⟨rfl, hrest⟩ := h
            have := pre_singleton hrest ht
            subst this
            exact ⟨.UnexpectedEndOfBytes, rfl, rfl⟩
      | Decimal prc sc =>
        simp only [specWF, Bool.and_eq_true, decide_eq_true_eq] at hwf
        obtain ⟨hp', hs'⟩ := hwf
        simp only [Spec.to_bytes, List.cons_append] at h
        cases p with
        | nil => exact ⟨.UnexpectedEndOfBytes, rfl, rfl⟩
        | cons x p1 =>
          simp only [List.cons_append, List.cons.injEq] at h
          obtain ⟨rfl, h1⟩ := h
          rcases split_pre h1 ht with ⟨u, hu, hpu⟩ | ⟨q, rfl, hq⟩
          · refine ⟨.VariableLengthDecodingError .IncompleteVariableLengthEncoding, ?_, rfl⟩
            simp only [DECIMAL, readSpecF, next_byte, decode_u64_pre prc p1 u hpu hu]
          · have hd1 := decode_u64_enc prc hp' q
            refine ⟨.VariableLengthDecodingError .IncompleteVariableLengthEncoding, ?_, rfl⟩
            simp only [DECIMAL, readSpecF, next_byte, hd1, decode_u64_pre sc q t hq ht]
      | Map size key value =>
        simp only [specWF, Bool.and_eq_true] at hwf
        obtain ⟨⟨hsz, hk⟩, hv⟩ := hwf
        simp only [Spec.to_bytes, List.append_assoc] at h
        cases p with
        | nil => exact ⟨.UnexpectedEndOfBytes, rfl, rfl⟩
        | cons x p1 =>
          simp only [List.cons_append, List.cons.injEq] at h
          obtain ⟨rfl, h1⟩ := h
          rcases split_pre h1 ht with ⟨u, hu, hpu⟩ | ⟨q, rfl, hq⟩
          · obtain ⟨e, he, hte⟩ := size_decode_pre size hsz p1 u hpu hu
            refine ⟨e, ?_, hte⟩
            simp only [MAP, readSpecF, next_byte, he]
          · have hsd := size_decode_enc size hsz q
            rcases split_pre hq ht with ⟨u, hu, hqu⟩ | ⟨q2, rfl, hq2⟩
            · simp only [List.length_cons, List.length_append] at hfuel
              obtain ⟨e, he, hte⟩ := ihS key q u hk hqu hu (by
                have := size_encode_len_pos size
                omega)
              refine ⟨e, ?_, hte⟩
              simp only [MAP, readSpecF, next_byte, hsd, he]
            · simp only [List.length_cons, List.length_append] at hfuel
              have hk1 := (readF_enc_all f).1 key q2 hk (by
                have := size_encode_len_pos size
                omega)
              obtain ⟨e, he, hte⟩ := ihS value q2 t hv hq2 ht (by
                have := size_encode_len_pos size
                have := to_bytes_len_pos key
                omega)
              refine ⟨e, ?_, hte⟩
              simp only [MAP, readSpecF, next_byte, hsd, hk1, he]
      | List size value =>
        simp only [specWF, Bool.and_eq_true] at hwf
        obtain ⟨hsz, hv⟩ := hwf
        simp only [Spec.to_bytes] at h
        cases p with
        | nil => exact ⟨.UnexpectedEndOfBytes, rfl, rfl⟩
        | cons x p1 =>
          simp only [List.cons_append, List.cons.injEq] at h
          obtain ⟨rfl, h1⟩ := h
          rcases split_pre h1 ht with ⟨u, hu, hpu⟩ | ⟨q, rfl, hq⟩
          · obtain ⟨e, he, hte⟩ := size_decode_pre size hsz p1 u hpu hu
            refine ⟨e, ?_, hte⟩
            simp only [LIST, readSpecF, next_byte, he]
          · have hsd := size_decode_enc size hsz q
            simp only [List.length_cons, List.length_append] at hfuel
            obtain ⟨e, he, hte⟩ := ihS value q t hv hq ht (by
              have := size_encode_len_pos size
              omega)
            refine ⟨e, ?_, hte⟩
            simp only [LIST, readSpecF, next_byte, hsd, he]
      | String size fmt =>
        simp only [specWF] at hwf
        simp only [Spec.to_bytes] at h
        split at h
        · have := pre_singleton h ht
          subst this
          exact ⟨.UnexpectedEndOfBytes, rfl, rfl⟩
        · cases p with
          | nil => exact ⟨.UnexpectedEndOfBytes, rfl, rfl⟩
          | cons x p1 =>
            simp only [List.cons_append, List.cons.injEq] at h
            obtain ⟨rfl, h1⟩ := h
            rcases split_pre h1 ht with ⟨u, hu, hpu⟩ | ⟨q, rfl, hq⟩
            · obtain ⟨e, he, hte⟩ := size_decode_pre size hwf p1 u hpu hu
              refine ⟨e, ?_, hte⟩
              simp only [STRING, readSpecF, next_byte, he]
            · have hsd := size_decode_enc size hwf q
              obtain ⟨a, ha⟩ := str_fmt_encode_singleton fmt
              rw [ha] at hq
              have := pre_singleton hq ht
              subst this
              refine ⟨.UnexpectedEndOfBytes, ?_, rfl⟩
              simp only [STRING, readSpecF, next_byte, hsd]
              rfl
      | Bytes size =>
        simp only [specWF] at hwf
        simp only [Spec.to_bytes] at h
        cases p with
        | nil => exact ⟨.UnexpectedEndOfBytes, rfl, rfl⟩
        | cons x p1 =>
          simp only [List.cons_append, List.cons.injEq] at h
          obtain ⟨rfl, h1⟩ := h
          obtain ⟨e, he, hte⟩ := size_decode_pre size hwf p1 t h1 ht
          refine ⟨e, ?_, hte⟩
          simp only [BYTES, readSpecF, next_byte, he]
      | Optional sp =>
        simp only [specWF] at hwf
        simp only [Spec.to_bytes] at h
        cases p with
        | nil => exact ⟨.UnexpectedEndOfBytes, rfl, rfl⟩
        | cons x p1 =>
          simp only [List.cons_append, List.cons.injEq] at h
          obtain ⟨rfl, h1⟩ := h
          simp only [List.length_cons] at hfuel
          obtain ⟨e, he, hte⟩ := ihS sp p1 t hwf h1 ht (by omega)
          refine ⟨e, ?_, hte⟩
          simp only [OPTIONAL, readSpecF, next_byte, he]
      | Name nm sp =>
        simp only [specWF, Bool.and_eq_true] at hwf
        obtain ⟨hn, hs⟩ := hwf
        simp only [Spec.to_bytes] at h
        cases p with
        | nil => exact ⟨.UnexpectedEndOfBytes, rfl, rfl⟩
        | cons x p1 =>
          simp only [List.cons_append, List.cons.injEq] at h
          obtain ⟨rfl, h1⟩ := h
          rcases split_pre h1 ht with ⟨u, hu, hpu⟩ | ⟨q, rfl, hq⟩
          · obtain ⟨e, he, hte⟩ := decode_utf8_string_pre nm hn p1 u hpu hu
            refine ⟨e, ?_, hte⟩
            simp only [NAME, readSpecF, next_byte, he]
          · have hds := decode_utf8_string_enc nm hn q
            simp only [List.length_cons, List.length_append] at hfuel
            obtain ⟨e, he, hte⟩ := ihS sp q t hs hq ht (by
              have := encode_string_len_pos nm
              omega)
            refine ⟨e, ?_, hte⟩
            simp only [NAME, readSpecF, next_byte, hds, he]
      | Ref nm =>
        simp only [specWF] at hwf
        simp only [Spec.to_bytes] at h
        cases p with
        | nil => exact ⟨.UnexpectedEndOfBytes, rfl, rfl⟩
        | cons x p1 =>
          simp only [List.cons_append, List.cons.injEq] at h
          obtain ⟨rfl, h1⟩ := h
          obtain ⟨e, he, hte⟩ := decode_utf8_string_pre nm hwf p1 t h1 ht
          refine ⟨e, ?_, hte⟩
          simp only [REF, readSpecF, next_byte, he]
      | Record fs =>
        simp only [specWF, Bool.and_eq_true, decide_eq_true_eq] at hwf
        obtain ⟨hlen, hfs⟩ := hwf
        simp only [Spec.to_bytes] at h
        cases p with
        | nil => exact ⟨.UnexpectedEndOfBytes, rfl, rfl⟩
        | cons x p1 =>
          simp only [List.cons_append, List.cons.injEq] at h
          obtain ⟨rfl, h1⟩ := h
          rcases split_pre h1 ht with ⟨u, hu, hpu⟩ | ⟨q, rfl, hq⟩
          · refine ⟨.VariableLengthDecodingError .IncompleteVariableLengthEncoding, ?_, rfl⟩
            simp only [RECORD, readSpecF, next_byte, decode_u64_pre fs.length p1 u hpu hu]
          · have hd1 := decode_u64_enc fs.length hlen q
            simp only [List.length_cons, List.length_append] at hfuel
            obtain ⟨e, he, hte⟩ := ihN fs q t hfs hq ht (by
              have := vle_len_pos fs.length
              omega)
            refine ⟨e, ?_, hte⟩
            simp only [RECORD, readSpecF, next_byte, hd1, he]
      | Tuple fs =>
        simp only [specWF, Bool.and_eq_true, decide_eq_true_eq] at hwf
        obtain ⟨hlen, hfs⟩ := hwf
        simp only [Spec.to_bytes] at h
        cases p with
        | nil => exact ⟨.UnexpectedEndOfBytes, rfl, rfl⟩
        | cons x p1 =>
          simp only [List.cons_append, List.cons.injEq] at h
          obtain ⟨rfl, h1⟩ := h
          rcases split_pre h1 ht with ⟨u, hu, hpu⟩ | ⟨q, rfl, hq⟩
          · refine ⟨.VariableLengthDecodingError .IncompleteVariableLengthEncoding, ?_, rfl⟩
            simp only [TUPLE, readSpecF, next_byte, decode_u64_pre fs.length p1 u hpu hu]
          · have hd1 := decode_u64_enc fs.length hlen q
            simp only [List.length_cons, List.length_append] at hfuel
            obtain ⟨e, he, hte⟩ := ihL fs q t hfs hq ht (by
              have := vle_len_pos fs.length
              omega)
            refine ⟨e, ?_, hte⟩
            simp only [TUPLE, readSpecF, next_byte, hd1, he]
      | Enum vs =>
        simp only [specWF, Bool.and_eq_true, decide_eq_true_eq] at hwf
        obtain ⟨hlen, hvs⟩ := hwf
        simp only [Spec.to_bytes] at h
        cases p with
        | nil => exact ⟨.UnexpectedEndOfBytes, rfl, rfl⟩
        | cons x p1 =>
          simp only [List.cons_append, List.cons.injEq] at h
          obtain ⟨rfl, h1⟩ := h
          rcases split_pre h1 ht with ⟨u, hu, hpu⟩ | ⟨q, rfl, hq⟩
          · refine ⟨.VariableLengthDecodingError .IncompleteVariableLengthEncoding, ?_, rfl⟩
            simp only [ENUM, readSpecF, next_byte, decode_u64_pre vs.length p1 u hpu hu]
          · have hd1 := decode_u64_enc vs.length hlen q
            simp only [List.length_cons, List.length_append] at hfuel
            obtain ⟨e, he, hte⟩ := ihN vs q t hvs hq ht (by
              have := vle_len_pos vs.length
              omega)
            refine ⟨e, ?_, hte⟩
            simp only [ENUM, readSpecF, next_byte, hd1, he]
      | Union vs =>
        simp only [specWF, Bool.and_eq_true, decide_eq_true_eq] at hwf
        obtain ⟨hlen, hvs⟩ := hwf
        simp only [Spec.to_bytes] at h
        cases p with
        | nil => exact ⟨.UnexpectedEndOfBytes, rfl, rfl⟩
        | cons x p1 =>
          simp only [List.cons_append, List.cons.injEq] at h
          obtain ⟨rfl, h1⟩ := h
          rcases split_pre h1 ht with ⟨u, hu, hpu⟩ | ⟨q, rfl, hq⟩
          · refine ⟨.VariableLengthDecodingError .IncompleteVariableLengthEncoding, ?_, rfl⟩
            simp only [UNION, readSpecF, next_byte, decode_u64_pre vs.length p1 u hpu hu]
          · have hd1 := decode_u64_enc vs.length hlen q
            simp only [List.length_cons, List.length_append] at hfuel
            obtain ⟨e, he, hte⟩ := ihL vs q t hvs hq ht (by
              have := vle_len_pos vs.length
              omega)
            refine ⟨e, ?_, hte⟩
            simp only [UNION, readSpecF, next_byte, hd1, he]
    · intro entries p t hwf h ht hfuel
      cases entries with
      | nil =>
        simp only [namedFieldsToBytes] at h
        exact absurd (List.append_eq_nil.mp h).2 ht
      | cons e rest =>
        obtain ⟨nm, sp⟩ := e
        simp only [namedFieldsWF, Bool.and_eq_true] at hwf
        obtain ⟨⟨hn, hs⟩, hrest⟩ := hwf
        simp only [namedFieldsToBytes, List.append_assoc] at h
        rcases split_pre h ht with ⟨u, hu, hpu⟩ | ⟨q, rfl, hq⟩
        · obtain ⟨e, he, hte⟩ := decode_utf8_string_pre nm hn p u hpu hu
          refine ⟨e, ?_, hte⟩
          simp only [List.length_cons, readNamedEntriesF, he]
        · have hds := decode_utf8_string_enc nm hn q
          rcases split_pre hq ht with ⟨u, hu, hqu⟩ | ⟨q2, rfl, hq2⟩
          · simp only [List.length_append] at hfuel
            obtain ⟨e, he, hte⟩ := ihS sp q u hs hqu hu (by
              have := encode_string_len_pos nm
              omega)
            refine ⟨e, ?_, hte⟩
            simp only [List.length_cons, readNamedEntriesF, hds, he]
          · simp only [List.length_append] at hfuel
            have hk1 := (readF_enc_all f).1 sp q2 hs (by
              have := encode_string_len_pos nm
              omega)
            obtain ⟨e, he, hte⟩ := ihN rest q2 t hrest hq2 ht (by
              have := encode_string_len_pos nm
              have := to_bytes_len_pos sp
              omega)
            refine ⟨e, ?_, hte⟩
            simp only [List.length_cons, readNamedEntriesF, List.append_assoc, hds, hk1, he]
    · intro specs p t hwf h ht hfuel
      cases specs with
      | nil =>
        simp only [specListToBytes] at h
        exact absurd (List.append_eq_nil.mp h).2 ht
      | cons sp rest =>
        simp only [specListWF, Bool.and_eq_true] at hwf
        obtain ⟨hs, hrest⟩ := hwf
        simp only [specListToBytes] at h
        rcases split_pre h ht with ⟨u, hu, hpu⟩ | ⟨q, rfl, hq⟩
        · obtain ⟨e, he, hte⟩ := ihS sp p u hs hpu hu (by omega)
          refine ⟨e, ?_, hte⟩
          simp only [List.length_cons, readSpecListF, he]
        · simp only [List.length_append] at hfuel
          have hk1 := (readF_enc_all f).1 sp q hs (by omega)
          obtain ⟨e, he, hte⟩ := ihL rest q t hrest hq ht (by
            have := to_bytes_len_pos sp
            omega)
          refine ⟨e, ?_, hte⟩
          simp only [List.length_cons, readSpecListF, hk1, he]

/-- Truncation through the public entry point: any strict prefix of a
valid encoding fails with one of the truncation errors. -/
theorem read_from_bytes_pre (s : Spec) (h : specWF s = true) (p t : List Nat)
    (hpt : p ++ t = Spec.to_bytes s) (ht : t ≠ []) :
    ∃ e, Spec.read_from_bytes p = .error e ∧ truncErr e = true := by
  rw [Spec.read_from_bytes]
  exact (readF_pre_all (3 * p.length + 3)).1 s p t h hpt ht (by omega)

/-! ## Claim theorems: the wire codec -/

/-- Claim C1 (amended): the schema round-trip
`read_from_bytes (to_bytes s) = ok (s, [])` holds for every `Spec` whose
varint-encoded quantities (Decimal precision/scale, Fixed sizes, name and
collection lengths) are below `2^56` — not for every valid `Spec`, see
`claim_C1_counterexample`. -/
theorem claim_C1 (s : Spec) (h : specWF s = true) :
    Spec.read_from_bytes (Spec.to_bytes s) = .ok (s, []) := by
  have := read_from_bytes_enc s h []
  simpa using this

/-- Claim C1 counterexample: `Decimal { precision: 2^56, scale: 0 }` is a
valid `Spec` (precision is a u64), but decoding its own encoding fails:
the variable-length decoder wrongly classifies `2^56` as unrepresentable
in a u64. -/
theorem claim_C1_counterexample :
    Spec.read_from_bytes (Spec.to_bytes (.Decimal (2 ^ 56) 0)) =
      .error (.IntegerOverflowVariableLengthDecodingError [0, 0, 0, 0, 0, 0, 0, 1]) := by
  rfl

/-- Claim C1 witness: a concrete round trip through `claim_C1`. -/
theorem claim_C1_witness :
    specWF (.Name [65] .Bool) = true ∧
      Spec.read_from_bytes (Spec.to_bytes (.Name [65] .Bool)) = .ok (.Name [65] .Bool, []) :=
  ⟨rfl, claim_C1 (.Name [65] .Bool) rfl⟩

/-- Claim C4 (code bug): the round trip of the variable-length u64 codec
fails at `n = 2^56`.  The decoder's `tracking_index < BYTE_LEN` success
test is wrong at the boundary: `2^56` fits a u64 but is reported
`Unrepresentable` (little-endian bytes `[0,0,0,0,0,0,0,1]`). -/
theorem claim_C4 :
    variable_length_decode_u64 (variable_length_encode_u64 (2 ^ 56)) =
      .ok (.Unrepresentable [0, 0, 0, 0, 0, 0, 0, 1], []) := by
  rfl

/-- Claim C5 (amended): the `Size` tags are the reverse of the claim:
`Fixed` is tag 0 followed by the varint payload, `Variable` is tag 1, and
the decoder reads tag 0 as `Fixed` and tag 1 as `Variable`. -/
theorem claim_C5 (n : Nat) (h : n < 2 ^ 56) (r : ByteStream) :
    Size.encode (.Fixed n) = 0 :: variable_length_encode_u64 n ∧
      Size.encode .Variable = [1] ∧
      Size.decode ((0 :: variable_length_encode_u64 n) ++ r) = .ok (.Fixed n, r) ∧
      Size.decode (1 :: r) = .ok (.Variable, r) :=
  ⟨rfl, rfl, size_decode_enc (.Fixed n) (by simpa [sizeWF]) r, rfl⟩

/-- Claim C5 counterexample: the encoder emits tag 1 for `Variable` and
tag 0 for `Fixed`, and the decoder reads them back that way — opposite to
the claimed tag assignment. -/
theorem claim_C5_counterexample :
    Size.encode .Variable = [1] ∧ Size.encode (.Fixed 5) = [0, 5] ∧
      Size.decode [1] = .ok (.Variable, []) ∧ Size.decode [0, 5] = .ok (.Fixed 5, []) :=
  ⟨rfl, rfl, rfl, rfl⟩

/-- Claim C5 witness: `claim_C5` at `n = 5` with remainder `[2]`. -/
theorem claim_C5_witness :
    5 < 2 ^ 56 ∧
      (Size.encode (.Fixed 5) = 0 :: variable_length_encode_u64 5 ∧
        Size.encode .Variable = [1] ∧
        Size.decode ((0 :: variable_length_encode_u64 5) ++ [2]) = .ok (.Fixed 5, [2]) ∧
        Size.decode (1 :: [2]) = .ok (.Variable, [2])) :=
  ⟨by norm_num, claim_C5 5 (by norm_num) [2]⟩

/-- Claim C8 (amended): decoding a strict prefix of a valid schema
encoding always fails, but the error is not always `UnexpectedEndOfBytes`:
cuts inside a varint give `IncompleteVariableLengthEncoding` and cuts
inside a multi-byte UTF-8 character give `ReadError`
(see `claim_C8_counterexample`). -/
theorem claim_C8 (s : Spec) (hs : specWF s = true) (p t : ByteStream)
    (hpt : p ++ t = Spec.to_bytes s) (ht : t ≠ []) :
    ∃ e, Spec.read_from_bytes p = .error e ∧
      (e = .UnexpectedEndOfBytes ∨
        e = .VariableLengthDecodingError .IncompleteVariableLengthEncoding ∨
        e = .ReadError) := by
  rcases read_from_bytes_pre s hs p t hpt ht with ⟨e, he, hte⟩
  refine ⟨e, he, ?_⟩
  cases e with
  | UnexpectedEndOfBytes => exact Or.inl rfl
  | ReadError => exact Or.inr (Or.inr rfl)
  | VariableLengthDecodingError v =>
    cases v
    exact Or.inr (Or.inl rfl)
  | UnknownSpecFlag b => simp [truncErr] at hte
  | UnknownBinaryFormatFlag b => simp [truncErr] at hte
  | UnknownDecimalFormatFlag b => simp [truncErr] at hte
  | UnknownStringFormatFlag b => simp [truncErr] at hte
  | UnknownSizeFormatFlag b => simp [truncErr] at hte
  | IntegerOverflowVariableLengthDecodingError v => simp [truncErr] at hte
  | FuelExhausted => simp [truncErr] at hte

/-- Claim C8 counterexample: `[46, 200]` is a strict prefix of the
encoding `[46, 200, 1, 0]` of `Decimal { precision: 200, scale: 0 }`, and
decoding it reports `IncompleteVariableLengthEncoding` (wrapped), not
`UnexpectedEndOfBytes`. -/
theorem claim_C8_counterexample :
    [46, 200] ++ [1, 0] = Spec.to_bytes (.Decimal 200 0) ∧
      Spec.read_from_bytes [46, 200] =
        .error (.VariableLengthDecodingError .IncompleteVariableLengthEncoding) :=
  ⟨rfl, rfl⟩

/-- Claim C8 witness: `claim_C8` at the truncated encoding of
`Decimal { precision: 200, scale: 0 }`. -/
theorem claim_C8_witness :
    specWF (.Decimal 200 0) = true ∧ ([200, 1, 0] : ByteStream) ≠ [] ∧
      (∃ e, Spec.read_from_bytes [46] = .error e ∧
        (e = .UnexpectedEndOfBytes ∨
          e = .VariableLengthDecodingError .IncompleteVariableLengthEncoding ∨
          e = .ReadError)) :=
  ⟨rfl, by decide, claim_C8 (.Decimal 200 0) rfl [46] [200, 1, 0] rfl (by decide)⟩

/-! ## Value serialization (src/serde) — the fragments the claims are about

Only the `GluinoValue` variants involved in claims C9 and C10 are
embedded (the full enum has one variant per spec shape; the others play
no role in those claims).  Writers are modelled as the emitted byte list
together with the returned `usize` count. -/

/-- The variants of `GluinoValue` (src/serde/mod.rs) used by the claims:
`BigInt(u8, Vec<u8>)`, `BigUint(u8, Vec<u8>)`, `Bool(bool)`. -/
inductive GluinoValue where
  | Bool (b : Bool)
  | BigInt (v : Nat) (bytes : List Nat)
  | BigUint (v : Nat) (bytes : List Nat)
deriving DecidableEq

/-- `GluinoSerializationError` (src/serde/mod.rs), the variants reachable
from the embedded serializers; the mismatch payload (expected/actual
kinds) is not needed by the claims. -/
inductive GluinoSerializationError where
  | InncorrectNumberOfIntegerBytes (expect_bytes actual_bytes : Nat)
  | ValueKindMismatch
deriving DecidableEq

/-- `BigIntValueSer::serialize` from src/serde/ser_impls.rs: `n` is the
schema scale (`Uint(n)`/`Int(n)` with `n ≥ 5` expects exactly `2^n`
bytes), the result is the bytes written and the returned count.  The
length test the code performs is `bytes.len() >> self.n == 1`. -/
def BigIntValueSer.serialize (n : Nat) (value : GluinoValue) :
    Except GluinoSerializationError (List Nat × Nat) :=
  match value with
  | .BigInt _ bytes =>
    if bytes.length >>> n = 1 then .ok (bytes, bytes.length)
    else .error (.InncorrectNumberOfIntegerBytes (1 <<< n) bytes.length)
  | _ => .error .ValueKindMismatch

/-- `BigUintValueSer::serialize` from src/serde/ser_impls.rs.  Note the
code shifts by `v` — the first component of the *value* — where
`BigIntValueSer` shifts by `self.n`. -/
def BigUintValueSer.serialize (n : Nat) (value : GluinoValue) :
    Except GluinoSerializationError (List Nat × Nat) :=
  match value with
  | .BigUint v bytes =>
    if bytes.length >>> v = 1 then .ok (bytes, bytes.length)
    else .error (.InncorrectNumberOfIntegerBytes (1 <<< n) bytes.length)
  | _ => .error .ValueKindMismatch

/-- `io::Error` as the value decoders use it: `read_exact` on an
exhausted reader fails with `UnexpectedEof`. -/
inductive IoError where
  | UnexpectedEof
deriving DecidableEq

/-- `<bool as Encodable>::decode` from src/serde/encode.rs: read one byte
`b`, produce `Bool(b > 0)`. -/
def boolDecode : List Nat → Except IoError (GluinoValue × List Nat)
  | [] => .error .UnexpectedEof
  | b :: rest => .ok (if b > 0 then .Bool true else .Bool false, rest)

/-- `<bool as Encodable>::encode` from src/serde/encode.rs. -/
def boolEncode (b : Bool) : List Nat := if b then [1] else [0]

/-- Claim C9 (code bug): with `n = 5` the big-integer serializer must
accept only buffers of exactly `2^5 = 32` bytes, but the test
`bytes.len() >> n == 1` accepts every length in `[32, 64)`: a 33-byte
`BigInt` buffer is written successfully.  `BigUintValueSer` additionally
shifts by the value's leading byte `v` instead of `self.n`, so a 64-byte
buffer tagged `v = 6` also passes under a `n = 5` schema. -/
theorem claim_C9 :
    BigIntValueSer.serialize 5 (.BigInt 5 (List.replicate 33 0)) =
        .ok (List.replicate 33 0, 33) ∧
      (33 : Nat) ≠ 2 ^ 5 ∧
      BigUintValueSer.serialize 5 (.BigUint 6 (List.replicate 64 0)) =
        .ok (List.replicate 64 0, 64) ∧
      (64 : Nat) ≠ 2 ^ 5 :=
  ⟨rfl, by decide, rfl, by decide⟩

/-- Claim C10 (confirmed): the Bool value decoder maps byte 0 to
`Bool(false)` and every nonzero byte to `Bool(true)` without error, and
fails only on end of input. -/
theorem claim_C10 :
    (∀ (b : Nat) (rest : List Nat),
        boolDecode (b :: rest) = .ok (.Bool (decide (0 < b)), rest)) ∧
      boolDecode [] = .error .UnexpectedEof := by
  refine ⟨?_, rfl⟩
  intro b rest
  by_cases h : 0 < b <;> simp [boolDecode, h]

/-! ## The schema compiler (src/compiled_spec.rs)

`HashMap<String, _>` is embedded as an association list with
replace-or-append insertion and first-match lookup; `HashSet<String>` as
a duplicate-free list with append-if-absent insertion.  Set/map iteration
order (unspecified in Rust) is the model's insertion order; it is only
observable in error payloads.  `String` is UTF-8 bytes (`List Nat`), as
in the `Spec` embedding. -/

/-- `DecimalFmt` from src/compiled_spec.rs. -/
structure DecimalFmt where
  precision : Nat
  scale : Nat
deriving DecidableEq

mutual
/-- `CompiledSpec` from src/compiled_spec.rs: fingerprint bytes, the
named schema (name to compiled spec) and the structure.  The fingerprint
is stored at construction, as in the Rust. -/
inductive CompiledSpec where
  | mk (fingerprint : List Nat) (named_schema : List (List Nat × CompiledSpec))
      (struct : CompiledSpecStructure)

/-- `CompiledSpecStructure` from src/compiled_spec.rs. -/
inductive CompiledSpecStructure where
  | Void
  | Bool
  | Uint (n : Nat)
  | Int (n : Nat)
  | BinaryFloatingPoint (fmt : InterchangeBinaryFloatingPointFormat)
  | DecimalFloatingPoint (fmt : InterchangeDecimalFloatingPointFormat)
  | Decimal (fmt : DecimalFmt)
  | Map (size : Size) (key_spec value_spec : CompiledSpec)
  | List (size : Size) (value_spec : CompiledSpec)
  | String (size : Size) (fmt : StringEncodingFmt)
  | Bytes (size : Size)
  | Optional (s : CompiledSpec)
  | Name (name : List Nat)
  | Record (fields : List (List Nat)) (field_to_spec : List (List Nat × CompiledSpec))
      (field_to_index : List (List Nat × Nat))
  | Tuple (fields : List CompiledSpec)
  | Enum (variants : List (List Nat)) (variant_to_spec : List (List Nat × CompiledSpec))
  | Union (variants : List CompiledSpec)
end

def CompiledSpec.fingerprint : CompiledSpec → List Nat
  | .mk f _ _ => f

def CompiledSpec.named_schema : CompiledSpec → List (List Nat × CompiledSpec)
  | .mk _ ns _ => ns

def CompiledSpec.struct : CompiledSpec → CompiledSpecStructure
  | .mk _ _ st => st

/-- The compilation context `HashMap<String, Arc<CompiledSpec>>`. -/
abbrev Ctx : Type := List (List Nat × CompiledSpec)

/-- A `HashSet<String>`. -/
abbrev NSet : Type := List (List Nat)

/-- `HashMap` lookup (first match). -/
def ctxLookup (ctx : Ctx) (k : List Nat) : Option CompiledSpec :=
  match ctx with
  | [] => none
  | (k', v) :: rest => if k' = k then some v else ctxLookup rest k

/-- `HashMap::contains_key`. -/
def ctxContains (ctx : Ctx) (k : List Nat) : Bool := (ctxLookup ctx k).isSome

/-- `HashMap::insert`: replace in place, else append. -/
def ctxInsert (ctx : Ctx) (k : List Nat) (v : CompiledSpec) : Ctx :=
  match ctx with
  | [] => [(k, v)]
  | (k', v') :: rest =>
    if k' = k then (k, v) :: rest else (k', v') :: ctxInsert rest k v

/-- `HashSet::insert` (append if absent). -/
def setInsert (s : NSet) (k : List Nat) : NSet := if k ∈ s then s else s ++ [k]

/-- `HashSet::remove`. -/
def setRemove (s : NSet) (k : List Nat) : NSet := s.filter fun x => decide (x ≠ k)

/-- Removing several elements (the retry loop's forgiveness step). -/
def setRemoveAll (s : NSet) (ks : NSet) : NSet := ks.foldl setRemove s

/-- `HashSet::extend`. -/
def setUnionL (s : NSet) (ks : NSet) : NSet := ks.foldl setInsert s

mutual
/-- Modelled from the spec: `Spec::to_longform_bytes` (called by
`SpecFingerprint::new` in src/fingerprint.rs but not itself part of the
staged sources).  Per spec section 4, the longform encoding is the wire
encoding with aliased tags never used: `Uint(k)`, `Int(k)`,
`BinaryFP(*)` and `String(Variable, Utf8)` are always written in their
general multi-byte form. -/
def Spec.to_longform_bytes : Spec → ByteStream
  | .Bool => [BOOL]
  | .Uint scale => [UINT, scale]
  | .Int scale => [INT, scale]
  | .BinaryFloatingPoint fmt => BINARY_FP :: fmt.encode
  | .DecimalFloatingPoint fmt => DECIMAL_FP :: fmt.encode
  | .Decimal precision scale =>
    DECIMAL :: variable_length_encode_u64 precision ++ variable_length_encode_u64 scale
  | .Map size key_spec value_spec =>
    MAP :: size.encode ++ Spec.to_longform_bytes key_spec ++ Spec.to_longform_bytes value_spec
  | .List size value_spec => LIST :: size.encode ++ Spec.to_longform_bytes value_spec
  | .String size str_fmt => STRING :: size.encode ++ str_fmt.encode
  | .Bytes size => BYTES :: size.encode
  | .Optional optional_type => OPTIONAL :: Spec.to_longform_bytes optional_type
  | .Name name spec => NAME :: encode_string_utf8 name ++ Spec.to_longform_bytes spec
  | .Ref name => REF :: encode_string_utf8 name
  | .Record fields =>
    RECORD :: variable_length_encode_u64 fields.length ++ namedFieldsToLongformBytes fields
  | .Tuple fields =>
    TUPLE :: variable_length_encode_u64 fields.length ++ specListToLongformBytes fields
  | .Enum variants =>
    ENUM :: variable_length_encode_u64 variants.length ++ namedFieldsToLongformBytes variants
  | .Union variants =>
    UNION :: variable_length_encode_u64 variants.length ++ specListToLongformBytes variants
  | .Void => [VOID]
termination_by structural s => s

/-- Modelled from the spec: longform encoding of record/enum entries. -/
def namedFieldsToLongformBytes : List (List Nat × Spec) → List Nat
  | [] => []
  | (name, spec) :: rest =>
    encode_string_utf8 name ++ Spec.to_longform_bytes spec ++ namedFieldsToLongformBytes rest
termination_by structural l => l

/-- Modelled from the spec: longform encoding of tuple/union entries. -/
def specListToLongformBytes : List Spec → List Nat
  | [] => []
  | spec :: rest => Spec.to_longform_bytes spec ++ specListToLongformBytes rest
termination_by structural l => l
end

/-! ### `make_spec` (compiled structure back to AST)

`CompiledSpec::make_spec_internal` recurses through the context when it
expands a `Name` leaf for the first time, so it is not structurally
recursive; the embedding takes explicit fuel (`none` on exhaustion) and
the wrappers supply a statically sufficient amount: each call either
descends into the structure or expands a context entry, and each name is
expanded at most once. -/

mutual
/-- Size of a structure (for fuel bounds). -/
def structSize : CompiledSpecStructure → Nat
  | .Map _ k v => 1 + csSize k + csSize v
  | .List _ v => 1 + csSize v
  | .Optional s => 1 + csSize s
  | .Record _ f2s _ => 1 + pairListSize f2s
  | .Tuple fs => 1 + csListSize fs
  | .Enum _ v2s => 1 + pairListSize v2s
  | .Union vs => 1 + csListSize vs
  | _ => 1
termination_by structural st => st

def csSize : CompiledSpec → Nat
  | .mk _ _ st => 1 + structSize st
termination_by structural cs => cs

def pairListSize : List (List Nat × CompiledSpec) → Nat
  | [] => 0
  | (_, cs) :: rest => 1 + csSize cs + pairListSize rest
termination_by structural l => l

def csListSize : List CompiledSpec → Nat
  | [] => 0
  | cs :: rest => 1 + csSize cs + csListSize rest
termination_by structural l => l
end

/-- Total size of the structures held in a context. -/
def ctxSize : Ctx → Nat
  | [] => 0
  | (_, cs) :: rest => 1 + csSize cs + ctxSize rest

mutual
/-- `CompiledSpec::make_spec_internal` from src/compiled_spec.rs, with
fuel.  `names_converted` threads left to right exactly as the Rust
`&mut HashSet`; a `Name` leaf becomes `Ref` when already converted and is
otherwise expanded from the context (`none` models the `unwrap` panic on
a missing name). -/
def makeSpecF : Nat → Ctx → NSet → CompiledSpecStructure → Option (Spec × NSet)
  | 0, _, _, _ => none
  | _ + 1, _, conv, .Void => some (.Void, conv)
  | _ + 1, _, conv, .Bool => some (.Bool, conv)
  | _ + 1, _, conv, .Uint n => some (.Uint n, conv)
  | _ + 1, _, conv, .Int n => some (.Int n, conv)
  | _ + 1, _, conv, .BinaryFloatingPoint fmt => some (.BinaryFloatingPoint fmt, conv)
  | _ + 1, _, conv, .DecimalFloatingPoint fmt => some (.DecimalFloatingPoint fmt, conv)
  | _ + 1, _, conv, .Decimal fmt => some (.Decimal fmt.precision fmt.scale, conv)
  | fuel + 1, ctx, conv, .Map size k v =>
    match makeSpecF fuel ctx conv k.struct with
    | none => none
    | some (ks, conv1) =>
      match makeSpecF fuel ctx conv1 v.struct with
      | none => none
      | some (vs, conv2) => some (.Map size ks vs, conv2)
  | fuel + 1, ctx, conv, .List size v =>
    match makeSpecF fuel ctx conv v.struct with
    | none => none
    | some (vs, conv1) => some (.List size vs, conv1)
  | _ + 1, _, conv, .String size fmt => some (.String size fmt, conv)
  | _ + 1, _, conv, .Bytes size => some (.Bytes size, conv)
  | fuel + 1, ctx, conv, .Optional s =>
    match makeSpecF fuel ctx conv s.struct with
    | none => none
    | some (ss, conv1) => some (.Optional ss, conv1)
  | fuel + 1, ctx, conv, .Name n =>
    if n ∈ conv then some (.Ref n, conv)
    else
      match ctxLookup ctx n with
      | none => none
      | some cs =>
        match makeSpecF fuel ctx (setInsert conv n) cs.struct with
        | none => none
        | some (body, conv1) => some (.Name n body, conv1)
  | fuel + 1, ctx, conv, .Record fields f2s _ =>
    match makeSpecNamedF fuel ctx conv fields f2s with
    | none => none
    | some (entries, conv1) => some (.Record entries, conv1)
  | fuel + 1, ctx, conv, .Tuple fs =>
    match makeSpecSeqF fuel ctx conv fs with
    | none => none
    | some (specs, conv1) => some (.Tuple specs, conv1)
  | fuel + 1, ctx, conv, .Enum variants v2s =>
    match makeSpecNamedF fuel ctx conv variants v2s with
    | none => none
    | some (entries, conv1) => some (.Enum entries, conv1)
  | fuel + 1, ctx, conv, .Union vs =>
    match makeSpecSeqF fuel ctx conv vs with
    | none => none
    | some (specs, conv1) => some (.Union specs, conv1)

/-- The `fields.iter().map(..)` loops of `make_spec_internal` for
`Record` and `Enum`: names in declared order, each looked up in the
name-to-spec map. -/
def makeSpecNamedF : Nat → Ctx → NSet → List (List Nat) →
    List (List Nat × CompiledSpec) → Option (List (List Nat × Spec) × NSet)
  | 0, _, _, _, _ => none
  | _ + 1, _, conv, [], _ => some ([], conv)
  | fuel + 1, ctx, conv, f :: rest, f2s =>
    match ctxLookup f2s f with
    | none => none
    | some cs =>
      match makeSpecF fuel ctx conv cs.struct with
      | none => none
      | some (sp, conv1) =>
        match makeSpecNamedF fuel ctx conv1 rest f2s with
        | none => none
        | some (entries, conv2) => some ((f, sp) :: entries, conv2)

/-- The iteration of `make_spec_internal` over `Tuple`/`Union` members. -/
def makeSpecSeqF : Nat → Ctx → NSet → List CompiledSpec → Option (List Spec × NSet)
  | 0, _, _, _ => none
  | _ + 1, _, conv, [] => some ([], conv)
  | fuel + 1, ctx, conv, cs :: rest =>
    match makeSpecF fuel ctx conv cs.struct with
    | none => none
    | some (sp, conv1) =>
      match makeSpecSeqF fuel ctx conv1 rest with
      | none => none
      | some (specs, conv2) => some (sp :: specs, conv2)
end

/-- Fuel that always suffices for `makeSpecF` (structure plus every
context entry plus one per possible name expansion). -/
def mkFuel (ctx : Ctx) (st : CompiledSpecStructure) : Nat :=
  structSize st + ctxSize ctx + ctx.length + 1

/-- `SpecFingerprint::new` from src/fingerprint.rs, with SHA-256 left
out: the model's fingerprint is the SHA-256 *preimage*, the longform
encoding of the AST form of `(named_schema, structure)`.  Equality of
preimages gives equality of the Rust hashes, and the code compares
fingerprints only for equality.  The empty list models the `unwrap`
panic inside `make_spec` (unreachable from the compiler's calls). -/
def specFingerprintNew (named_schema : Ctx) (st : CompiledSpecStructure) : List Nat :=
  match makeSpecF (mkFuel named_schema st) named_schema [] st with
  | some (sp, _) => sp.to_longform_bytes
  | none => []

/-- `CompiledSpec::invalid_compiled_spec` (the placeholder used while a
name's body is being compiled). -/
def invalid_compiled_spec : CompiledSpec :=
  .mk (specFingerprintNew [] .Void) [] .Void

/-- `CompiledSpec::to_spec` via `make_spec`: expand the structure in the
compiled spec's own named schema. -/
def CompiledSpec.to_spec (cs : CompiledSpec) : Option Spec :=
  match makeSpecF (mkFuel cs.named_schema cs.struct) cs.named_schema [] cs.struct with
  | some (sp, _) => some sp
  | none => none

/-! ### The compiler itself

The Rust functions mutate `context`, `non_optional_names` and
`names_used` through `&mut`, and those mutations persist when an error
propagates with `?`; the embedding therefore returns the final state next
to the `Result` in every case.  Fuel (decremented on every call) bounds
both the recursion and the enum/union retry loop; the wrapper supplies an
amount that is exhausted by no actual run it is used on. -/

/-- `SpecCompileError` from src/compiled_spec.rs, plus two model-only
variants: `FuelExhausted` (fuel ran out) and `LookupPanic` (a `.unwrap()`
of a context lookup failed — unreachable from the wrappers). -/
inductive SpecCompileError where
  | DuplicateName (name : List Nat)
  | UndefinedName (name : List Nat)
  | DuplicateRecordFieldNames (names : List (List Nat))
  | DuplicateEnumVariantNames (names : List (List Nat))
  | DuplicateUnionVariantSpecs (specs : List CompiledSpec)
  | InfinitelyRecursiveTypes (names : List (List Nat))
  | IllegalDecimalFmt
  | FuelExhausted
  | LookupPanic

/-- The `named_schema` construction in `compile_spec_internal`: one
context lookup per internally used name. -/
def buildNamedSchema (ctx : Ctx) : NSet → Option Ctx
  | [] => some []
  | n :: rest =>
    match ctxLookup ctx n, buildNamedSchema ctx rest with
    | some cs, some ns => some ((n, cs) :: ns)
    | _, _ => none

/-- The duplicate-variant-name detection of the `Enum` branch: the set of
names occurring more than once. -/
def dupNames (ns : NSet) : NSet := (ns.filter fun n => decide (1 < ns.count n)).dedup

/-- `HashMap<usize, _>` lookup for the `Union` branch. -/
def idxLookup (m : List (Nat × CompiledSpec)) (k : Nat) : Option CompiledSpec :=
  match m with
  | [] => none
  | (k', v) :: rest => if k' = k then some v else idxLookup rest k

/-- `HashMap<usize, _>` insert. -/
def idxInsert (m : List (Nat × CompiledSpec)) (k : Nat) (v : CompiledSpec) :
    List (Nat × CompiledSpec) :=
  match m with
  | [] => [(k, v)]
  | (k', v') :: rest => if k' = k then (k, v) :: rest else (k', v') :: idxInsert rest k v

/-- The `(0..len).map(|i| variants_to_spec.remove(&i).unwrap())` collection
of the `Union` branch. -/
def unionCollect (m : List (Nat × CompiledSpec)) : Nat → Nat → Option (List CompiledSpec)
  | _, 0 => some []
  | start, count + 1 =>
    match idxLookup m start, unionCollect m (start + 1) count with
    | some cs, some rest => some (cs :: rest)
    | _, _ => none

/-- The duplicate-fingerprint filter of the `Union` branch: members whose
fingerprint already occurred earlier in the list. -/
def dupByFp (l : List CompiledSpec) : List CompiledSpec :=
  go l []
where
  go : List CompiledSpec → List (List Nat) → List CompiledSpec
    | [], _ => []
    | cs :: rest, seen =>
      if cs.fingerprint ∈ seen then cs :: go rest seen
      else go rest (cs.fingerprint :: seen)

/-- `field_to_index` of the `Record` branch (later duplicates overwrite). -/
def buildFieldToIndex (fields : List (List Nat × Spec)) : List (List Nat × Nat) :=
  go fields 0
where
  ins : List (List Nat × Nat) → List Nat → Nat → List (List Nat × Nat)
    | [], k, v => [(k, v)]
    | (k', v') :: rest, k, v =>
      if k' = k then (k, v) :: rest else (k', v') :: ins rest k v
  go : List (List Nat × Spec) → Nat → List (List Nat × Nat)
    | [], _ => []
    | (name, _) :: rest, i => ins (go rest (i + 1)) name i

mutual
/-- `compile_spec_internal` from src/compiled_spec.rs: compile the
structure with a fresh internal used-name set, build the named schema
from the context, fingerprint it, and extend the caller's used set.  On
error the state mutations persist but the internal used names are
dropped, as in the Rust. -/
def compileSpecI : Nat → Spec → Ctx → NSet → NSet →
    (Except SpecCompileError CompiledSpec) × Ctx × NSet × NSet
  | 0, _, ctx, nonOpt, used => (.error .FuelExhausted, ctx, nonOpt, used)
  | fuel + 1, spec, ctx, nonOpt, used =>
    match compileStructI fuel spec ctx nonOpt [] with
    | (.error e, ctx1, nonOpt1, _) => (.error e, ctx1, nonOpt1, used)
    | (.ok st, ctx1, nonOpt1, internal) =>
      match buildNamedSchema ctx1 internal with
      | none => (.error .LookupPanic, ctx1, nonOpt1, used)
      | some ns =>
        (.ok (.mk (specFingerprintNew ns st) ns st), ctx1, nonOpt1, setUnionL used internal)

/-- `compile_structure_internal` from src/compiled_spec.rs. -/
def compileStructI : Nat → Spec → Ctx → NSet → NSet →
    (Except SpecCompileError CompiledSpecStructure) × Ctx × NSet × NSet
  | 0, _, ctx, nonOpt, used => (.error .FuelExhausted, ctx, nonOpt, used)
  | fuel + 1, spec, ctx, nonOpt, used =>
    match spec with
    | .Bool => (.ok .Bool, ctx, nonOpt, used)
    | .Uint n => (.ok (.Uint n), ctx, nonOpt, used)
    | .Int n => (.ok (.Int n), ctx, nonOpt, used)
    | .BinaryFloatingPoint fmt => (.ok (.BinaryFloatingPoint fmt), ctx, nonOpt, used)
    | .DecimalFloatingPoint fmt => (.ok (.DecimalFloatingPoint fmt), ctx, nonOpt, used)
    | .Decimal precision scale =>
      if scale ≤ precision then
        (.ok (.Decimal ⟨precision, scale⟩), ctx, nonOpt, used)
      else (.error .IllegalDecimalFmt, ctx, nonOpt, used)
    | .Map size key_spec value_spec =>
      match boxCompile fuel key_spec ctx used with
      | (.error e, ctx1, used1) => (.error e, ctx1, nonOpt, used1)
      | (.ok kc, ctx1, used1) =>
        match boxCompile fuel value_spec ctx1 used1 with
        | (.error e, ctx2, used2) => (.error e, ctx2, nonOpt, used2)
        | (.ok vc, ctx2, used2) => (.ok (.Map size kc vc), ctx2, nonOpt, used2)
    | .List size value_spec =>
      match boxCompile fuel value_spec ctx used with
      | (.error e, ctx1, used1) => (.error e, ctx1, nonOpt, used1)
      | (.ok vc, ctx1, used1) => (.ok (.List size vc), ctx1, nonOpt, used1)
    | .String size fmt => (.ok (.String size fmt), ctx, nonOpt, used)
    | .Bytes size => (.ok (.Bytes size), ctx, nonOpt, used)
    | .Optional s =>
      match boxCompile fuel s ctx used with
      | (.error e, ctx1, used1) => (.error e, ctx1, nonOpt, used1)
      | (.ok sc, ctx1, used1) => (.ok (.Optional sc), ctx1, nonOpt, used1)
    | .Name name spec =>
      if ctxContains ctx name then
        (.error (.DuplicateName name), ctx, nonOpt, used)
      else
        match compileSpecI fuel spec (ctxInsert ctx name invalid_compiled_spec)
            (setInsert nonOpt name) used with
        | (.error e, ctx2, nonOpt2, used2) => (.error e, ctx2, nonOpt2, used2)
        | (.ok cs, ctx2, nonOpt2, used2) =>
          (.ok (.Name name), ctxInsert ctx2 name cs, setRemove nonOpt2 name,
            setInsert used2 name)
    | .Ref name =>
      if name ∈ nonOpt then
        (.error (.InfinitelyRecursiveTypes [name]), ctx, nonOpt, used)
      else if ctxContains ctx name then
        (.ok (.Name name), ctx, nonOpt, setInsert used name)
      else (.error (.UndefinedName name), ctx, nonOpt, used)
    | .Record fields =>
      match compileRecFieldsI fuel fields ctx nonOpt used [] [] with
      | (.error e, ctx1, nonOpt1, used1) => (.error e, ctx1, nonOpt1, used1)
      | (.ok (f2s, dups), ctx1, nonOpt1, used1) =>
        match dups with
        | [] =>
          (.ok (.Record (fields.map Prod.fst) f2s (buildFieldToIndex fields)),
            ctx1, nonOpt1, used1)
        | _ => (.error (.DuplicateRecordFieldNames dups), ctx1, nonOpt1, used1)
    | .Tuple fields =>
      match compileTupleI fuel fields ctx nonOpt used with
      | (.error e, ctx1, used1) => (.error e, ctx1, nonOpt, used1)
      | (.ok cs, ctx1, used1) => (.ok (.Tuple cs), ctx1, nonOpt, used1)
    | .Enum variants =>
      match dupNames (variants.map Prod.fst) with
      | _ :: _ =>
        (.error (.DuplicateEnumVariantNames (dupNames (variants.map Prod.fst))),
          ctx, nonOpt, used)
      | [] =>
        match compileVariantsN fuel variants ctx nonOpt used [] 0 [] with
        | (.error e, ctx1, used1) => (.error e, ctx1, nonOpt, used1)
        | (.ok (v2s, marked, offAll), ctx1, used1) =>
          if marked = variants.length then
            (.error (.InfinitelyRecursiveTypes offAll), ctx1, nonOpt, used1)
          else
            (.ok (.Enum (variants.map Prod.fst) v2s), ctx1, nonOpt, used1)
    | .Union variants =>
      match compileVariantsU fuel variants.enum ctx nonOpt used [] 0 [] with
      | (.error e, ctx1, used1) => (.error e, ctx1, nonOpt, used1)
      | (.ok (v2s, marked, offAll), ctx1, used1) =>
        if marked = variants.length then
          (.error (.InfinitelyRecursiveTypes offAll), ctx1, nonOpt, used1)
        else
          match unionCollect v2s 0 variants.length with
          | none => (.error .LookupPanic, ctx1, nonOpt, used1)
          | some compiled_variants =>
            match dupByFp compiled_variants with
            | [] => (.ok (.Union compiled_variants), ctx1, nonOpt, used1)
            | dups => (.error (.DuplicateUnionVariantSpecs dups), ctx1, nonOpt, used1)
    | .Void => (.ok .Void, ctx, nonOpt, used)

/-- `box_compile` from src/compiled_spec.rs: compile with a fresh
(empty) non-optional-name set, sharing context and used names. -/
def boxCompile : Nat → Spec → Ctx → NSet →
    (Except SpecCompileError CompiledSpec) × Ctx × NSet
  | 0, _, ctx, used => (.error .FuelExhausted, ctx, used)
  | fuel + 1, spec, ctx, used =>
    match compileSpecI fuel spec ctx [] used with
    | (r, ctx1, _, used1) => (r, ctx1, used1)

/-- The field loop of the `Record` branch: compile each field in order
(threading the shared non-optional set), accumulating the field map and
the duplicate-name set. -/
def compileRecFieldsI : Nat → List (List Nat × Spec) → Ctx → NSet → NSet → Ctx → NSet →
    (Except SpecCompileError (Ctx × NSet)) × Ctx × NSet × NSet
  | 0, _, ctx, nonOpt, used, _, _ => (.error .FuelExhausted, ctx, nonOpt, used)
  | _ + 1, [], ctx, nonOpt, used, f2s, dups => (.ok (f2s, dups), ctx, nonOpt, used)
  | fuel + 1, (fname, fspec) :: rest, ctx, nonOpt, used, f2s, dups =>
    match compileSpecI fuel fspec ctx nonOpt used with
    | (.error e, ctx1, nonOpt1, used1) => (.error e, ctx1, nonOpt1, used1)
    | (.ok cs, ctx1, nonOpt1, used1) =>
      let dups1 := if ctxContains f2s fname then setInsert dups fname else dups
      compileRecFieldsI fuel rest ctx1 nonOpt1 used1 (ctxInsert f2s fname cs) dups1

/-- The field loop of the `Tuple` branch: each field compiles with its
own clone of the non-optional set (mutations dropped). -/
def compileTupleI : Nat → List Spec → Ctx → NSet → NSet →
    (Except SpecCompileError (List CompiledSpec)) × Ctx × NSet
  | 0, _, ctx, _, used => (.error .FuelExhausted, ctx, used)
  | _ + 1, [], ctx, _, used => (.ok [], ctx, used)
  | fuel + 1, fspec :: rest, ctx, nonOpt, used =>
    match compileSpecI fuel fspec ctx nonOpt used with
    | (.error e, ctx1, _, used1) => (.error e, ctx1, used1)
    | (.ok cs, ctx1, _, used1) =>
      match compileTupleI fuel rest ctx1 nonOpt used1 with
      | (.error e, ctx2, used2) => (.error e, ctx2, used2)
      | (.ok rest', ctx2, used2) => (.ok (cs :: rest'), ctx2, used2)

/-- The retry loop inside `compile_variants_with_loop_checking`: compile
the variant; on `InfinitelyRecursiveTypes`, forgive the offending names
(remove them from the variant's non-offending set), remember them and the
fact that this variant needed forgiveness, and try again.  Context and
used-name mutations of failed attempts persist, as with `&mut` in Rust. -/
def variantRetryLoop : Nat → Spec → Ctx → NSet → NSet → NSet → Bool →
    (Except SpecCompileError (CompiledSpec × NSet × Bool)) × Ctx × NSet
  | 0, _, ctx, _, _, used, _ => (.error .FuelExhausted, ctx, used)
  | fuel + 1, vspec, ctx, nonOff, offAcc, used, marked =>
    match compileSpecI fuel vspec ctx nonOff used with
    | (.ok cs, ctx1, _, used1) => (.ok (cs, offAcc, marked), ctx1, used1)
    | (.error (.InfinitelyRecursiveTypes offs), ctx1, nonOff1, used1) =>
      variantRetryLoop fuel vspec ctx1 (setRemoveAll nonOff1 offs)
        (setUnionL offAcc offs) used1 true
    | (.error e, ctx1, _, used1) => (.error e, ctx1, used1)

/-- `compile_variants_with_loop_checking` for `Enum` (string keys):
process the variants in order, each with a fresh clone of the caller's
non-optional set, counting the variants that needed forgiveness and
collecting all forgiven names. -/
def compileVariantsN : Nat → List (List Nat × Spec) → Ctx → NSet → NSet → Ctx → Nat → NSet →
    (Except SpecCompileError (Ctx × Nat × NSet)) × Ctx × NSet
  | 0, _, ctx, _, used, _, _, _ => (.error .FuelExhausted, ctx, used)
  | _ + 1, [], ctx, _, used, v2s, markedCount, offAll => (.ok (v2s, markedCount, offAll), ctx, used)
  | fuel + 1, (vname, vspec) :: rest, ctx, nonOpt, used, v2s, markedCount, offAll =>
    match variantRetryLoop fuel vspec ctx nonOpt [] used false with
    | (.error e, ctx1, used1) => (.error e, ctx1, used1)
    | (.ok (cs, offs, marked), ctx1, used1) =>
      compileVariantsN fuel rest ctx1 nonOpt used1 (ctxInsert v2s vname cs)
        (markedCount + (if marked then 1 else 0)) (setUnionL offAll offs)

/-- `compile_variants_with_loop_checking` for `Union` (index keys). -/
def compileVariantsU : Nat → List (Nat × Spec) → Ctx → NSet → NSet →
    List (Nat × CompiledSpec) → Nat → NSet →
    (Except SpecCompileError (List (Nat × CompiledSpec) × Nat × NSet)) × Ctx × NSet
  | 0, _, ctx, _, used, _, _, _ => (.error .FuelExhausted, ctx, used)
  | _ + 1, [], ctx, _, used, v2s, markedCount, offAll => (.ok (v2s, markedCount, offAll), ctx, used)
  | fuel + 1, (vidx, vspec) :: rest, ctx, nonOpt, used, v2s, markedCount, offAll =>
    match variantRetryLoop fuel vspec ctx nonOpt [] used false with
    | (.error e, ctx1, used1) => (.error e, ctx1, used1)
    | (.ok (cs, offs, marked), ctx1, used1) =>
      compileVariantsU fuel rest ctx1 nonOpt used1 (idxInsert v2s vidx cs)
        (markedCount + (if marked then 1 else 0)) (setUnionL offAll offs)
end

mutual
/-- Node count of a `Spec`, for the compiler's fuel. -/
def specNodeCount : Spec → Nat
  | .Map _ k v => 1 + specNodeCount k + specNodeCount v
  | .List _ v => 1 + specNodeCount v
  | .Optional s => 1 + specNodeCount s
  | .Name _ s => 2 + specNodeCount s
  | .Record fs => 1 + namedSpecCount fs
  | .Tuple fs => 1 + seqSpecCount fs
  | .Enum vs => 1 + namedSpecCount vs
  | .Union vs => 1 + seqSpecCount vs
  | _ => 1
termination_by structural s => s

def namedSpecCount : List (List Nat × Spec) → Nat
  | [] => 0
  | (_, s) :: rest => 1 + specNodeCount s + namedSpecCount rest
termination_by structural l => l

def seqSpecCount : List Spec → Nat
  | [] => 0
  | s :: rest => 1 + specNodeCount s + seqSpecCount rest
termination_by structural l => l
end

/-- `CompiledSpec::compile` from src/compiled_spec.rs: fresh context and
sets, with fuel no run of the compiler on `spec` can exhaust. -/
def CompiledSpec.compile (spec : Spec) : Except SpecCompileError CompiledSpec :=
  (compileSpecI (2 ^ (specNodeCount spec + 2)) spec [] [] []).1

/-- The compiled spec of a record field (for stating C3). -/
def recordFieldCS (cs : CompiledSpec) (f : List Nat) : Option CompiledSpec :=
  match cs.struct with
  | .Record _ f2s _ => ctxLookup f2s f
  | _ => none

/-- Claim C3 (confirmed): in `compile(Record[("f1", Name{"n", Bool}),
("f2", Ref "n")])` the fields "f1" and "f2" carry compiled specs whose
fingerprints both equal `compile(Name{"n", Bool}).fingerprint()` (and all
three are present, so the equalities are not vacuous).  Byte strings:
"f1" = [102,49], "f2" = [102,50], "n" = [110]. -/
theorem claim_C3 :
    ((CompiledSpec.compile
          (.Record [([102, 49], .Name [110] .Bool), ([102, 50], .Ref [110])])).toOption.bind
        fun cs => recordFieldCS cs [102, 49]).map CompiledSpec.fingerprint =
      ((CompiledSpec.compile (.Name [110] .Bool)).toOption.map CompiledSpec.fingerprint) ∧
    ((CompiledSpec.compile
          (.Record [([102, 49], .Name [110] .Bool), ([102, 50], .Ref [110])])).toOption.bind
        fun cs => recordFieldCS cs [102, 50]).map CompiledSpec.fingerprint =
      ((CompiledSpec.compile (.Name [110] .Bool)).toOption.map CompiledSpec.fingerprint) ∧
    ((CompiledSpec.compile (.Name [110] .Bool)).toOption.map CompiledSpec.fingerprint).isSome
      = true :=
  ⟨rfl, rfl, rfl⟩

/-- Claim C6 (confirmed): `Name{"self", Enum[("rec", Ref "self"),
("base", Bool)]}` compiles (the `Bool` variant needs no forgiveness), and
with the `Bool` variant replaced by another `Ref "self"` compilation
fails with `InfinitelyRecursiveTypes {"self"}` (every variant needed the
recursion forgiven).  Byte strings: "self" = [115,101,108,102],
"rec" = [114,101,99], "base" = [98,97,115,101]. -/
theorem claim_C6 :
    (CompiledSpec.compile (.Name [115, 101, 108, 102]
        (.Enum [([114, 101, 99], .Ref [115, 101, 108, 102]),
          ([98, 97, 115, 101], .Bool)]))).isOk = true ∧
    CompiledSpec.compile (.Name [115, 101, 108, 102]
        (.Enum [([114, 101, 99], .Ref [115, 101, 108, 102]),
          ([98, 97, 115, 101], .Ref [115, 101, 108, 102])])) =
      .error (.InfinitelyRecursiveTypes [[115, 101, 108, 102]]) :=
  ⟨rfl, rfl⟩

/-- Claim C7 (amended): `box_compile` clears the recursion tracking for
every `List`, `Map` and `Optional` regardless of the declared size, so
`Name{"n", List{Fixed(k), Ref "n"}}` compiles successfully for every `k`
even though the type has no finite inhabitant; the
`InfinitelyRecursiveTypes` error is raised only when a cycle passes
through no `List`/`Map`/`Optional` node at all, as in `Name{"n", Ref "n"}`. -/
theorem claim_C7 :
    (∀ k : Nat,
        (CompiledSpec.compile (.Name [110] (.List (.Fixed k) (.Ref [110])))).isOk = true) ∧
      CompiledSpec.compile (.Name [110] (.Ref [110])) =
        .error (.InfinitelyRecursiveTypes [[110]]) :=
  ⟨fun _ => rfl, rfl⟩

/-- Claim C7 counterexample: the fixed-size list of its own name — a type
with no finite inhabitant — is accepted by `compile`, contradicting the
claimed rejection. -/
theorem claim_C7_counterexample :
    (CompiledSpec.compile (.Name [110] (.List (.Fixed 1) (.Ref [110])))).isOk = true :=
  rfl

/-! ### Toward the compile round-trip: basic facts about the state types -/

mutual
/-- The names bound by `Name` nodes of a spec (with multiplicity, in
traversal order). -/
def definedNames : Spec → NSet
  | .Map _ k v => definedNames k ++ definedNames v
  | .List _ v => definedNames v
  | .Optional s => definedNames s
  | .Name n s => n :: definedNames s
  | .Record fs => definedNamesNamed fs
  | .Enum fs => definedNamesNamed fs
  | .Tuple fs => definedNamesSeq fs
  | .Union fs => definedNamesSeq fs
  | _ => []
termination_by structural s => s

def definedNamesNamed : List (List Nat × Spec) → NSet
  | [] => []
  | (_, s) :: rest => definedNames s ++ definedNamesNamed rest
termination_by structural l => l

def definedNamesSeq : List Spec → NSet
  | [] => []
  | s :: rest => definedNames s ++ definedNamesSeq rest
termination_by structural l => l
end

theorem ctxContains_append (ctx δ : Ctx) (n : List Nat) :
    ctxContains (ctx ++ δ) n = (ctxContains ctx n || ctxContains δ n) := by
  induction ctx with
  | nil => simp [ctxContains, ctxLookup]
  | cons p rest ih =>
    obtain ⟨k, v⟩ := p
    by_cases h : k = n <;> simp [ctxContains, ctxLookup, h] at ih ⊢ <;> exact ih

theorem ctxLookup_append_left {ctx : Ctx} {n : List Nat} (δ : Ctx)
    (h : ctxContains ctx n = true) : ctxLookup (ctx ++ δ) n = ctxLookup ctx n := by
  induction ctx with
  | nil => simp [ctxContains, ctxLookup] at h
  | cons p rest ih =>
    obtain ⟨k, v⟩ := p
    by_cases hk : k = n
    · simp [ctxLookup, hk]
    · have h' : ctxContains rest n = true := by
        simpa [ctxContains, ctxLookup, hk] using h
      simp [ctxLookup, hk, ih h']

theorem ctxLookup_append_right {ctx : Ctx} {n : List Nat} (δ : Ctx)
    (h : ctxContains ctx n = false) : ctxLookup (ctx ++ δ) n = ctxLookup δ n := by
  induction ctx with
  | nil => simp [ctxLookup]
  | cons p rest ih =>
    obtain ⟨k, v⟩ := p
    by_cases hk : k = n
    · simp [ctxContains, ctxLookup, hk] at h
    · have h' : ctxContains rest n = false := by
        simpa [ctxContains, ctxLookup, hk] using h
      simp [ctxLookup, hk, ih h']

theorem ctxInsert_eq_append {ctx : Ctx} {k : List Nat} (v : CompiledSpec)
    (h : ctxContains ctx k = false) : ctxInsert ctx k v = ctx ++ [(k, v)] := by
  induction ctx with
  | nil => rfl
  | cons p rest ih =>
    obtain ⟨k', v'⟩ := p
    by_cases hk : k' = k
    · simp [ctxContains, ctxLookup, hk] at h
    · have h' : ctxContains rest k = false := by
        simpa [ctxContains, ctxLookup, hk] using h
      simp [ctxInsert, hk, ih h']

theorem ctxLookup_insert_self (ctx : Ctx) (k : List Nat) (v : CompiledSpec) :
    ctxLookup (ctxInsert ctx k v) k = some v := by
  induction ctx with
  | nil => simp [ctxInsert, ctxLookup]
  | cons p rest ih =>
    obtain ⟨k', v'⟩ := p
    by_cases hk : k' = k <;> simp [ctxInsert, ctxLookup, hk, ih]

theorem ctxLookup_insert_ne {n k : List Nat} (ctx : Ctx) (v : CompiledSpec)
    (h : n ≠ k) : ctxLookup (ctxInsert ctx k v) n = ctxLookup ctx n := by
  induction ctx with
  | nil => simp [ctxInsert, ctxLookup, Ne.symm h]
  | cons p rest ih =>
    obtain ⟨k', v'⟩ := p
    by_cases hk : k' = k
    · subst hk
      simp [ctxInsert, ctxLookup, Ne.symm h]
    · by_cases hn : k' = n <;> simp [ctxInsert, ctxLookup, hk, hn, h, ih]

theorem ctxInsert_append_right {ctx : Ctx} {k : List Nat} (δ : Ctx) (v : CompiledSpec)
    (h : ctxContains ctx k = false) :
    ctxInsert (ctx ++ δ) k v = ctx ++ ctxInsert δ k v := by
  induction ctx with
  | nil => rfl
  | cons p rest ih =>
    obtain ⟨k', v'⟩ := p
    by_cases hk : k' = k
    · simp [ctxContains, ctxLookup, hk] at h
    · have h' : ctxContains rest k = false := by
        simpa [ctxContains, ctxLookup, hk] using h
      simp [ctxInsert, hk, ih h']

theorem mem_ctxInsert {p : List Nat × CompiledSpec} {m : Ctx} {k : List Nat}
    {v : CompiledSpec} (h : p ∈ ctxInsert m k v) : p = (k, v) ∨ p ∈ m := by
  induction m with
  | nil => simpa [ctxInsert] using h
  | cons q rest ih =>
    obtain ⟨k', v'⟩ := q
    by_cases hk : k' = k
    · simp [ctxInsert, hk] at h
      rcases h with h | h
      · exact Or.inl (by simp [h])
      · exact Or.inr (by simp [h])
    · simp [ctxInsert, hk] at h
      rcases h with h | h
      · exact Or.inr (by simp [h])
      · rcases ih h with h' | h'
        · exact Or.inl h'
        · exact Or.inr (by simp [h'])

theorem ctxContains_insert (m : Ctx) (k : List Nat) (v : CompiledSpec) (n : List Nat) :
    ctxContains (ctxInsert m k v) n = true ↔ n = k ∨ ctxContains m n = true := by
  by_cases h : n = k
  · subst h
    simp [ctxContains, ctxLookup_insert_self]
  · simp [ctxContains, ctxLookup_insert_ne m v h, h]

theorem mem_setInsert {s : NSet} {k n : List Nat} :
    n ∈ setInsert s k ↔ n ∈ s ∨ n = k := by
  by_cases h : k ∈ s
  · simp only [setInsert, if_pos h]
    constructor
    · exact Or.inl
    · rintro (hn | rfl)
      · exact hn
      · exact h
  · simp [setInsert, if_neg h]

theorem mem_setUnionL {s ks : NSet} {n : List Nat} :
    n ∈ setUnionL s ks ↔ n ∈ s ∨ n ∈ ks := by
  induction ks generalizing s with
  | nil => simp [setUnionL]
  | cons k rest ih =>
    show n ∈ setUnionL (setInsert s k) rest ↔ _
    rw [ih, mem_setInsert]
    simp only [List.mem_cons]
    tauto

theorem mem_setRemove {s : NSet} {k n : List Nat} :
    n ∈ setRemove s k ↔ n ∈ s ∧ n ≠ k := by
  simp [setRemove]

theorem mem_setRemoveAll {s ks : NSet} {n : List Nat} (h : n ∈ setRemoveAll s ks) :
    n ∈ s := by
  induction ks generalizing s with
  | nil => exact h
  | cons k rest ih =>
    have := ih (s := setRemove s k) h
    exact (mem_setRemove.mp this).1

theorem buildNamedSchema_lookup {ctx : Ctx} {l : NSet} {ns : Ctx}
    (h : buildNamedSchema ctx l = some ns) :
    ∀ n ∈ l, ctxLookup ns n = ctxLookup ctx n := by
  induction l generalizing ns with
  | nil => simp
  | cons m rest ih =>
    intro n hn
    rw [buildNamedSchema] at h
    rcases hm : ctxLookup ctx m with _ | cs
    · rw [hm] at h
      simp at h
    · rcases hrest : buildNamedSchema ctx rest with _ | ns'
      · rw [hm, hrest] at h
        simp at h
      · rw [hm, hrest] at h
        simp at h
        subst h
        rcases List.mem_cons.mp hn with rfl | hmem
        · simp [ctxLookup, hm]
        · by_cases hnm : m = n
          · subst hnm
            simp [ctxLookup, hm]
          · simp [ctxLookup, hnm]
            exact ih hrest n hmem

theorem ctxSize_eq_pairListSize (l : Ctx) : ctxSize l = pairListSize l := by
  induction l with
  | nil => rfl
  | cons p rest ih =>
    obtain ⟨k, v⟩ := p
    simp [ctxSize, pairListSize, ih]

/-- Context evolution: the output context extends the input context, and
every appended entry is named by a `Name` node of the processed spec. -/
def CtxEvolves (ctx ctx' : Ctx) (allowed : NSet) : Prop :=
  ∃ δ, ctx' = ctx ++ δ ∧ ∀ p ∈ δ, p.1 ∈ allowed

theorem ctxEvolves_refl {ctx : Ctx} {allowed : NSet} : CtxEvolves ctx ctx allowed :=
  ⟨[], by simp⟩

theorem CtxEvolves.trans {a b c : Ctx} {s : NSet}
    (h1 : CtxEvolves a b s) (h2 : CtxEvolves b c s) : CtxEvolves a c s := by
  obtain ⟨d1, rfl, hm1⟩ := h1
  obtain ⟨d2, rfl, hm2⟩ := h2
  refine ⟨d1 ++ d2, by simp, ?_⟩
  intro p hp
  rcases List.mem_append.mp hp with h | h
  · exact hm1 p h
  · exact hm2 p h

theorem CtxEvolves.mono {a b : Ctx} {s1 s2 : NSet}
    (h : CtxEvolves a b s1) (hs : ∀ n ∈ s1, n ∈ s2) : CtxEvolves a b s2 := by
  obtain ⟨d, rfl, hm⟩ := h
  exact ⟨d, rfl, fun p hp => hs _ (hm p hp)⟩

/-- All-paths state evolution of the compiler: the context only grows
(by entries named in the processed spec), and the used-name set only
grows — on success and on error alike, mirroring `&mut` persistence. -/
theorem compile_evolution : ∀ fuel : Nat,
    (∀ s ctx no u, CtxEvolves ctx (compileSpecI fuel s ctx no u).2.1 (definedNames s) ∧
      ∀ n ∈ u, n ∈ (compileSpecI fuel s ctx no u).2.2.2) ∧
    (∀ s ctx no u, CtxEvolves ctx (compileStructI fuel s ctx no u).2.1 (definedNames s) ∧
      ∀ n ∈ u, n ∈ (compileStructI fuel s ctx no u).2.2.2) ∧
    (∀ s ctx u, CtxEvolves ctx (boxCompile fuel s ctx u).2.1 (definedNames s) ∧
      ∀ n ∈ u, n ∈ (boxCompile fuel s ctx u).2.2) ∧
    (∀ entries ctx no u f2s dups,
      CtxEvolves ctx (compileRecFieldsI fuel entries ctx no u f2s dups).2.1
        (definedNamesNamed entries) ∧
      ∀ n ∈ u, n ∈ (compileRecFieldsI fuel entries ctx no u f2s dups).2.2.2) ∧
    (∀ fields ctx no u,
      CtxEvolves ctx (compileTupleI fuel fields ctx no u).2.1 (definedNamesSeq fields) ∧
      ∀ n ∈ u, n ∈ (compileTupleI fuel fields ctx no u).2.2) ∧
    (∀ vspec ctx noff offAcc u m,
      CtxEvolves ctx (variantRetryLoop fuel vspec ctx noff offAcc u m).2.1
        (definedNames vspec) ∧
      ∀ n ∈ u, n ∈ (variantRetryLoop fuel vspec ctx noff offAcc u m).2.2) ∧
    (∀ entries ctx no u v2s mc offAll,
      CtxEvolves ctx (compileVariantsN fuel entries ctx no u v2s mc offAll).2.1
        (definedNamesNamed entries) ∧
      ∀ n ∈ u, n ∈ (compileVariantsN fuel entries ctx no u v2s mc offAll).2.2) ∧
    (∀ entries ctx no u v2s mc offAll,
      CtxEvolves ctx (compileVariantsU fuel entries ctx no u v2s mc offAll).2.1
        (definedNamesSeq (entries.map Prod.snd)) ∧
      ∀ n ∈ u, n ∈ (compileVariantsU fuel entries ctx no u v2s mc offAll).2.2) := by
  intro fuel
  induction fuel with
  | zero =>
    refine ⟨?_, ?_, ?_, ?_, ?_, ?_, ?_, ?_⟩ <;> intros <;>
      exact ⟨ctxEvolves_refl, fun n hn => hn⟩
  | succ f ih =>
    obtain ⟨ihS, ihSt, ihB, ihR, ihT, ihV, ihN, ihU⟩ := ih
    refine ⟨?_, ?_, ?_, ?_, ?_, ?_, ?_, ?_⟩
    · -- compileSpecI
      intro s ctx no u
      have hst := ihSt s ctx no []
      rcases h1 : compileStructI f s ctx no [] with ⟨r1, ctx1, no1, int1⟩
      rw [h1] at hst
      simp only at hst
      cases r1 with
      | error e =>
        simp only [compileSpecI, h1]
        exact ⟨hst.1, fun n hn => hn⟩
      | ok st =>
        rcases h2 : buildNamedSchema ctx1 int1 with _ | ns
        · simp only [compileSpecI, h1, h2]
          exact ⟨hst.1, fun n hn => hn⟩
        · simp only [compileSpecI, h1, h2]
          exact ⟨hst.1, fun n hn => mem_setUnionL.mpr (Or.inl hn)⟩
    · -- compileStructI
      intro s ctx no u
      cases s with
      | Bool => exact ⟨ctxEvolves_refl, fun n hn => hn⟩
      | Void => exact ⟨ctxEvolves_refl, fun n hn => hn⟩
      | Uint n => exact ⟨ctxEvolves_refl, fun n hn => hn⟩
      | Int n => exact ⟨ctxEvolves_refl, fun n hn => hn⟩
      | BinaryFloatingPoint fmt => exact ⟨ctxEvolves_refl, fun n hn => hn⟩
      | DecimalFloatingPoint fmt => exact ⟨ctxEvolves_refl, fun n hn => hn⟩
      | String size fmt => exact ⟨ctxEvolves_refl, fun n hn => hn⟩
      | Bytes size => exact ⟨ctxEvolves_refl, fun n hn => hn⟩
      | Decimal precision scale =>
        simp only [compileStructI]
        split <;> exact ⟨ctxEvolves_refl, fun n hn => hn⟩
      | Map size k v =>
        have hk := ihB k ctx u
        rcases h1 : boxCompile f k ctx u with ⟨r1, ctx1, u1⟩
        rw [h1] at hk
        simp only at hk
        have hsub1 : ∀ n ∈ definedNames k, n ∈ definedNames (.Map size k v) := by
          intro n hn
          simp only [definedNames, List.mem_append]
          exact Or.inl hn
        cases r1 with
        | error e =>
          simp only [compileStructI, h1]
          exact ⟨hk.1.mono hsub1, hk.2⟩
        | ok kc =>
          have hv := ihB v ctx1 u1
          rcases h2 : boxCompile f v ctx1 u1 with ⟨r2, ctx2, u2⟩
          rw [h2] at hv
          simp only at hv
          have hsub2 : ∀ n ∈ definedNames v, n ∈ definedNames (.Map size k v) := by
            intro n hn
            simp only [definedNames, List.mem_append]
            exact Or.inr hn
          cases r2 <;> simp only [compileStructI, h1, h2] <;>
            exact ⟨(hk.1.mono hsub1).trans (hv.1.mono hsub2),
              fun n hn => hv.2 n (hk.2 n hn)⟩
      | List size v =>
        have hv := ihB v ctx u
        rcases h1 : boxCompile f v ctx u with ⟨r1, ctx1, u1⟩
        rw [h1] at hv
        simp only at hv
        cases r1 <;> simp only [compileStructI, h1] <;> exact ⟨hv.1, hv.2⟩
      | Optional s0 =>
        have hv := ihB s0 ctx u
        rcases h1 : boxCompile f s0 ctx u with ⟨r1, ctx1, u1⟩
        rw [h1] at hv
        simp only at hv
        cases r1 <;> simp only [compileStructI, h1] <;> exact ⟨hv.1, hv.2⟩
      | Name name spec =>
        simp only [compileStructI]
        by_cases hc : ctxContains ctx name = true
        · rw [if_pos hc]
          exact ⟨ctxEvolves_refl, fun n hn => hn⟩
        · rw [if_neg hc]
          have hcf : ctxContains ctx name = false := by simpa using hc
          have hb := ihS spec (ctxInsert ctx name invalid_compiled_spec) (setInsert no name) u
          rcases h1 : compileSpecI f spec (ctxInsert ctx name invalid_compiled_spec)
              (setInsert no name) u with ⟨r1, ctx2, no2, u2⟩
          rw [h1] at hb
          simp only at hb
          have hins : ctxInsert ctx name invalid_compiled_spec =
              ctx ++ [(name, invalid_compiled_spec)] := ctxInsert_eq_append _ hcf
          obtain ⟨⟨δb, hδb, hmb⟩, hu⟩ := hb
          have hctx2 : ctx2 = ctx ++ ((name, invalid_compiled_spec) :: δb) := by
            rw [hδb, hins]
            simp
          cases r1 with
          | error e =>
            refine ⟨⟨(name, invalid_compiled_spec) :: δb, hctx2, ?_⟩, hu⟩
            intro p hp
            rcases List.mem_cons.mp hp with rfl | hp'
            · simp [definedNames]
            · simp only [definedNames, List.mem_cons]
              exact Or.inr (hmb p hp')
          | ok cs =>
            refine ⟨⟨ctxInsert ((name, invalid_compiled_spec) :: δb) name cs, ?_, ?_⟩,
              fun n hn => mem_setInsert.mpr (Or.inl (hu n hn))⟩
            · rw [hctx2]
              show ctxInsert (ctx ++ ((name, invalid_compiled_spec) :: δb)) name cs = _
              exact ctxInsert_append_right _ _ hcf
            · intro p hp
              rcases mem_ctxInsert hp with rfl | hp'
              · simp [definedNames]
              · rcases List.mem_cons.mp hp' with rfl | hp''
                · simp [definedNames]
                · simp only [definedNames, List.mem_cons]
                  exact Or.inr (hmb p hp'')
      | Ref name =>
        simp only [compileStructI]
        split
        · exact ⟨ctxEvolves_refl, fun n hn => hn⟩
        · split
          · exact ⟨ctxEvolves_refl, fun n hn => mem_setInsert.mpr (Or.inl hn)⟩
          · exact ⟨ctxEvolves_refl, fun n hn => hn⟩
      | Record fields =>
        have hr := ihR fields ctx no u [] []
        rcases h1 : compileRecFieldsI f fields ctx no u [] [] with ⟨r1, ctx1, no1, u1⟩
        rw [h1] at hr
        simp only at hr
        cases r1 with
        | error e =>
          simp only [compileStructI, h1]
          exact ⟨hr.1, hr.2⟩
        | ok t =>
          rcases t with ⟨f2s2, dups2⟩
          rcases dups2 with _ | ⟨d, ds⟩ <;> simp only [compileStructI, h1] <;>
            exact ⟨hr.1, hr.2⟩
      | Tuple fields =>
        have ht := ihT fields ctx no u
        rcases h1 : compileTupleI f fields ctx no u with ⟨r1, ctx1, u1⟩
        rw [h1] at ht
        simp only at ht
        cases r1 <;> simp only [compileStructI, h1] <;> exact ⟨ht.1, ht.2⟩
      | Enum variants =>
        rcases hdup : dupNames (variants.map Prod.fst) with _ | ⟨d, ds⟩
        · have hl := ihN variants ctx no u [] 0 []
          rcases h1 : compileVariantsN f variants ctx no u [] 0 [] with ⟨r1, ctx1, u1⟩
          rw [h1] at hl
          simp only at hl
          cases r1 with
          | error e =>
            simp only [compileStructI, hdup, h1]
            exact ⟨hl.1, hl.2⟩
          | ok t =>
            rcases t with ⟨v2s2, mc2, off2⟩
            simp only [compileStructI, hdup, h1]
            split <;> exact ⟨hl.1, hl.2⟩
        · simp only [compileStructI, hdup]
          exact ⟨ctxEvolves_refl, fun n hn => hn⟩
      | Union variants =>
        have hl := ihU variants.enum ctx no u [] 0 []
        rcases h1 : compileVariantsU f variants.enum ctx no u [] 0 [] with ⟨r1, ctx1, u1⟩
        rw [h1] at hl
        simp only at hl
        rw [List.enum_map_snd] at hl
        cases r1 with
        | error e =>
          simp only [compileStructI, h1]
          exact ⟨hl.1, hl.2⟩
        | ok t =>
          rcases t with ⟨v2s2, mc2, off2⟩
          simp only [compileStructI, h1]
          split
          · exact ⟨hl.1, hl.2⟩
          · rcases h2 : unionCollect v2s2 0 variants.length with _ | cvs
            · simp only [h2]
              exact ⟨hl.1, hl.2⟩
            · simp only [h2]
              rcases h3 : dupByFp cvs with _ | ⟨d, ds⟩ <;> simp only [h3] <;>
                exact ⟨hl.1, hl.2⟩
    · -- boxCompile
      intro s ctx u
      have hs := ihS s ctx [] u
      rcases h1 : compileSpecI f s ctx [] u with ⟨r1, ctx1, no1, u1⟩
      rw [h1] at hs
      simp only at hs
      simp only [boxCompile, h1]
      exact ⟨hs.1, hs.2⟩
    · -- compileRecFieldsI
      intro entries ctx no u f2s dups
      cases entries with
      | nil => exact ⟨ctxEvolves_refl, fun n hn => hn⟩
      | cons e rest =>
        obtain ⟨fname, fspec⟩ := e
        have hs := ihS fspec ctx no u
        rcases h1 : compileSpecI f fspec ctx no u with ⟨r1, ctx1, no1, u1⟩
        rw [h1] at hs
        simp only at hs
        have hsub1 : ∀ n ∈ definedNames fspec,
            n ∈ definedNamesNamed ((fname, fspec) :: rest) := by
          intro n hn
          simp only [definedNamesNamed, List.mem_append]
          exact Or.inl hn
        have hsub2 : ∀ n ∈ definedNamesNamed rest,
            n ∈ definedNamesNamed ((fname, fspec) :: rest) := by
          intro n hn
          simp only [definedNamesNamed, List.mem_append]
          exact Or.inr hn
        cases r1 with
        | error e =>
          simp only [compileRecFieldsI, h1]
          exact ⟨hs.1.mono hsub1, hs.2⟩
        | ok cs =>
          simp only [compileRecFieldsI, h1]
          have hr := ihR rest ctx1 no1 u1 (ctxInsert f2s fname cs)
            (if ctxContains f2s fname then setInsert dups fname else dups)
          exact ⟨(hs.1.mono hsub1).trans (hr.1.mono hsub2),
            fun n hn => hr.2 n (hs.2 n hn)⟩
    · -- compileTupleI
      intro fields ctx no u
      cases fields with
      | nil => exact ⟨ctxEvolves_refl, fun n hn => hn⟩
      | cons fspec rest =>
        have hs := ihS fspec ctx no u
        rcases h1 : compileSpecI f fspec ctx no u with ⟨r1, ctx1, no1, u1⟩
        rw [h1] at hs
        simp only at hs
        have hsub1 : ∀ n ∈ definedNames fspec, n ∈ definedNamesSeq (fspec :: rest) := by
          intro n hn
          simp only [definedNamesSeq, List.mem_append]
          exact Or.inl hn
        have hsub2 : ∀ n ∈ definedNamesSeq rest, n ∈ definedNamesSeq (fspec :: rest) := by
          intro n hn
          simp only [definedNamesSeq, List.mem_append]
          exact Or.inr hn
        cases r1 with
        | error e =>
          simp only [compileTupleI, h1]
          exact ⟨hs.1.mono hsub1, hs.2⟩
        | ok cs =>
          have ht := ihT rest ctx1 no u1
          rcases h2 : compileTupleI f rest ctx1 no u1 with ⟨r2, ctx2, u2⟩
          rw [h2] at ht
          simp only at ht
          cases r2 <;> simp only [compileTupleI, h1, h2] <;>
            exact ⟨(hs.1.mono hsub1).trans (ht.1.mono hsub2),
              fun n hn => ht.2 n (hs.2 n hn)⟩
    · -- variantRetryLoop
      intro vspec ctx noff offAcc u m
      have hs := ihS vspec ctx noff u
      rcases h1 : compileSpecI f vspec ctx noff u with ⟨r1, ctx1, no1, u1⟩
      rw [h1] at hs
      simp only at hs
      cases r1 with
      | ok cs =>
        simp only [variantRetryLoop, h1]
        exact ⟨hs.1, hs.2⟩
      | error e =>
        cases e with
        | InfinitelyRecursiveTypes offs =>
          simp only [variantRetryLoop, h1]
          have hv := ihV vspec ctx1 (setRemoveAll no1 offs) (setUnionL offAcc offs) u1 true
          exact ⟨hs.1.trans hv.1, fun n hn => hv.2 n (hs.2 n hn)⟩
        | DuplicateName a => simp only [variantRetryLoop, h1]; exact ⟨hs.1, hs.2⟩
        | UndefinedName a => simp only [variantRetryLoop, h1]; exact ⟨hs.1, hs.2⟩
        | DuplicateRecordFieldNames a =>
          simp only [variantRetryLoop, h1]; exact ⟨hs.1, hs.2⟩
        | DuplicateEnumVariantNames a =>
          simp only [variantRetryLoop, h1]; exact ⟨hs.1, hs.2⟩
        | DuplicateUnionVariantSpecs a =>
          simp only [variantRetryLoop, h1]; exact ⟨hs.1, hs.2⟩
        | IllegalDecimalFmt => simp only [variantRetryLoop, h1]; exact ⟨hs.1, hs.2⟩
        | FuelExhausted => simp only [variantRetryLoop, h1]; exact ⟨hs.1, hs.2⟩
        | LookupPanic => simp only [variantRetryLoop, h1]; exact ⟨hs.1, hs.2⟩
    · -- compileVariantsN
      intro entries ctx no u v2s mc offAll
      cases entries with
      | nil => exact ⟨ctxEvolves_refl, fun n hn => hn⟩
      | cons e rest =>
        obtain ⟨vname, vspec⟩ := e
        have hv := ihV vspec ctx no [] u false
        rcases h1 : variantRetryLoop f vspec ctx no [] u false with ⟨r1, ctx1, u1⟩
        rw [h1] at hv
        simp only at hv
        have hsub1 : ∀ n ∈ definedNames vspec,
            n ∈ definedNamesNamed ((vname, vspec) :: rest) := by
          intro n hn
          simp only [definedNamesNamed, List.mem_append]
          exact Or.inl hn
        have hsub2 : ∀ n ∈ definedNamesNamed rest,
            n ∈ definedNamesNamed ((vname, vspec) :: rest) := by
          intro n hn
          simp only [definedNamesNamed, List.mem_append]
          exact Or.inr hn
        cases r1 with
        | error e =>
          simp only [compileVariantsN, h1]
          exact ⟨hv.1.mono hsub1, hv.2⟩
        | ok t =>
          rcases t with ⟨cs, offs, marked⟩
          simp only [compileVariantsN, h1]
          have hrest := ihN rest ctx1 no u1 (ctxInsert v2s vname cs)
            (mc + (if marked then 1 else 0)) (setUnionL offAll offs)
          exact ⟨(hv.1.mono hsub1).trans (hrest.1.mono hsub2),
            fun n hn => hrest.2 n (hv.2 n hn)⟩
    · -- compileVariantsU
      intro entries ctx no u v2s mc offAll
      cases entries with
      | nil => exact ⟨ctxEvolves_refl, fun n hn => hn⟩
      | cons e rest =>
        obtain ⟨vidx, vspec⟩ := e
        have hv := ihV vspec ctx no [] u false
        rcases h1 : variantRetryLoop f vspec ctx no [] u false with ⟨r1, ctx1, u1⟩
        rw [h1] at hv
        simp only at hv
        have hsub1 : ∀ n ∈ definedNames vspec,
            n ∈ definedNamesSeq (((vidx, vspec) :: rest).map Prod.snd) := by
          intro n hn
          simp only [List.map_cons, definedNamesSeq, List.mem_append]
          exact Or.inl hn
        have hsub2 : ∀ n ∈ definedNamesSeq (rest.map Prod.snd),
            n ∈ definedNamesSeq (((vidx, vspec) :: rest).map Prod.snd) := by
          intro n hn
          simp only [List.map_cons, definedNamesSeq, List.mem_append]
          exact Or.inr hn
        cases r1 with
        | error e =>
          simp only [compileVariantsU, h1]
          exact ⟨hv.1.mono hsub1, hv.2⟩
        | ok t =>
          rcases t with ⟨cs, offs, marked⟩
          simp only [compileVariantsU, h1]
          have hrest := ihU rest ctx1 no u1 (idxInsert v2s vidx cs)
            (mc + (if marked then 1 else 0)) (setUnionL offAll offs)
          exact ⟨(hv.1.mono hsub1).trans (hrest.1.mono hsub2),
            fun n hn => hrest.2 n (hv.2 n hn)⟩

theorem CtxEvolves.contains {a b : Ctx} {s : NSet} {n : List Nat}
    (h : CtxEvolves a b s) (hc : ctxContains a n = true) : ctxContains b n = true := by
  obtain ⟨δ, rfl, _⟩ := h
  rw [ctxContains_append, hc]
  rfl

theorem contains_false_of_evolves {a b : Ctx} {s : NSet} {n : List Nat}
    (h : CtxEvolves a b s) (hc : ctxContains b n = false) : ctxContains a n = false := by
  obtain ⟨δ, rfl, _⟩ := h
  rw [ctxContains_append] at hc
  exact (Bool.or_eq_false_iff.mp hc).1

/-- Ok-path facts: a successful compile defined only names fresh with
respect to the incoming context, and every defined name ends up in the
used set. -/
theorem compile_ok_facts : ∀ fuel : Nat,
    (∀ s ctx no u cs ctx' no' u', compileSpecI fuel s ctx no u = (.ok cs, ctx', no', u') →
      ∀ n ∈ definedNames s, ctxContains ctx n = false ∧ n ∈ u') ∧
    (∀ s ctx no u st ctx' no' u', compileStructI fuel s ctx no u = (.ok st, ctx', no', u') →
      ∀ n ∈ definedNames s, ctxContains ctx n = false ∧ n ∈ u') ∧
    (∀ s ctx u r ctx' u', boxCompile fuel s ctx u = (.ok r, ctx', u') →
      ∀ n ∈ definedNames s, ctxContains ctx n = false ∧ n ∈ u') ∧
    (∀ entries ctx no u f2s dups r ctx' no' u',
      compileRecFieldsI fuel entries ctx no u f2s dups = (.ok r, ctx', no', u') →
      ∀ n ∈ definedNamesNamed entries, ctxContains ctx n = false ∧ n ∈ u') ∧
    (∀ fields ctx no u r ctx' u', compileTupleI fuel fields ctx no u = (.ok r, ctx', u') →
      ∀ n ∈ definedNamesSeq fields, ctxContains ctx n = false ∧ n ∈ u') ∧
    (∀ vspec ctx noff offAcc u m r ctx' u',
      variantRetryLoop fuel vspec ctx noff offAcc u m = (.ok r, ctx', u') →
      ∀ n ∈ definedNames vspec, ctxContains ctx n = false ∧ n ∈ u') ∧
    (∀ entries ctx no u v2s mc offAll r ctx' u',
      compileVariantsN fuel entries ctx no u v2s mc offAll = (.ok r, ctx', u') →
      ∀ n ∈ definedNamesNamed entries, ctxContains ctx n = false ∧ n ∈ u') ∧
    (∀ entries ctx no u v2s mc offAll r ctx' u',
      compileVariantsU fuel entries ctx no u v2s mc offAll = (.ok r, ctx', u') →
      ∀ n ∈ definedNamesSeq (entries.map Prod.snd),
        ctxContains ctx n = false ∧ n ∈ u') := by
  intro fuel
  induction fuel with
  | zero =>
    refine ⟨?_, ?_, ?_, ?_, ?_, ?_, ?_, ?_⟩
    · intro s ctx no u cs ctx' no' u' h
      simp [compileSpecI] at h
    · intro s ctx no u st ctx' no' u' h
      simp [compileStructI] at h
    · intro s ctx u r ctx' u' h
      simp [boxCompile] at h
    · intro entries ctx no u f2s dups r ctx' no' u' h
      simp [compileRecFieldsI] at h
    · intro fields ctx no u r ctx' u' h
      simp [compileTupleI] at h
    · intro vspec ctx noff offAcc u m r ctx' u' h
      simp [variantRetryLoop] at h
    · intro entries ctx no u v2s mc offAll r ctx' u' h
      simp [compileVariantsN] at h
    · intro entries ctx no u v2s mc offAll r ctx' u' h
      simp [compileVariantsU] at h
  | succ f ih =>
    obtain ⟨ihS, ihSt, ihB, ihR, ihT, ihV, ihN, ihU⟩ := ih
    obtain ⟨eS, eSt, eB, eR, eT, eV, eN, eU⟩ := compile_evolution f
    refine ⟨?_, ?_, ?_, ?_, ?_, ?_, ?_, ?_⟩
    · -- compileSpecI
      intro s ctx no u cs ctx' no' u' h n hn
      rcases h1 : compileStructI f s ctx no [] with ⟨r1, ctx1, no1, int1⟩
      simp only [compileSpecI, h1] at h
      cases r1 with
      | error e => simp at h
      | ok st =>
        rcases h2 : buildNamedSchema ctx1 int1 with _ | ns
        · simp only [h2] at h
          simp at h
        · simp only [h2, Prod.mk.injEq] at h
          obtain ⟨_, _, _, hu⟩ := h
          have hf := ihSt s ctx no [] st ctx1 no1 int1 h1 n hn
          exact ⟨hf.1, hu ▸ mem_setUnionL.mpr (Or.inr hf.2)⟩
    · -- compileStructI
      intro s ctx no u st ctx' no' u' h n hn
      cases s with
      | Bool => simp [definedNames] at hn
      | Void => simp [definedNames] at hn
      | Uint k => simp [definedNames] at hn
      | Int k => simp [definedNames] at hn
      | BinaryFloatingPoint fmt => simp [definedNames] at hn
      | DecimalFloatingPoint fmt => simp [definedNames] at hn
      | String size fmt => simp [definedNames] at hn
      | Bytes size => simp [definedNames] at hn
      | Decimal p sc => simp [definedNames] at hn
      | Ref name => simp [definedNames] at hn
      | Map size k v =>
        rcases h1 : boxCompile f k ctx u with ⟨r1, ctx1, u1⟩
        simp only [compileStructI, h1] at h
        cases r1 with
        | error e => simp at h
        | ok kc =>
          rcases h2 : boxCompile f v ctx1 u1 with ⟨r2, ctx2, u2⟩
          simp only [h2] at h
          cases r2 with
          | error e => simp at h
          | ok vc =>
            simp only [Prod.mk.injEq] at h
            obtain ⟨_, hctx, _, hu⟩ := h
            have hev1 : CtxEvolves ctx ctx1 (definedNames k) := by
              have := (eB k ctx u).1
              rw [h1] at this
              exact this
            rcases List.mem_append.mp (by simpa [definedNames] using hn) with hm | hm
            · have hf := ihB k ctx u kc ctx1 u1 h1 n hm
              have hgrow := (eB v ctx1 u1).2 n hf.2
              rw [h2] at hgrow
              exact ⟨hf.1, hu ▸ hgrow⟩
            · have hf := ihB v ctx1 u1 vc ctx2 u2 h2 n hm
              exact ⟨contains_false_of_evolves hev1 hf.1, hu ▸ hf.2⟩
      | List size v =>
        rcases h1 : boxCompile f v ctx u with ⟨r1, ctx1, u1⟩
        simp only [compileStructI, h1] at h
        cases r1 with
        | error e => simp at h
        | ok vc =>
          simp only [Prod.mk.injEq] at h
          obtain ⟨_, _, _, hu⟩ := h
          have hf := ihB v ctx u vc ctx1 u1 h1 n (by simpa [definedNames] using hn)
          exact ⟨hf.1, hu ▸ hf.2⟩
      | Optional s0 =>
        rcases h1 : boxCompile f s0 ctx u with ⟨r1, ctx1, u1⟩
        simp only [compileStructI, h1] at h
        cases r1 with
        | error e => simp at h
        | ok vc =>
          simp only [Prod.mk.injEq] at h
          obtain ⟨_, _, _, hu⟩ := h
          have hf := ihB s0 ctx u vc ctx1 u1 h1 n (by simpa [definedNames] using hn)
          exact ⟨hf.1, hu ▸ hf.2⟩
      | Name name spec =>
        simp only [compileStructI] at h
        by_cases hc : ctxContains ctx name = true
        · rw [if_pos hc] at h
          simp at h
        · rw [if_neg hc] at h
          have hcf : ctxContains ctx name = false := by simpa using hc
          rcases h1 : compileSpecI f spec (ctxInsert ctx name invalid_compiled_spec)
              (setInsert no name) u with ⟨r1, ctx2, no2, u2⟩
          rw [h1] at h
          cases r1 with
          | error e => simp at h
          | ok cs0 =>
            simp only [Prod.mk.injEq] at h
            obtain ⟨_, _, _, hu⟩ := h
            rcases List.mem_cons.mp (by simpa [definedNames] using hn) with rfl | hm
            · exact ⟨hcf, hu ▸ mem_setInsert.mpr (Or.inr rfl)⟩
            · have hf := ihS spec _ _ _ cs0 ctx2 no2 u2 h1 n hm
              refine ⟨?_, hu ▸ mem_setInsert.mpr (Or.inl hf.2)⟩
              cases hcc : ctxContains ctx n with
              | false => rfl
              | true =>
                have : ctxContains (ctxInsert ctx name invalid_compiled_spec) n = true :=
                  (ctxContains_insert ctx name invalid_compiled_spec n).mpr (Or.inr hcc)
                rw [hf.1] at this
                exact absurd this (by simp)
      | Record fields =>
        rcases h1 : compileRecFieldsI f fields ctx no u [] [] with ⟨r1, ctx1, no1, u1⟩
        simp only [compileStructI, h1] at h
        cases r1 with
        | error e => simp at h
        | ok t =>
          rcases t with ⟨f2s2, dups2⟩
          rcases dups2 with _ | ⟨d, ds⟩
          · simp only [Prod.mk.injEq] at h
            obtain ⟨_, _, _, hu⟩ := h
            have hf := ihR fields ctx no u [] [] _ ctx1 no1 u1 h1 n hn
            exact ⟨hf.1, hu ▸ hf.2⟩
          · simp at h
      | Tuple fields =>
        rcases h1 : compileTupleI f fields ctx no u with ⟨r1, ctx1, u1⟩
        simp only [compileStructI, h1] at h
        cases r1 with
        | error e => simp at h
        | ok cs0 =>
          simp only [Prod.mk.injEq] at h
          obtain ⟨_, _, _, hu⟩ := h
          have hf := ihT fields ctx no u cs0 ctx1 u1 h1 n hn
          exact ⟨hf.1, hu ▸ hf.2⟩
      | Enum variants =>
        rcases hdup : dupNames (variants.map Prod.fst) with _ | ⟨d, ds⟩
        · rcases h1 : compileVariantsN f variants ctx no u [] 0 [] with ⟨r1, ctx1, u1⟩
          simp only [compileStructI, hdup, h1] at h
          cases r1 with
          | error e => simp at h
          | ok t =>
            rcases t with ⟨v2s2, mc2, off2⟩
            simp only [] at h
            by_cases hm : mc2 = variants.length
            · rw [if_pos hm] at h
              simp at h
            · rw [if_neg hm] at h
              simp only [Prod.mk.injEq] at h
              obtain ⟨_, _, _, hu⟩ := h
              have hf := ihN variants ctx no u [] 0 [] _ ctx1 u1 h1 n hn
              exact ⟨hf.1, hu ▸ hf.2⟩
        · simp only [compileStructI, hdup] at h
          simp at h
      | Union variants =>
        rcases h1 : compileVariantsU f variants.enum ctx no u [] 0 [] with ⟨r1, ctx1, u1⟩
        simp only [compileStructI, h1] at h
        cases r1 with
        | error e => simp at h
        | ok t =>
          rcases t with ⟨v2s2, mc2, off2⟩
          simp only [] at h
          by_cases hm : mc2 = variants.length
          · rw [if_pos hm] at h
            simp at h
          · rw [if_neg hm] at h
            rcases h2 : unionCollect v2s2 0 variants.length with _ | cvs
            · simp only [h2] at h
              simp at h
            · simp only [h2] at h
              rcases h3 : dupByFp cvs with _ | ⟨d, ds⟩
              · simp only [h3, Prod.mk.injEq] at h
                obtain ⟨_, _, _, hu⟩ := h
                have hf := ihU variants.enum ctx no u [] 0 [] _ ctx1 u1 h1 n
                  (by rw [List.enum_map_snd]; exact hn)
                exact ⟨hf.1, hu ▸ hf.2⟩
              · simp only [h3] at h
                simp at h
    · -- boxCompile
      intro s ctx u r ctx' u' h n hn
      rcases h1 : compileSpecI f s ctx [] u with ⟨r1, ctx1, no1, u1⟩
      simp only [boxCompile, h1] at h
      cases r1 with
      | error e => simp at h
      | ok cs =>
        simp only [Prod.mk.injEq] at h
        obtain ⟨hr, _, hu⟩ := h
        have hf := ihS s ctx [] u cs ctx1 no1 u1 h1 n hn
        exact ⟨hf.1, hu ▸ hf.2⟩
    · -- compileRecFieldsI
      intro entries ctx no u f2s dups r ctx' no' u' h n hn
      cases entries with
      | nil => simp [definedNamesNamed] at hn
      | cons e rest =>
        obtain ⟨fname, fspec⟩ := e
        rcases h1 : compileSpecI f fspec ctx no u with ⟨r1, ctx1, no1, u1⟩
        simp only [compileRecFieldsI, h1] at h
        cases r1 with
        | error e => simp at h
        | ok cs =>
          simp only [] at h
          have hev1 : CtxEvolves ctx ctx1 (definedNames fspec) := by
            have := (eS fspec ctx no u).1
            rw [h1] at this
            exact this
          rcases List.mem_append.mp (by simpa [definedNamesNamed] using hn) with hm | hm
          · have hf := ihS fspec ctx no u cs ctx1 no1 u1 h1 n hm
            have hgrow := (eR rest ctx1 no1 u1 (ctxInsert f2s fname cs)
              (if ctxContains f2s fname then setInsert dups fname else dups)).2 n hf.2
            rw [h] at hgrow
            exact ⟨hf.1, hgrow⟩
          · have hf := ihR rest ctx1 no1 u1 _ _ r ctx' no' u' h n hm
            exact ⟨contains_false_of_evolves hev1 hf.1, hf.2⟩
    · -- compileTupleI
      intro fields ctx no u r ctx' u' h n hn
      cases fields with
      | nil => simp [definedNamesSeq] at hn
      | cons fspec rest =>
        rcases h1 : compileSpecI f fspec ctx no u with ⟨r1, ctx1, no1, u1⟩
        simp only [compileTupleI, h1] at h
        cases r1 with
        | error e => simp at h
        | ok cs =>
          rcases h2 : compileTupleI f rest ctx1 no u1 with ⟨r2, ctx2, u2⟩
          simp only [h2] at h
          cases r2 with
          | error e => simp at h
          | ok rest' =>
            simp only [Prod.mk.injEq] at h
            obtain ⟨_, _, hu⟩ := h
            have hev1 : CtxEvolves ctx ctx1 (definedNames fspec) := by
              have := (eS fspec ctx no u).1
              rw [h1] at this
              exact this
            rcases List.mem_append.mp (by simpa [definedNamesSeq] using hn) with hm | hm
            · have hf := ihS fspec ctx no u cs ctx1 no1 u1 h1 n hm
              have hgrow := (eT rest ctx1 no u1).2 n hf.2
              rw [h2] at hgrow
              exact ⟨hf.1, hu ▸ hgrow⟩
            · have hf := ihT rest ctx1 no u1 rest' ctx2 u2 h2 n hm
              exact ⟨contains_false_of_evolves hev1 hf.1, hu ▸ hf.2⟩
    · -- variantRetryLoop
      intro vspec ctx noff offAcc u m r ctx' u' h n hn
      rcases h1 : compileSpecI f vspec ctx noff u with ⟨r1, ctx1, no1, u1⟩
      simp only [variantRetryLoop, h1] at h
      cases r1 with
      | ok cs =>
        simp only [Prod.mk.injEq] at h
        obtain ⟨_, _, hu⟩ := h
        have hf := ihS vspec ctx noff u cs ctx1 no1 u1 h1 n hn
        exact ⟨hf.1, hu ▸ hf.2⟩
      | error e =>
        have hev1 : CtxEvolves ctx ctx1 (definedNames vspec) := by
          have := (eS vspec ctx noff u).1
          rw [h1] at this
          exact this
        cases e with
        | InfinitelyRecursiveTypes offs =>
          have hf := ihV vspec ctx1 (setRemoveAll no1 offs) (setUnionL offAcc offs) u1 true
            r ctx' u' h n hn
          exact ⟨contains_false_of_evolves hev1 hf.1, hf.2⟩
        | DuplicateName a => simp at h
        | UndefinedName a => simp at h
        | DuplicateRecordFieldNames a => simp at h
        | DuplicateEnumVariantNames a => simp at h
        | DuplicateUnionVariantSpecs a => simp at h
        | IllegalDecimalFmt => simp at h
        | FuelExhausted => simp at h
        | LookupPanic => simp at h
    · -- compileVariantsN
      intro entries ctx no u v2s mc offAll r ctx' u' h n hn
      cases entries with
      | nil => simp [definedNamesNamed] at hn
      | cons e rest =>
        obtain ⟨vname, vspec⟩ := e
        rcases h1 : variantRetryLoop f vspec ctx no [] u false with ⟨r1, ctx1, u1⟩
        simp only [compileVariantsN, h1] at h
        cases r1 with
        | error e => simp at h
        | ok t =>
          rcases t with ⟨cs, offs, marked⟩
          simp only [] at h
          have hev1 : CtxEvolves ctx ctx1 (definedNames vspec) := by
            have := (eV vspec ctx no [] u false).1
            rw [h1] at this
            exact this
          rcases List.mem_append.mp (by simpa [definedNamesNamed] using hn) with hm | hm
          · have hf := ihV vspec ctx no [] u false _ ctx1 u1 h1 n hm
            have hgrow := (eN rest ctx1 no u1 (ctxInsert v2s vname cs)
              (mc + (if marked then 1 else 0)) (setUnionL offAll offs)).2 n hf.2
            rw [h] at hgrow
            exact ⟨hf.1, hgrow⟩
          · have hf := ihN rest ctx1 no u1 _ _ _ r ctx' u' h n hm
            exact ⟨contains_false_of_evolves hev1 hf.1, hf.2⟩
    · -- compileVariantsU
      intro entries ctx no u v2s mc offAll r ctx' u' h n hn
      cases entries with
      | nil => simp [definedNamesSeq] at hn
      | cons e rest =>
        obtain ⟨vidx, vspec⟩ := e
        rcases h1 : variantRetryLoop f vspec ctx no [] u false with ⟨r1, ctx1, u1⟩
        simp only [compileVariantsU, h1] at h
        cases r1 with
        | error e => simp at h
        | ok t =>
          rcases t with ⟨cs, offs, marked⟩
          simp only [] at h
          have hev1 : CtxEvolves ctx ctx1 (definedNames vspec) := by
            have := (eV vspec ctx no [] u false).1
            rw [h1] at this
            exact this
          have hn' : n ∈ definedNames vspec ++ definedNamesSeq (rest.map Prod.snd) := by
            simpa [definedNamesSeq] using hn
          rcases List.mem_append.mp hn' with hm | hm
          · have hf := ihV vspec ctx no [] u false _ ctx1 u1 h1 n hm
            have hgrow := (eU rest ctx1 no u1 (idxInsert v2s vidx cs)
              (mc + (if marked then 1 else 0)) (setUnionL offAll offs)).2 n hf.2
            rw [h] at hgrow
            exact ⟨hf.1, hgrow⟩
          · have hf := ihU rest ctx1 no u1 _ _ _ r ctx' u' h n hm
            exact ⟨contains_false_of_evolves hev1 hf.1, hf.2⟩

/-- Distinctness of the keys of an association list (the `HashMap`
representation invariant). -/
def nodupKeys (m : Ctx) : Prop := (m.map Prod.fst).Nodup

theorem nodupKeys_ctxInsert {m : Ctx} (k : List Nat) (v : CompiledSpec)
    (h : nodupKeys m) : nodupKeys (ctxInsert m k v) := by
  induction m with
  | nil => simp [ctxInsert, nodupKeys]
  | cons p rest ih =>
    obtain ⟨k', v'⟩ := p
    rw [nodupKeys, List.map_cons, List.nodup_cons] at h
    by_cases hk : k' = k
    · subst hk
      rw [ctxInsert, if_pos rfl, nodupKeys, List.map_cons, List.nodup_cons]
      exact ⟨h.1, h.2⟩
    · rw [ctxInsert, if_neg hk, nodupKeys, List.map_cons, List.nodup_cons]
      refine ⟨?_, ih h.2⟩
      intro hmem
      rcases List.mem_map.mp hmem with ⟨p, hp, hfst⟩
      rcases mem_ctxInsert hp with rfl | hp'
      · exact hk hfst.symm
      · exact h.1 (List.mem_map.mpr ⟨p, hp', hfst⟩)

theorem nodup_setInsert {s : NSet} (k : List Nat) (h : s.Nodup) :
    (setInsert s k).Nodup := by
  by_cases hk : k ∈ s
  · simpa [setInsert, hk] using h
  · rw [setInsert, if_neg hk]
    simpa [List.nodup_append] using ⟨h, fun hkk => hk hkk⟩

theorem nodup_setUnionL {s ks : NSet} (h : s.Nodup) : (setUnionL s ks).Nodup := by
  induction ks generalizing s with
  | nil => exact h
  | cons k rest ih => exact ih (nodup_setInsert k h)

/-- All-paths preservation of the representation invariants: context
keys stay distinct and the used-name set stays duplicate-free. -/
theorem compile_nodup : ∀ fuel : Nat,
    (∀ s ctx no u, (nodupKeys ctx → nodupKeys (compileSpecI fuel s ctx no u).2.1) ∧
      (u.Nodup → (compileSpecI fuel s ctx no u).2.2.2.Nodup)) ∧
    (∀ s ctx no u, (nodupKeys ctx → nodupKeys (compileStructI fuel s ctx no u).2.1) ∧
      (u.Nodup → (compileStructI fuel s ctx no u).2.2.2.Nodup)) ∧
    (∀ s ctx u, (nodupKeys ctx → nodupKeys (boxCompile fuel s ctx u).2.1) ∧
      (u.Nodup → (boxCompile fuel s ctx u).2.2.Nodup)) ∧
    (∀ entries ctx no u f2s dups,
      (nodupKeys ctx → nodupKeys (compileRecFieldsI fuel entries ctx no u f2s dups).2.1) ∧
      (u.Nodup → (compileRecFieldsI fuel entries ctx no u f2s dups).2.2.2.Nodup)) ∧
    (∀ fields ctx no u, (nodupKeys ctx → nodupKeys (compileTupleI fuel fields ctx no u).2.1) ∧
      (u.Nodup → (compileTupleI fuel fields ctx no u).2.2.Nodup)) ∧
    (∀ vspec ctx noff offAcc u m,
      (nodupKeys ctx → nodupKeys (variantRetryLoop fuel vspec ctx noff offAcc u m).2.1) ∧
      (u.Nodup → (variantRetryLoop fuel vspec ctx noff offAcc u m).2.2.Nodup)) ∧
    (∀ entries ctx no u v2s mc offAll,
      (nodupKeys ctx → nodupKeys (compileVariantsN fuel entries ctx no u v2s mc offAll).2.1) ∧
      (u.Nodup → (compileVariantsN fuel entries ctx no u v2s mc offAll).2.2.Nodup)) ∧
    (∀ entries ctx no u v2s mc offAll,
      (nodupKeys ctx → nodupKeys (compileVariantsU fuel entries ctx no u v2s mc offAll).2.1) ∧
      (u.Nodup → (compileVariantsU fuel entries ctx no u v2s mc offAll).2.2.Nodup)) := by
  intro fuel
  induction fuel with
  | zero =>
    refine ⟨?_, ?_, ?_, ?_, ?_, ?_, ?_, ?_⟩ <;> intros <;> exact ⟨fun h => h, fun h => h⟩
  | succ f ih =>
    obtain ⟨ihS, ihSt, ihB, ihR, ihT, ihV, ihN, ihU⟩ := ih
    refine ⟨?_, ?_, ?_, ?_, ?_, ?_, ?_, ?_⟩
    · intro s ctx no u
      rcases h1 : compileStructI f s ctx no [] with ⟨r1, ctx1, no1, int1⟩
      have hst := ihSt s ctx no []
      rw [h1] at hst
      simp only at hst
      cases r1 with
      | error e =>
        simp only [compileSpecI, h1]
        exact ⟨hst.1, fun h => h⟩
      | ok st =>
        rcases h2 : buildNamedSchema ctx1 int1 with _ | ns
        · simp only [compileSpecI, h1, h2]
          exact ⟨hst.1, fun h => h⟩
        · simp only [compileSpecI, h1, h2]
          exact ⟨hst.1, fun h => nodup_setUnionL h⟩
    · intro s ctx no u
      cases s with
      | Bool => exact ⟨fun h => h, fun h => h⟩
      | Void => exact ⟨fun h => h, fun h => h⟩
      | Uint k => exact ⟨fun h => h, fun h => h⟩
      | Int k => exact ⟨fun h => h, fun h => h⟩
      | BinaryFloatingPoint fmt => exact ⟨fun h => h, fun h => h⟩
      | DecimalFloatingPoint fmt => exact ⟨fun h => h, fun h => h⟩
      | String size fmt => exact ⟨fun h => h, fun h => h⟩
      | Bytes size => exact ⟨fun h => h, fun h => h⟩
      | Decimal p sc =>
        simp only [compileStructI]
        split <;> exact ⟨fun h => h, fun h => h⟩
      | Map size k v =>
        rcases h1 : boxCompile f k ctx u with ⟨r1, ctx1, u1⟩
        have hk := ihB k ctx u
        rw [h1] at hk
        simp only at hk
        cases r1 with
        | error e =>
          simp only [compileStructI, h1]
          exact hk
        | ok kc =>
          rcases h2 : boxCompile f v ctx1 u1 with ⟨r2, ctx2, u2⟩
          have hv := ihB v ctx1 u1
          rw [h2] at hv
          simp only at hv
          cases r2 <;> simp only [compileStructI, h1, h2] <;>
            exact ⟨fun h => hv.1 (hk.1 h), fun h => hv.2 (hk.2 h)⟩
      | List size v =>
        rcases h1 : boxCompile f v ctx u with ⟨r1, ctx1, u1⟩
        have hv := ihB v ctx u
        rw [h1] at hv
        simp only at hv
        cases r1 <;> simp only [compileStructI, h1] <;> exact hv
      | Optional s0 =>
        rcases h1 : boxCompile f s0 ctx u with ⟨r1, ctx1, u1⟩
        have hv := ihB s0 ctx u
        rw [h1] at hv
        simp only at hv
        cases r1 <;> simp only [compileStructI, h1] <;> exact hv
      | Name name spec =>
        simp only [compileStructI]
        by_cases hc : ctxContains ctx name = true
        · rw [if_pos hc]
          exact ⟨fun h => h, fun h => h⟩
        · rw [if_neg hc]
          rcases h1 : compileSpecI f spec (ctxInsert ctx name invalid_compiled_spec)
              (setInsert no name) u with ⟨r1, ctx2, no2, u2⟩
          have hb := ihS spec (ctxInsert ctx name invalid_compiled_spec) (setInsert no name) u
          rw [h1] at hb
          simp only at hb
          cases r1 with
          | error e =>
            exact ⟨fun h => hb.1 (nodupKeys_ctxInsert name invalid_compiled_spec h), hb.2⟩
          | ok cs =>
            exact ⟨fun h => nodupKeys_ctxInsert name cs
                (hb.1 (nodupKeys_ctxInsert name invalid_compiled_spec h)),
              fun h => nodup_setInsert name (hb.2 h)⟩
      | Ref name =>
        simp only [compileStructI]
        split
        · exact ⟨fun h => h, fun h => h⟩
        · split
          · exact ⟨fun h => h, fun h => nodup_setInsert name h⟩
          · exact ⟨fun h => h, fun h => h⟩
      | Record fields =>
        rcases h1 : compileRecFieldsI f fields ctx no u [] [] with ⟨r1, ctx1, no1, u1⟩
        have hr := ihR fields ctx no u [] []
        rw [h1] at hr
        simp only at hr
        cases r1 with
        | error e =>
          simp only [compileStructI, h1]
          exact hr
        | ok t =>
          rcases t with ⟨f2s2, dups2⟩
          rcases dups2 with _ | ⟨d, ds⟩ <;> simp only [compileStructI, h1] <;> exact hr
      | Tuple fields =>
        rcases h1 : compileTupleI f fields ctx no u with ⟨r1, ctx1, u1⟩
        have ht := ihT fields ctx no u
        rw [h1] at ht
        simp only at ht
        cases r1 <;> simp only [compileStructI, h1] <;> exact ht
      | Enum variants =>
        rcases hdup : dupNames (variants.map Prod.fst) with _ | ⟨d, ds⟩
        · rcases h1 : compileVariantsN f variants ctx no u [] 0 [] with ⟨r1, ctx1, u1⟩
          have hl := ihN variants ctx no u [] 0 []
          rw [h1] at hl
          simp only at hl
          cases r1 with
          | error e =>
            simp only [compileStructI, hdup, h1]
            exact hl
          | ok t =>
            rcases t with ⟨v2s2, mc2, off2⟩
            simp only [compileStructI, hdup, h1]
            split <;> exact hl
        · simp only [compileStructI, hdup]
          exact ⟨fun h => h, fun h => h⟩
      | Union variants =>
        rcases h1 : compileVariantsU f variants.enum ctx no u [] 0 [] with ⟨r1, ctx1, u1⟩
        have hl := ihU variants.enum ctx no u [] 0 []
        rw [h1] at hl
        simp only at hl
        cases r1 with
        | error e =>
          simp only [compileStructI, h1]
          exact hl
        | ok t =>
          rcases t with ⟨v2s2, mc2, off2⟩
          simp only [compileStructI, h1]
          split
          · exact hl
          · rcases h2 : unionCollect v2s2 0 variants.length with _ | cvs
            · simp only [h2]
              exact hl
            · simp only [h2]
              rcases h3 : dupByFp cvs with _ | ⟨d, ds⟩ <;> simp only [h3] <;> exact hl
    · intro s ctx u
      rcases h1 : compileSpecI f s ctx [] u with ⟨r1, ctx1, no1, u1⟩
      have hs := ihS s ctx [] u
      rw [h1] at hs
      simp only at hs
      simp only [boxCompile, h1]
      exact hs
    · intro entries ctx no u f2s dups
      cases entries with
      | nil => exact ⟨fun h => h, fun h => h⟩
      | cons e rest =>
        obtain ⟨fname, fspec⟩ := e
        rcases h1 : compileSpecI f fspec ctx no u with ⟨r1, ctx1, no1, u1⟩
        have hs := ihS fspec ctx no u
        rw [h1] at hs
        simp only at hs
        cases r1 with
        | error e =>
          simp only [compileRecFieldsI, h1]
          exact hs
        | ok cs =>
          simp only [compileRecFieldsI, h1]
          have hr := ihR rest ctx1 no1 u1 (ctxInsert f2s fname cs)
            (if ctxContains f2s fname then setInsert dups fname else dups)
          exact ⟨fun h => hr.1 (hs.1 h), fun h => hr.2 (hs.2 h)⟩
    · intro fields ctx no u
      cases fields with
      | nil => exact ⟨fun h => h, fun h => h⟩
      | cons fspec rest =>
        rcases h1 : compileSpecI f fspec ctx no u with ⟨r1, ctx1, no1, u1⟩
        have hs := ihS fspec ctx no u
        rw [h1] at hs
        simp only at hs
        cases r1 with
        | error e =>
          simp only [compileTupleI, h1]
          exact hs
        | ok cs =>
          rcases h2 : compileTupleI f rest ctx1 no u1 with ⟨r2, ctx2, u2⟩
          have ht := ihT rest ctx1 no u1
          rw [h2] at ht
          simp only at ht
          cases r2 <;> simp only [compileTupleI, h1, h2] <;>
            exact ⟨fun h => ht.1 (hs.1 h), fun h => ht.2 (hs.2 h)⟩
    · intro vspec ctx noff offAcc u m
      rcases h1 : compileSpecI f vspec ctx noff u with ⟨r1, ctx1, no1, u1⟩
      have hs := ihS vspec ctx noff u
      rw [h1] at hs
      simp only at hs
      cases r1 with
      | ok cs =>
        simp only [variantRetryLoop, h1]
        exact hs
      | error e =>
        cases e with
        | InfinitelyRecursiveTypes offs =>
          simp only [variantRetryLoop, h1]
          have hv := ihV vspec ctx1 (setRemoveAll no1 offs) (setUnionL offAcc offs) u1 true
          exact ⟨fun h => hv.1 (hs.1 h), fun h => hv.2 (hs.2 h)⟩
        | DuplicateName a => simp only [variantRetryLoop, h1]; exact hs
        | UndefinedName a => simp only [variantRetryLoop, h1]; exact hs
        | DuplicateRecordFieldNames a => simp only [variantRetryLoop, h1]; exact hs
        | DuplicateEnumVariantNames a => simp only [variantRetryLoop, h1]; exact hs
        | DuplicateUnionVariantSpecs a => simp only [variantRetryLoop, h1]; exact hs
        | IllegalDecimalFmt => simp only [variantRetryLoop, h1]; exact hs
        | FuelExhausted => simp only [variantRetryLoop, h1]; exact hs
        | LookupPanic => simp only [variantRetryLoop, h1]; exact hs
    · intro entries ctx no u v2s mc offAll
      cases entries with
      | nil => exact ⟨fun h => h, fun h => h⟩
      | cons e rest =>
        obtain ⟨vname, vspec⟩ := e
        rcases h1 : variantRetryLoop f vspec ctx no [] u false with ⟨r1, ctx1, u1⟩
        have hv := ihV vspec ctx no [] u false
        rw [h1] at hv
        simp only at hv
        cases r1 with
        | error e =>
          simp only [compileVariantsN, h1]
          exact hv
        | ok t =>
          rcases t with ⟨cs, offs, marked⟩
          simp only [compileVariantsN, h1]
          have hrest := ihN rest ctx1 no u1 (ctxInsert v2s vname cs)
            (mc + (if marked then 1 else 0)) (setUnionL offAll offs)
          exact ⟨fun h => hrest.1 (hv.1 h), fun h => hrest.2 (hv.2 h)⟩
    · intro entries ctx no u v2s mc offAll
      cases entries with
      | nil => exact ⟨fun h => h, fun h => h⟩
      | cons e rest =>
        obtain ⟨vidx, vspec⟩ := e
        rcases h1 : variantRetryLoop f vspec ctx no [] u false with ⟨r1, ctx1, u1⟩
        have hv := ihV vspec ctx no [] u false
        rw [h1] at hv
        simp only at hv
        cases r1 with
        | error e =>
          simp only [compileVariantsU, h1]
          exact hv
        | ok t =>
          rcases t with ⟨cs, offs, marked⟩
          simp only [compileVariantsU, h1]
          have hrest := ihU rest ctx1 no u1 (idxInsert v2s vidx cs)
            (mc + (if marked then 1 else 0)) (setUnionL offAll offs)
          exact ⟨fun h => hrest.1 (hv.1 h), fun h => hrest.2 (hv.2 h)⟩

theorem contains_of_mem {m : Ctx} {k : List Nat} {v : CompiledSpec}
    (h : (k, v) ∈ m) : ctxContains m k = true := by
  induction m with
  | nil => simp at h
  | cons p rest ih =>
    obtain ⟨k', v'⟩ := p
    rcases List.mem_cons.mp h with heq | hmem
    · obtain ⟨h1, h2⟩ := Prod.mk.injEq .. ▸ heq
      simp [ctxContains, ctxLookup, h1.symm]
    · by_cases hk : k' = k
      · simp [ctxContains, ctxLookup, hk]
      · simpa [ctxContains, ctxLookup, hk] using ih hmem

theorem count_le_one_nodup : ∀ l : NSet, (∀ n ∈ l, l.count n ≤ 1) → l.Nodup := by
  intro l
  induction l with
  | nil => intro _; exact List.nodup_nil
  | cons a as ih =>
    intro h
    rw [List.nodup_cons]
    constructor
    · intro hmem
      have ha := h a (List.mem_cons_self a as)
      rw [List.count_cons_self] at ha
      have h0 : as.count a = 0 := by omega
      rw [List.count_eq_zero] at h0
      exact h0 hmem
    · refine ih fun n hn => ?_
      have hc := h n (List.mem_cons_of_mem a hn)
      rw [List.count_cons] at hc
      by_cases hna : (n == a) = true <;> simp [hna] at hc <;> omega

theorem dupNames_nil_nodup {l : NSet} (h : dupNames l = []) : l.Nodup := by
  rw [dupNames, List.dedup_eq_nil, List.filter_eq_nil] at h
  refine count_le_one_nodup l fun n hn => ?_
  have := h n hn
  simp at this
  omega

/-- `HashMap<usize, _>` membership. -/
def idxContains (m : List (Nat × CompiledSpec)) (k : Nat) : Bool := (idxLookup m k).isSome

theorem idxLookup_insert_self (m : List (Nat × CompiledSpec)) (k : Nat) (v : CompiledSpec) :
    idxLookup (idxInsert m k v) k = some v := by
  induction m with
  | nil => simp [idxInsert, idxLookup]
  | cons p rest ih =>
    obtain ⟨k', v'⟩ := p
    by_cases hk : k' = k <;> simp [idxInsert, idxLookup, hk, ih]

theorem idxLookup_insert_ne {n k : Nat} (m : List (Nat × CompiledSpec)) (v : CompiledSpec)
    (h : n ≠ k) : idxLookup (idxInsert m k v) n = idxLookup m n := by
  induction m with
  | nil => simp [idxInsert, idxLookup, Ne.symm h]
  | cons p rest ih =>
    obtain ⟨k', v'⟩ := p
    by_cases hk : k' = k
    · subst hk
      simp [idxInsert, idxLookup, Ne.symm h]
    · by_cases hn : k' = n <;> simp [idxInsert, idxLookup, hk, hn, h, ih]

/-- Sizes of an index-keyed map (for fuel accounting). -/
def idxListSize : List (Nat × CompiledSpec) → Nat
  | [] => 0
  | (_, cs) :: rest => 1 + csSize cs + idxListSize rest

theorem pairListSize_append (a b : Ctx) :
    pairListSize (a ++ b) = pairListSize a + pairListSize b := by
  induction a with
  | nil => simp [pairListSize]
  | cons p rest ih =>
    obtain ⟨k, v⟩ := p
    simp [pairListSize, ih]
    omega

/-- The converted-name set of `make_spec` tracks exactly the domain of
the compile-time context. -/
def ConvDom (conv : NSet) (ctx : Ctx) : Prop :=
  ∀ n, n ∈ conv ↔ ctxContains ctx n = true

theorem ConvDom.insert {conv : NSet} {ctx : Ctx} (h : ConvDom conv ctx)
    (name : List Nat) (v : CompiledSpec) :
    ConvDom (setInsert conv name) (ctxInsert ctx name v) := by
  intro n
  rw [mem_setInsert, ctxContains_insert, h n]
  tauto

theorem ConvDom.not_mem_of_not_contains {conv : NSet} {ctx : Ctx} (h : ConvDom conv ctx)
    {n : List Nat} (hc : ctxContains ctx n = false) : n ∉ conv := by
  intro hmem
  rw [(h n)] at hmem
  rw [hc] at hmem
  exact absurd hmem (by simp)

theorem unionCollect_of {m : List (Nat × CompiledSpec)} :
    ∀ (variants : List Spec) (start : Nat) (csl : List CompiledSpec),
    List.Forall₂ (fun (e : Nat × Spec) cs => idxLookup m e.1 = some cs)
      (variants.enumFrom start) csl →
    unionCollect m start variants.length = some csl := by
  intro variants
  induction variants with
  | nil =>
    intro start csl h
    cases h
    rfl
  | cons v vs ih =>
    intro start csl h
    rw [List.enumFrom_cons] at h
    rcases h with _ | ⟨hhead, htail⟩
    rw [List.length_cons, unionCollect, hhead, ih (start + 1) _ htail]

/-- Ok-path fact: after a successful compile, every defined name of the
processed spec has an entry in the output context. -/
theorem compile_defines : ∀ fuel : Nat,
    (∀ s ctx no u cs ctx' no' u', compileSpecI fuel s ctx no u = (.ok cs, ctx', no', u') →
      ∀ n ∈ definedNames s, ctxContains ctx' n = true) ∧
    (∀ s ctx no u st ctx' no' u', compileStructI fuel s ctx no u = (.ok st, ctx', no', u') →
      ∀ n ∈ definedNames s, ctxContains ctx' n = true) ∧
    (∀ s ctx u r ctx' u', boxCompile fuel s ctx u = (.ok r, ctx', u') →
      ∀ n ∈ definedNames s, ctxContains ctx' n = true) ∧
    (∀ entries ctx no u f2s dups r ctx' no' u',
      compileRecFieldsI fuel entries ctx no u f2s dups = (.ok r, ctx', no', u') →
      ∀ n ∈ definedNamesNamed entries, ctxContains ctx' n = true) ∧
    (∀ fields ctx no u r ctx' u', compileTupleI fuel fields ctx no u = (.ok r, ctx', u') →
      ∀ n ∈ definedNamesSeq fields, ctxContains ctx' n = true) ∧
    (∀ vspec ctx noff offAcc u m r ctx' u',
      variantRetryLoop fuel vspec ctx noff offAcc u m = (.ok r, ctx', u') →
      ∀ n ∈ definedNames vspec, ctxContains ctx' n = true) ∧
    (∀ entries ctx no u v2s mc offAll r ctx' u',
      compileVariantsN fuel entries ctx no u v2s mc offAll = (.ok r, ctx', u') →
      ∀ n ∈ definedNamesNamed entries, ctxContains ctx' n = true) ∧
    (∀ entries ctx no u v2s mc offAll r ctx' u',
      compileVariantsU fuel entries ctx no u v2s mc offAll = (.ok r, ctx', u') →
      ∀ n ∈ definedNamesSeq (entries.map Prod.snd), ctxContains ctx' n = true) := by
  intro fuel
  induction fuel with
  | zero =>
    refine ⟨?_, ?_, ?_, ?_, ?_, ?_, ?_, ?_⟩
    · intro s ctx no u cs ctx' no' u' h
      simp [compileSpecI] at h
    · intro s ctx no u st ctx' no' u' h
      simp [compileStructI] at h
    · intro s ctx u r ctx' u' h
      simp [boxCompile] at h
    · intro entries ctx no u f2s dups r ctx' no' u' h
      simp [compileRecFieldsI] at h
    · intro fields ctx no u r ctx' u' h
      simp [compileTupleI] at h
    · intro vspec ctx noff offAcc u m r ctx' u' h
      simp [variantRetryLoop] at h
    · intro entries ctx no u v2s mc offAll r ctx' u' h
      simp [compileVariantsN] at h
    · intro entries ctx no u v2s mc offAll r ctx' u' h
      simp [compileVariantsU] at h
  | succ f ih =>
    obtain ⟨ihS, ihSt, ihB, ihR, ihT, ihV, ihN, ihU⟩ := ih
    obtain ⟨eS, eSt, eB, eR, eT, eV, eN, eU⟩ := compile_evolution f
    refine ⟨?_, ?_, ?_, ?_, ?_, ?_, ?_, ?_⟩
    · intro s ctx no u cs ctx' no' u' h n hn
      rcases h1 : compileStructI f s ctx no [] with ⟨r1, ctx1, no1, int1⟩
      simp only [compileSpecI, h1] at h
      cases r1 with
      | error e => simp at h
      | ok st =>
        rcases h2 : buildNamedSchema ctx1 int1 with _ | ns
        · simp only [h2] at h
          simp at h
        · simp only [h2, Prod.mk.injEq] at h
          obtain ⟨_, hctx, _, _⟩ := h
          exact hctx ▸ ihSt s ctx no [] st ctx1 no1 int1 h1 n hn
    · intro s ctx no u st ctx' no' u' h n hn
      cases s with
      | Bool => simp [definedNames] at hn
      | Void => simp [definedNames] at hn
      | Uint k => simp [definedNames] at hn
      | Int k => simp [definedNames] at hn
      | BinaryFloatingPoint fmt => simp [definedNames] at hn
      | DecimalFloatingPoint fmt => simp [definedNames] at hn
      | String size fmt => simp [definedNames] at hn
      | Bytes size => simp [definedNames] at hn
      | Decimal p sc => simp [definedNames] at hn
      | Ref name => simp [definedNames] at hn
      | Map size k v =>
        rcases h1 : boxCompile f k ctx u with ⟨r1, ctx1, u1⟩
        simp only [compileStructI, h1] at h
        cases r1 with
        | error e => simp at h
        | ok kc =>
          rcases h2 : boxCompile f v ctx1 u1 with ⟨r2, ctx2, u2⟩
          simp only [h2] at h
          cases r2 with
          | error e => simp at h
          | ok vc =>
            simp only [Prod.mk.injEq] at h
            obtain ⟨_, hctx, _, _⟩ := h
            have hev2 : CtxEvolves ctx1 ctx2 (definedNames v) := by
              have := (eB v ctx1 u1).1
              rw [h2] at this
              exact this
            rcases List.mem_append.mp (by simpa [definedNames] using hn) with hm | hm
            · exact hctx ▸ hev2.contains (ihB k ctx u kc ctx1 u1 h1 n hm)
            · exact hctx ▸ ihB v ctx1 u1 vc ctx2 u2 h2 n hm
      | List size v =>
        rcases h1 : boxCompile f v ctx u with ⟨r1, ctx1, u1⟩
        simp only [compileStructI, h1] at h
        cases r1 with
        | error e => simp at h
        | ok vc =>
          simp only [Prod.mk.injEq] at h
          obtain ⟨_, hctx, _, _⟩ := h
          exact hctx ▸ ihB v ctx u vc ctx1 u1 h1 n (by simpa [definedNames] using hn)
      | Optional s0 =>
        rcases h1 : boxCompile f s0 ctx u with ⟨r1, ctx1, u1⟩
        simp only [compileStructI, h1] at h
        cases r1 with
        | error e => simp at h
        | ok vc =>
          simp only [Prod.mk.injEq] at h
          obtain ⟨_, hctx, _, _⟩ := h
          exact hctx ▸ ihB s0 ctx u vc ctx1 u1 h1 n (by simpa [definedNames] using hn)
      | Name name spec =>
        simp only [compileStructI] at h
        by_cases hc : ctxContains ctx name = true
        · rw [if_pos hc] at h
          simp at h
        · rw [if_neg hc] at h
          rcases h1 : compileSpecI f spec (ctxInsert ctx name invalid_compiled_spec)
              (setInsert no name) u with ⟨r1, ctx2, no2, u2⟩
          rw [h1] at h
          cases r1 with
          | error e => simp at h
          | ok cs0 =>
            simp only [Prod.mk.injEq] at h
            obtain ⟨_, hctx, _, _⟩ := h
            rcases List.mem_cons.mp (by simpa [definedNames] using hn) with rfl | hm
            · exact hctx ▸ (ctxContains_insert ctx2 n cs0 n).mpr (Or.inl rfl)
            · have := ihS spec _ _ _ cs0 ctx2 no2 u2 h1 n hm
              exact hctx ▸ (ctxContains_insert ctx2 name cs0 n).mpr (Or.inr this)
      | Record fields =>
        rcases h1 : compileRecFieldsI f fields ctx no u [] [] with ⟨r1, ctx1, no1, u1⟩
        simp only [compileStructI, h1] at h
        cases r1 with
        | error e => simp at h
        | ok t =>
          rcases t with ⟨f2s2, dups2⟩
          rcases dups2 with _ | ⟨d, ds⟩
          · simp only [Prod.mk.injEq] at h
            obtain ⟨_, hctx, _, _⟩ := h
            exact hctx ▸ ihR fields ctx no u [] [] _ ctx1 no1 u1 h1 n hn
          · simp at h
      | Tuple fields =>
        rcases h1 : compileTupleI f fields ctx no u with ⟨r1, ctx1, u1⟩
        simp only [compileStructI, h1] at h
        cases r1 with
        | error e => simp at h
        | ok cs0 =>
          simp only [Prod.mk.injEq] at h
          obtain ⟨_, hctx, _, _⟩ := h
          exact hctx ▸ ihT fields ctx no u cs0 ctx1 u1 h1 n hn
      | Enum variants =>
        rcases hdup : dupNames (variants.map Prod.fst) with _ | ⟨d, ds⟩
        · rcases h1 : compileVariantsN f variants ctx no u [] 0 [] with ⟨r1, ctx1, u1⟩
          simp only [compileStructI, hdup, h1] at h
          cases r1 with
          | error e => simp at h
          | ok t =>
            rcases t with ⟨v2s2, mc2, off2⟩
            simp only [] at h
            by_cases hm : mc2 = variants.length
            · rw [if_pos hm] at h
              simp at h
            · rw [if_neg hm] at h
              simp only [Prod.mk.injEq] at h
              obtain ⟨_, hctx, _, _⟩ := h
              exact hctx ▸ ihN variants ctx no u [] 0 [] _ ctx1 u1 h1 n hn
        · simp only [compileStructI, hdup] at h
          simp at h
      | Union variants =>
        rcases h1 : compileVariantsU f variants.enum ctx no u [] 0 [] with ⟨r1, ctx1, u1⟩
        simp only [compileStructI, h1] at h
        cases r1 with
        | error e => simp at h
        | ok t =>
          rcases t with ⟨v2s2, mc2, off2⟩
          simp only [] at h
          by_cases hm : mc2 = variants.length
          · rw [if_pos hm] at h
            simp at h
          · rw [if_neg hm] at h
            rcases h2 : unionCollect v2s2 0 variants.length with _ | cvs
            · simp only [h2] at h
              simp at h
            · simp only [h2] at h
              rcases h3 : dupByFp cvs with _ | ⟨d, ds⟩
              · simp only [h3, Prod.mk.injEq] at h
                obtain ⟨_, hctx, _, _⟩ := h
                exact hctx ▸ ihU variants.enum ctx no u [] 0 [] _ ctx1 u1 h1 n
                  (by rw [List.enum_map_snd]; exact hn)
              · simp only [h3] at h
                simp at h
    · intro s ctx u r ctx' u' h n hn
      rcases h1 : compileSpecI f s ctx [] u with ⟨r1, ctx1, no1, u1⟩
      simp only [boxCompile, h1] at h
      cases r1 with
      | error e => simp at h
      | ok cs =>
        simp only [Prod.mk.injEq] at h
        obtain ⟨hr, hctx, _⟩ := h
        exact hctx ▸ ihS s ctx [] u cs ctx1 no1 u1 h1 n hn
    · intro entries ctx no u f2s dups r ctx' no' u' h n hn
      cases entries with
      | nil => simp [definedNamesNamed] at hn
      | cons e rest =>
        obtain ⟨fname, fspec⟩ := e
        rcases h1 : compileSpecI f fspec ctx no u with ⟨r1, ctx1, no1, u1⟩
        simp only [compileRecFieldsI, h1] at h
        cases r1 with
        | error e => simp at h
        | ok cs =>
          simp only [] at h
          rcases List.mem_append.mp (by simpa [definedNamesNamed] using hn) with hm | hm
          · have hev : CtxEvolves ctx1 (compileRecFieldsI f rest ctx1 no1 u1
                (ctxInsert f2s fname cs)
                (if ctxContains f2s fname then setInsert dups fname else dups)).2.1
                (definedNamesNamed rest) := (eR rest ctx1 no1 u1 _ _).1
            rw [h] at hev
            exact hev.contains (ihS fspec ctx no u cs ctx1 no1 u1 h1 n hm)
          · exact ihR rest ctx1 no1 u1 _ _ r ctx' no' u' h n hm
    · intro fields ctx no u r ctx' u' h n hn
      cases fields with
      | nil => simp [definedNamesSeq] at hn
      | cons fspec rest =>
        rcases h1 : compileSpecI f fspec ctx no u with ⟨r1, ctx1, no1, u1⟩
        simp only [compileTupleI, h1] at h
        cases r1 with
        | error e => simp at h
        | ok cs =>
          rcases h2 : compileTupleI f rest ctx1 no u1 with ⟨r2, ctx2, u2⟩
          simp only [h2] at h
          cases r2 with
          | error e => simp at h
          | ok rest' =>
            simp only [Prod.mk.injEq] at h
            obtain ⟨_, hctx, _⟩ := h
            have hev : CtxEvolves ctx1 ctx2 (definedNamesSeq rest) := by
              have := (eT rest ctx1 no u1).1
              rw [h2] at this
              exact this
            rcases List.mem_append.mp (by simpa [definedNamesSeq] using hn) with hm | hm
            · exact hctx ▸ hev.contains (ihS fspec ctx no u cs ctx1 no1 u1 h1 n hm)
            · exact hctx ▸ ihT rest ctx1 no u1 rest' ctx2 u2 h2 n hm
    · intro vspec ctx noff offAcc u m r ctx' u' h n hn
      rcases h1 : compileSpecI f vspec ctx noff u with ⟨r1, ctx1, no1, u1⟩
      simp only [variantRetryLoop, h1] at h
      cases r1 with
      | ok cs =>
        simp only [Prod.mk.injEq] at h
        obtain ⟨_, hctx, _⟩ := h
        exact hctx ▸ ihS vspec ctx noff u cs ctx1 no1 u1 h1 n hn
      | error e =>
        cases e with
        | InfinitelyRecursiveTypes offs =>
          exact ihV vspec ctx1 (setRemoveAll no1 offs) (setUnionL offAcc offs) u1 true
            r ctx' u' h n hn
        | DuplicateName a => simp at h
        | UndefinedName a => simp at h
        | DuplicateRecordFieldNames a => simp at h
        | DuplicateEnumVariantNames a => simp at h
        | DuplicateUnionVariantSpecs a => simp at h
        | IllegalDecimalFmt => simp at h
        | FuelExhausted => simp at h
        | LookupPanic => simp at h
    · intro entries ctx no u v2s mc offAll r ctx' u' h n hn
      cases entries with
      | nil => simp [definedNamesNamed] at hn
      | cons e rest =>
        obtain ⟨vname, vspec⟩ := e
        rcases h1 : variantRetryLoop f vspec ctx no [] u false with ⟨r1, ctx1, u1⟩
        simp only [compileVariantsN, h1] at h
        cases r1 with
        | error e => simp at h
        | ok t =>
          rcases t with ⟨cs, offs, marked⟩
          simp only [] at h
          rcases List.mem_append.mp (by simpa [definedNamesNamed] using hn) with hm | hm
          · have hev : CtxEvolves ctx1 (compileVariantsN f rest ctx1 no u1
                (ctxInsert v2s vname cs) (mc + (if marked then 1 else 0))
                (setUnionL offAll offs)).2.1 (definedNamesNamed rest) :=
              (eN rest ctx1 no u1 _ _ _).1
            rw [h] at hev
            exact hev.contains (ihV vspec ctx no [] u false _ ctx1 u1 h1 n hm)
          · exact ihN rest ctx1 no u1 _ _ _ r ctx' u' h n hm
    · intro entries ctx no u v2s mc offAll r ctx' u' h n hn
      cases entries with
      | nil => simp [definedNamesSeq] at hn
      | cons e rest =>
        obtain ⟨vidx, vspec⟩ := e
        rcases h1 : variantRetryLoop f vspec ctx no [] u false with ⟨r1, ctx1, u1⟩
        simp only [compileVariantsU, h1] at h
        cases r1 with
        | error e => simp at h
        | ok t =>
          rcases t with ⟨cs, offs, marked⟩
          simp only [] at h
          have hn' : n ∈ definedNames vspec ++ definedNamesSeq (rest.map Prod.snd) := by
            simpa [definedNamesSeq] using hn
          rcases List.mem_append.mp hn' with hm | hm
          · have hev : CtxEvolves ctx1 (compileVariantsU f rest ctx1 no u1
                (idxInsert v2s vidx cs) (mc + (if marked then 1 else 0))
                (setUnionL offAll offs)).2.1 (definedNamesSeq (rest.map Prod.snd)) :=
              (eU rest ctx1 no u1 _ _ _).1
            rw [h] at hev
            exact hev.contains (ihV vspec ctx no [] u false _ ctx1 u1 h1 n hm)
          · exact ihU rest ctx1 no u1 _ _ _ r ctx' u' h n hm

theorem idxInsert_eq_append {m : List (Nat × CompiledSpec)} {k : Nat} (v : CompiledSpec)
    (h : idxContains m k = false) : idxInsert m k v = m ++ [(k, v)] := by
  induction m with
  | nil => rfl
  | cons p rest ih =>
    obtain ⟨k', v'⟩ := p
    by_cases hk : k' = k
    · simp [idxContains, idxLookup, hk] at h
    · have h' : idxContains rest k = false := by
        simpa [idxContains, idxLookup, hk] using h
      simp [idxInsert, hk, ih h']

theorem idxListSize_append (a b : List (Nat × CompiledSpec)) :
    idxListSize (a ++ b) = idxListSize a + idxListSize b := by
  induction a with
  | nil => simp [idxListSize]
  | cons p rest ih =>
    obtain ⟨k, v⟩ := p
    simp [idxListSize, ih]
    omega

theorem idxListSize_zip : ∀ (ks : List Nat) (csl : List CompiledSpec),
    ks.length = csl.length → idxListSize (ks.zip csl) = csListSize csl := by
  intro ks
  induction ks with
  | nil =>
    intro csl h
    cases csl with
    | nil => rfl
    | cons c cs => simp at h
  | cons k rest ih =>
    intro csl h
    cases csl with
    | nil => simp at h
    | cons c cs =>
      show 1 + csSize c + idxListSize (rest.zip cs) = 1 + csSize c + csListSize cs
      rw [ih cs (by simpa using h)]

theorem ConvDom.insert_mem {conv : NSet} {ctx : Ctx} (h : ConvDom conv ctx)
    {k : List Nat} (hk : ctxContains ctx k = true) (v : CompiledSpec) :
    ConvDom conv (ctxInsert ctx k v) := by
  intro n
  rw [ctxContains_insert, h n]
  constructor
  · exact Or.inr
  · rintro (rfl | hc)
    · exact hk
    · exact hc

theorem idxLookup_append_left {m : List (Nat × CompiledSpec)} {n : Nat}
    (δ : List (Nat × CompiledSpec)) (h : idxContains m n = true) :
    idxLookup (m ++ δ) n = idxLookup m n := by
  induction m with
  | nil => simp [idxContains, idxLookup] at h
  | cons p rest ih =>
    obtain ⟨k, v⟩ := p
    by_cases hk : k = n
    · simp [idxLookup, hk]
    · have h' : idxContains rest n = true := by
        simpa [idxContains, idxLookup, hk] using h
      simp [idxLookup, hk, ih h']

theorem idxLookup_append_right {m : List (Nat × CompiledSpec)} {n : Nat}
    (δ : List (Nat × CompiledSpec)) (h : idxContains m n = false) :
    idxLookup (m ++ δ) n = idxLookup δ n := by
  induction m with
  | nil => simp [idxLookup]
  | cons p rest ih =>
    obtain ⟨k, v⟩ := p
    by_cases hk : k = n
    · simp [idxContains, idxLookup, hk] at h
    · have h' : idxContains rest n = false := by
        simpa [idxContains, idxLookup, hk] using h
      simp [idxLookup, hk, ih h']

theorem delta_of_self {ctx δ : Ctx} (h : ctx = ctx ++ δ) : δ = [] := by
  have h2 : ctx ++ ([] : Ctx) = ctx ++ δ := by simpa using h
  exact (List.append_cancel_left h2).symm

/-- The heart of the compile round-trip: on every successful path,
`make_spec` of the produced structure (with the converted-name set
tracking the compile context, and any name environment `C` that agrees
with the final context on the defined names) rebuilds exactly the source
spec; and the structure-plus-context growth bounds the source node count,
which feeds the fuel bound of the `to_spec` wrapper. -/
theorem compile_to_spec : ∀ fuel : Nat,
    (∀ s ctx no u cs ctx' no' u', compileSpecI fuel s ctx no u = (.ok cs, ctx', no', u') →
      (∀ δ, ctx' = ctx ++ δ → specNodeCount s ≤ csSize cs + pairListSize δ) ∧
      (∀ C conv fuel2, ConvDom conv ctx →
        (∀ n ∈ definedNames s, ctxLookup C n = ctxLookup ctx' n) →
        specNodeCount s + 1 ≤ fuel2 →
        ∃ conv', makeSpecF fuel2 C conv cs.struct = some (s, conv') ∧ ConvDom conv' ctx')) ∧
    (∀ s ctx no u st ctx' no' u', compileStructI fuel s ctx no u = (.ok st, ctx', no', u') →
      (∀ δ, ctx' = ctx ++ δ → specNodeCount s ≤ structSize st + pairListSize δ) ∧
      (∀ C conv fuel2, ConvDom conv ctx →
        (∀ n ∈ definedNames s, ctxLookup C n = ctxLookup ctx' n) →
        specNodeCount s + 1 ≤ fuel2 →
        ∃ conv', makeSpecF fuel2 C conv st = some (s, conv') ∧ ConvDom conv' ctx')) ∧
    (∀ s ctx u cs ctx' u', boxCompile fuel s ctx u = (.ok cs, ctx', u') →
      (∀ δ, ctx' = ctx ++ δ → specNodeCount s ≤ csSize cs + pairListSize δ) ∧
      (∀ C conv fuel2, ConvDom conv ctx →
        (∀ n ∈ definedNames s, ctxLookup C n = ctxLookup ctx' n) →
        specNodeCount s + 1 ≤ fuel2 →
        ∃ conv', makeSpecF fuel2 C conv cs.struct = some (s, conv') ∧ ConvDom conv' ctx')) ∧
    (∀ entries ctx no u f2sA dupsA f2sO dupsO ctx' no' u',
      compileRecFieldsI fuel entries ctx no u f2sA dupsA = (.ok (f2sO, dupsO), ctx', no', u') →
      (∀ n ∈ dupsA, n ∈ dupsO) ∧
      (dupsO = [] →
        (∀ k, ctxContains f2sA k = true → ctxLookup f2sO k = ctxLookup f2sA k) ∧
        (∀ δ, ctx' = ctx ++ δ →
          namedSpecCount entries + pairListSize f2sA ≤ pairListSize f2sO + pairListSize δ) ∧
        (∀ C conv fuel2 f2sSup, ConvDom conv ctx →
          (∀ n ∈ definedNamesNamed entries, ctxLookup C n = ctxLookup ctx' n) →
          (∀ fn ∈ entries.map Prod.fst, ctxLookup f2sSup fn = ctxLookup f2sO fn) →
          namedSpecCount entries + 1 ≤ fuel2 →
          ∃ conv', makeSpecNamedF fuel2 C conv (entries.map Prod.fst) f2sSup =
              some (entries, conv') ∧ ConvDom conv' ctx'))) ∧
    (∀ fields ctx no u csl ctx' u', compileTupleI fuel fields ctx no u = (.ok csl, ctx', u') →
      (∀ δ, ctx' = ctx ++ δ → seqSpecCount fields ≤ csListSize csl + pairListSize δ) ∧
      (∀ C conv fuel2, ConvDom conv ctx →
        (∀ n ∈ definedNamesSeq fields, ctxLookup C n = ctxLookup ctx' n) →
        seqSpecCount fields + 1 ≤ fuel2 →
        ∃ conv', makeSpecSeqF fuel2 C conv csl = some (fields, conv') ∧ ConvDom conv' ctx')) ∧
    (∀ vspec ctx noff offAcc u m cs offs marked ctx' u',
      variantRetryLoop fuel vspec ctx noff offAcc u m = (.ok (cs, offs, marked), ctx', u') →
      (∀ δ, ctx' = ctx ++ δ → specNodeCount vspec ≤ csSize cs + pairListSize δ) ∧
      (∀ C conv fuel2, ConvDom conv ctx →
        (∀ n ∈ definedNames vspec, ctxLookup C n = ctxLookup ctx' n) →
        specNodeCount vspec + 1 ≤ fuel2 →
        ∃ conv', makeSpecF fuel2 C conv cs.struct = some (vspec, conv') ∧ ConvDom conv' ctx')) ∧
    (∀ entries ctx no u v2sA mc offAll v2sO mc2 offAll2 ctx' u',
      compileVariantsN fuel entries ctx no u v2sA mc offAll =
        (.ok (v2sO, mc2, offAll2), ctx', u') →
      (entries.map Prod.fst).Nodup →
      (∀ k ∈ entries.map Prod.fst, ctxContains v2sA k = false) →
      (∀ k, ctxContains v2sA k = true → ctxLookup v2sO k = ctxLookup v2sA k) ∧
      (∀ δ, ctx' = ctx ++ δ →
        namedSpecCount entries + pairListSize v2sA ≤ pairListSize v2sO + pairListSize δ) ∧
      (∀ C conv fuel2 v2sSup, ConvDom conv ctx →
        (∀ n ∈ definedNamesNamed entries, ctxLookup C n = ctxLookup ctx' n) →
        (∀ fn ∈ entries.map Prod.fst, ctxLookup v2sSup fn = ctxLookup v2sO fn) →
        namedSpecCount entries + 1 ≤ fuel2 →
        ∃ conv', makeSpecNamedF fuel2 C conv (entries.map Prod.fst) v2sSup =
            some (entries, conv') ∧ ConvDom conv' ctx')) ∧
    (∀ entries ctx no u v2sA mc offAll v2sO mc2 offAll2 ctx' u',
      compileVariantsU fuel entries ctx no u v2sA mc offAll =
        (.ok (v2sO, mc2, offAll2), ctx', u') →
      (entries.map Prod.fst).Nodup →
      (∀ k ∈ entries.map Prod.fst, idxContains v2sA k = false) →
      ∃ csl,
        List.Forall₂ (fun (e : Nat × Spec) c => idxLookup v2sO e.1 = some c) entries csl ∧
        v2sO = v2sA ++ (entries.map Prod.fst).zip csl ∧
        (∀ δ, ctx' = ctx ++ δ →
          seqSpecCount (entries.map Prod.snd) + idxListSize v2sA ≤
            idxListSize v2sO + pairListSize δ) ∧
        (∀ C conv fuel2, ConvDom conv ctx →
          (∀ n ∈ definedNamesSeq (entries.map Prod.snd), ctxLookup C n = ctxLookup ctx' n) →
          seqSpecCount (entries.map Prod.snd) + 1 ≤ fuel2 →
          ∃ conv', makeSpecSeqF fuel2 C conv csl = some (entries.map Prod.snd, conv') ∧
            ConvDom conv' ctx')) := by
  intro fuel
  induction fuel with
  | zero =>
    refine ⟨?_, ?_, ?_, ?_, ?_, ?_, ?_, ?_⟩
    · intro s ctx no u cs ctx' no' u' h
      simp [compileSpecI] at h
    · intro s ctx no u st ctx' no' u' h
      simp [compileStructI] at h
    · intro s ctx u cs ctx' u' h
      simp [boxCompile] at h
    · intro entries ctx no u f2sA dupsA f2sO dupsO ctx' no' u' h
      simp [compileRecFieldsI] at h
    · intro fields ctx no u csl ctx' u' h
      simp [compileTupleI] at h
    · intro vspec ctx noff offAcc u m cs offs marked ctx' u' h
      simp [variantRetryLoop] at h
    · intro entries ctx no u v2sA mc offAll v2sO mc2 offAll2 ctx' u' h
      simp [compileVariantsN] at h
    · intro entries ctx no u v2sA mc offAll v2sO mc2 offAll2 ctx' u' h
      simp [compileVariantsU] at h
  | succ f ih =>
    obtain ⟨ihS, ihSt, ihB, ihR, ihT, ihV, ihN, ihU⟩ := ih
    obtain ⟨eS, eSt, eB, eR, eT, eV, eN, eU⟩ := compile_evolution f
    obtain ⟨okS, okSt, okB, okR, okT, okV, okN, okU⟩ := compile_ok_facts f
    obtain ⟨dS, dSt, dB, dR, dT, dV, dN, dU⟩ := compile_defines f
    refine ⟨?_, ?_, ?_, ?_, ?_, ?_, ?_, ?_⟩
    · -- compileSpecI
      intro s ctx no u cs ctx' no' u' h
      rcases h1 : compileStructI f s ctx no [] with ⟨r1, ctx1, no1, int1⟩
      simp only [compileSpecI, h1] at h
      cases r1 with
      | error e => simp at h
      | ok st =>
        rcases h2 : buildNamedSchema ctx1 int1 with _ | ns
        · simp only [h2] at h
          simp at h
        · simp only [h2, Prod.mk.injEq, Except.ok.injEq] at h
          obtain ⟨hcs, hctx, hno, hu⟩ := h
          subst hcs hctx
          have hB := ihSt s ctx no [] st ctx1 no1 int1 h1
          refine ⟨fun δ hδ => ?_, fun C conv fuel2 hcd hC hf => ?_⟩
          · have := hB.1 δ hδ
            simp only [csSize]
            omega
          · exact hB.2 C conv fuel2 hcd hC hf
    · -- compileStructI
      intro s ctx no u st ctx' no' u' h
      cases s with
      | Bool =>
        simp only [compileStructI, Prod.mk.injEq, Except.ok.injEq] at h
        obtain ⟨hst, hctx, hno, hu⟩ := h
        subst hst hctx
        refine ⟨fun δ hδ => ?_, fun C conv fuel2 hcd hC hf => ?_⟩
        · rw [delta_of_self hδ]
          simp [specNodeCount, structSize, pairListSize]
        · obtain ⟨f2, rfl⟩ : ∃ f2, fuel2 = f2 + 1 := ⟨fuel2 - 1, by omega⟩
          exact ⟨conv, rfl, hcd⟩
      | Void =>
        simp only [compileStructI, Prod.mk.injEq, Except.ok.injEq] at h
        obtain ⟨hst, hctx, hno, hu⟩ := h
        subst hst hctx
        refine ⟨fun δ hδ => ?_, fun C conv fuel2 hcd hC hf => ?_⟩
        · rw [delta_of_self hδ]
          simp [specNodeCount, structSize, pairListSize]
        · obtain ⟨f2, rfl⟩ : ∃ f2, fuel2 = f2 + 1 := ⟨fuel2 - 1, by omega⟩
          exact ⟨conv, rfl, hcd⟩
      | Uint k =>
        simp only [compileStructI, Prod.mk.injEq, Except.ok.injEq] at h
        obtain ⟨hst, hctx, hno, hu⟩ := h
        subst hst hctx
        refine ⟨fun δ hδ => ?_, fun C conv fuel2 hcd hC hf => ?_⟩
        · rw [delta_of_self hδ]
          simp [specNodeCount, structSize, pairListSize]
        · obtain ⟨f2, rfl⟩ : ∃ f2, fuel2 = f2 + 1 := ⟨fuel2 - 1, by omega⟩
          exact ⟨conv, rfl, hcd⟩
      | Int k =>
        simp only [compileStructI, Prod.mk.injEq, Except.ok.injEq] at h
        obtain ⟨hst, hctx, hno, hu⟩ := h
        subst hst hctx
        refine ⟨fun δ hδ => ?_, fun C conv fuel2 hcd hC hf => ?_⟩
        · rw [delta_of_self hδ]
          simp [specNodeCount, structSize, pairListSize]
        · obtain ⟨f2, rfl⟩ : ∃ f2, fuel2 = f2 + 1 := ⟨fuel2 - 1, by omega⟩
          exact ⟨conv, rfl, hcd⟩
      | BinaryFloatingPoint fmt =>
        simp only [compileStructI, Prod.mk.injEq, Except.ok.injEq] at h
        obtain ⟨hst, hctx, hno, hu⟩ := h
        subst hst hctx
        refine ⟨fun δ hδ => ?_, fun C conv fuel2 hcd hC hf => ?_⟩
        · rw [delta_of_self hδ]
          simp [specNodeCount, structSize, pairListSize]
        · obtain ⟨f2, rfl⟩ : ∃ f2, fuel2 = f2 + 1 := ⟨fuel2 - 1, by omega⟩
          exact ⟨conv, rfl, hcd⟩
      | DecimalFloatingPoint fmt =>
        simp only [compileStructI, Prod.mk.injEq, Except.ok.injEq] at h
        obtain ⟨hst, hctx, hno, hu⟩ := h
        subst hst hctx
        refine ⟨fun δ hδ => ?_, fun C conv fuel2 hcd hC hf => ?_⟩
        · rw [delta_of_self hδ]
          simp [specNodeCount, structSize, pairListSize]
        · obtain ⟨f2, rfl⟩ : ∃ f2, fuel2 = f2 + 1 := ⟨fuel2 - 1, by omega⟩
          exact ⟨conv, rfl, hcd⟩
      | String size fmt =>
        simp only [compileStructI, Prod.mk.injEq, Except.ok.injEq] at h
        obtain ⟨hst, hctx, hno, hu⟩ := h
        subst hst hctx
        refine ⟨fun δ hδ => ?_, fun C conv fuel2 hcd hC hf => ?_⟩
        · rw [delta_of_self hδ]
          simp [specNodeCount, structSize, pairListSize]
        · obtain ⟨f2, rfl⟩ : ∃ f2, fuel2 = f2 + 1 := ⟨fuel2 - 1, by omega⟩
          exact ⟨conv, rfl, hcd⟩
      | Bytes size =>
        simp only [compileStructI, Prod.mk.injEq, Except.ok.injEq] at h
        obtain ⟨hst, hctx, hno, hu⟩ := h
        subst hst hctx
        refine ⟨fun δ hδ => ?_, fun C conv fuel2 hcd hC hf => ?_⟩
        · rw [delta_of_self hδ]
          simp [specNodeCount, structSize, pairListSize]
        · obtain ⟨f2, rfl⟩ : ∃ f2, fuel2 = f2 + 1 := ⟨fuel2 - 1, by omega⟩
          exact ⟨conv, rfl, hcd⟩
      | Decimal precision scale =>
        simp only [compileStructI] at h
        by_cases hle : scale ≤ precision
        · rw [if_pos hle] at h
          simp only [Prod.mk.injEq, Except.ok.injEq] at h
          obtain ⟨hst, hctx, hno, hu⟩ := h
          subst hst hctx
          refine ⟨fun δ hδ => ?_, fun C conv fuel2 hcd hC hf => ?_⟩
          · rw [delta_of_self hδ]
            simp [specNodeCount, structSize, pairListSize]
          · obtain ⟨f2, rfl⟩ : ∃ f2, fuel2 = f2 + 1 := ⟨fuel2 - 1, by omega⟩
            exact ⟨conv, rfl, hcd⟩
        · rw [if_neg hle] at h
          simp at h
      | Ref name =>
        simp only [compileStructI] at h
        by_cases hno2 : name ∈ no
        · rw [if_pos hno2] at h
          simp at h
        · rw [if_neg hno2] at h
          by_cases hc : ctxContains ctx name = true
          · rw [if_pos hc] at h
            simp only [Prod.mk.injEq, Except.ok.injEq] at h
            obtain ⟨hst, hctx, hno, hu⟩ := h
            subst hst hctx
            refine ⟨fun δ hδ => ?_, fun C conv fuel2 hcd hC hf => ?_⟩
            · rw [delta_of_self hδ]
              simp [specNodeCount, structSize, pairListSize]
            · obtain ⟨f2, rfl⟩ : ∃ f2, fuel2 = f2 + 1 := ⟨fuel2 - 1, by omega⟩
              have hin : name ∈ conv := (hcd name).mpr hc
              refine ⟨conv, ?_, hcd⟩
              simp only [makeSpecF, if_pos hin]
          · rw [if_neg hc] at h
            simp at h
      | Map size k v =>
        rcases h1 : boxCompile f k ctx u with ⟨r1, ctx1, u1⟩
        simp only [compileStructI, h1] at h
        cases r1 with
        | error e => simp at h
        | ok kc =>
          rcases h2 : boxCompile f v ctx1 u1 with ⟨r2, ctx2, u2⟩
          simp only [h2] at h
          cases r2 with
          | error e => simp at h
          | ok vc =>
            simp only [Prod.mk.injEq, Except.ok.injEq] at h
            obtain ⟨hst, hctx, hno, hu⟩ := h
            subst hst hctx
            have hBk := ihB k ctx u kc ctx1 u1 h1
            have hBv := ihB v ctx1 u1 vc ctx2 u2 h2
            have hev1 : CtxEvolves ctx ctx1 (definedNames k) := by
              have := (eB k ctx u).1
              rw [h1] at this
              exact this
            have hev2 : CtxEvolves ctx1 ctx2 (definedNames v) := by
              have := (eB v ctx1 u1).1
              rw [h2] at this
              exact this
            obtain ⟨δ1, hδ1, _⟩ := hev1
            obtain ⟨δ2, hδ2, _⟩ := hev2
            refine ⟨fun δ hδ => ?_, fun C conv fuel2 hcd hC hf => ?_⟩
            · have hδe : δ = δ1 ++ δ2 := by
                have h9 : ctx ++ δ = ctx ++ (δ1 ++ δ2) := by
                  rw [← hδ, hδ2, hδ1, List.append_assoc]
                exact List.append_cancel_left h9
              subst hδe
              have s1 := hBk.1 δ1 hδ1
              have s2 := hBv.1 δ2 hδ2
              rw [pairListSize_append]
              simp only [specNodeCount, structSize]
              omega
            · obtain ⟨f2, rfl⟩ : ∃ f2, fuel2 = f2 + 1 := ⟨fuel2 - 1, by omega⟩
              have hCk : ∀ n ∈ definedNames k, ctxLookup C n = ctxLookup ctx1 n := by
                intro n hn
                rw [hC n (by simp only [definedNames, List.mem_append]; exact Or.inl hn)]
                rw [hδ2]
                exact ctxLookup_append_left δ2 (dB k ctx u kc ctx1 u1 h1 n hn)
              have hCv : ∀ n ∈ definedNames v, ctxLookup C n = ctxLookup ctx2 n := by
                intro n hn
                exact hC n (by simp only [definedNames, List.mem_append]; exact Or.inr hn)
              simp only [specNodeCount] at hf
              obtain ⟨conv1, hmk1, hcd1⟩ := hBk.2 C conv f2 hcd hCk (by
                have := to_bytes_len_pos k
                omega)
              obtain ⟨conv2, hmk2, hcd2⟩ := hBv.2 C conv1 f2 hcd1 hCv (by omega)
              refine ⟨conv2, ?_, hcd2⟩
              simp only [makeSpecF, hmk1, hmk2]
      | List size v =>
        rcases h1 : boxCompile f v ctx u with ⟨r1, ctx1, u1⟩
        simp only [compileStructI, h1] at h
        cases r1 with
        | error e => simp at h
        | ok vc =>
          simp only [Prod.mk.injEq, Except.ok.injEq] at h
          obtain ⟨hst, hctx, hno, hu⟩ := h
          subst hst hctx
          have hBv := ihB v ctx u vc ctx1 u1 h1
          refine ⟨fun δ hδ => ?_, fun C conv fuel2 hcd hC hf => ?_⟩
          · have := hBv.1 δ hδ
            simp only [specNodeCount, structSize]
            omega
          · obtain ⟨f2, rfl⟩ : ∃ f2, fuel2 = f2 + 1 := ⟨fuel2 - 1, by omega⟩
            simp only [specNodeCount] at hf
            obtain ⟨conv1, hmk1, hcd1⟩ := hBv.2 C conv f2 hcd
              (fun n hn => hC n (by simpa [definedNames] using hn)) (by omega)
            refine ⟨conv1, ?_, hcd1⟩
            simp only [makeSpecF, hmk1]
      | Optional s0 =>
        rcases h1 : boxCompile f s0 ctx u with ⟨r1, ctx1, u1⟩
        simp only [compileStructI, h1] at h
        cases r1 with
        | error e => simp at h
        | ok vc =>
          simp only [Prod.mk.injEq, Except.ok.injEq] at h
          obtain ⟨hst, hctx, hno, hu⟩ := h
          subst hst hctx
          have hBv := ihB s0 ctx u vc ctx1 u1 h1
          refine ⟨fun δ hδ => ?_, fun C conv fuel2 hcd hC hf => ?_⟩
          · have := hBv.1 δ hδ
            simp only [specNodeCount, structSize]
            omega
          · obtain ⟨f2, rfl⟩ : ∃ f2, fuel2 = f2 + 1 := ⟨fuel2 - 1, by omega⟩
            simp only [specNodeCount] at hf
            obtain ⟨conv1, hmk1, hcd1⟩ := hBv.2 C conv f2 hcd
              (fun n hn => hC n (by simpa [definedNames] using hn)) (by omega)
            refine ⟨conv1, ?_, hcd1⟩
            simp only [makeSpecF, hmk1]
      | Name name spec =>
        simp only [compileStructI] at h
        by_cases hc : ctxContains ctx name = true
        · rw [if_pos hc] at h
          simp at h
        · rw [if_neg hc] at h
          have hcf : ctxContains ctx name = false := by simpa using hc
          rcases h1 : compileSpecI f spec (ctxInsert ctx name invalid_compiled_spec)
              (setInsert no name) u with ⟨r1, ctx2, no2, u2⟩
          rw [h1] at h
          cases r1 with
          | error e => simp at h
          | ok cs0 =>
            simp only [Prod.mk.injEq, Except.ok.injEq] at h
            obtain ⟨hst, hctx, hno, hu⟩ := h
            subst hst
            have hBb := ihS spec _ _ _ cs0 ctx2 no2 u2 h1
            have hins : ctxInsert ctx name invalid_compiled_spec =
                ctx ++ [(name, invalid_compiled_spec)] := ctxInsert_eq_append _ hcf
            have hev1 : CtxEvolves (ctxInsert ctx name invalid_compiled_spec) ctx2
                (definedNames spec) := by
              have := (eS spec (ctxInsert ctx name invalid_compiled_spec)
                (setInsert no name) u).1
              rw [h1] at this
              exact this
            obtain ⟨δb, hδb, _⟩ := hev1
            have hctx2 : ctx2 = ctx ++ ((name, invalid_compiled_spec) :: δb) := by
              rw [hδb, hins]
              simp
            have hnotdef : name ∉ definedNames spec := by
              intro hmem
              have hff := (okS spec _ _ _ cs0 ctx2 no2 u2 h1 name hmem).1
              have htt : ctxContains (ctxInsert ctx name invalid_compiled_spec) name = true :=
                (ctxContains_insert ctx name invalid_compiled_spec name).mpr (Or.inl rfl)
              rw [hff] at htt
              exact absurd htt (by simp)
            refine ⟨fun δ hδ => ?_, fun C conv fuel2 hcd hC hf => ?_⟩
            · have hδe : δ = ctxInsert ((name, invalid_compiled_spec) :: δb) name cs0 := by
                have h9 : ctx ++ δ = ctx ++ ctxInsert ((name, invalid_compiled_spec) :: δb)
                    name cs0 := by
                  rw [← hδ, ← hctx, hctx2, ctxInsert_append_right _ _ hcf]
                exact List.append_cancel_left h9
              subst hδe
              have sb := hBb.1 δb hδb
              have hplδ : pairListSize (ctxInsert ((name, invalid_compiled_spec) :: δb)
                  name cs0) = 1 + csSize cs0 + pairListSize δb := by
                simp [ctxInsert, pairListSize]
              rw [hplδ]
              simp only [specNodeCount, structSize]
              omega
            · obtain ⟨f2, rfl⟩ : ∃ f2, fuel2 = f2 + 1 := ⟨fuel2 - 1, by omega⟩
              have hnin : name ∉ conv := hcd.not_mem_of_not_contains hcf
              have hlookC : ctxLookup C name = some cs0 := by
                rw [hC name (by simp [definedNames])]
                rw [← hctx, ctxLookup_insert_self]
              have hcdb : ConvDom (setInsert conv name)
                  (ctxInsert ctx name invalid_compiled_spec) := hcd.insert name _
              have hCb : ∀ n ∈ definedNames spec, ctxLookup C n = ctxLookup ctx2 n := by
                intro n hn
                have hnne : n ≠ name := fun hh => hnotdef (hh ▸ hn)
                rw [hC n (by simp only [definedNames, List.mem_cons]; exact Or.inr hn)]
                rw [← hctx, ctxLookup_insert_ne _ _ hnne]
              simp only [specNodeCount] at hf
              obtain ⟨conv2, hmk, hcd2⟩ := hBb.2 C (setInsert conv name) f2 hcdb hCb (by omega)
              refine ⟨conv2, ?_, ?_⟩
              · simp only [makeSpecF, if_neg hnin, hlookC, hmk]
              · rw [← hctx]
                have hcont2 : ctxContains ctx2 name = true := by
                  rw [hctx2, ctxContains_append]
                  have : ctxContains ((name, invalid_compiled_spec) :: δb) name = true := by
                    simp [ctxContains, ctxLookup]
                  rw [this]
                  simp
                exact hcd2.insert_mem hcont2 cs0
      | Record fields =>
        rcases h1 : compileRecFieldsI f fields ctx no u [] [] with ⟨r1, ctx1, no1, u1⟩
        simp only [compileStructI, h1] at h
        cases r1 with
        | error e => simp at h
        | ok t =>
          rcases t with ⟨f2s2, dups2⟩
          rcases dups2 with _ | ⟨d, ds⟩
          · simp only [Prod.mk.injEq, Except.ok.injEq] at h
            obtain ⟨hst, hctx, hno, hu⟩ := h
            subst hst hctx
            have hR := (ihR fields ctx no u [] [] f2s2 [] ctx1 no1 u1 h1).2 rfl
            refine ⟨fun δ hδ => ?_, fun C conv fuel2 hcd hC hf => ?_⟩
            · have := hR.2.1 δ hδ
              simp only [specNodeCount, structSize, pairListSize] at this ⊢
              omega
            · obtain ⟨f2, rfl⟩ : ∃ f2, fuel2 = f2 + 1 := ⟨fuel2 - 1, by omega⟩
              simp only [specNodeCount] at hf
              obtain ⟨conv1, hmk, hcd1⟩ := hR.2.2 C conv f2 f2s2 hcd hC
                (fun _ _ => rfl) (by omega)
              refine ⟨conv1, ?_, hcd1⟩
              simp only [makeSpecF, hmk]
          · simp at h
      | Tuple fields =>
        rcases h1 : compileTupleI f fields ctx no u with ⟨r1, ctx1, u1⟩
        simp only [compileStructI, h1] at h
        cases r1 with
        | error e => simp at h
        | ok csl =>
          simp only [Prod.mk.injEq, Except.ok.injEq] at h
          obtain ⟨hst, hctx, hno, hu⟩ := h
          subst hst hctx
          have hT := ihT fields ctx no u csl ctx1 u1 h1
          refine ⟨fun δ hδ => ?_, fun C conv fuel2 hcd hC hf => ?_⟩
          · have := hT.1 δ hδ
            simp only [specNodeCount, structSize]
            omega
          · obtain ⟨f2, rfl⟩ : ∃ f2, fuel2 = f2 + 1 := ⟨fuel2 - 1, by omega⟩
            simp only [specNodeCount] at hf
            obtain ⟨conv1, hmk, hcd1⟩ := hT.2 C conv f2 hcd hC (by omega)
            refine ⟨conv1, ?_, hcd1⟩
            simp only [makeSpecF, hmk]
      | Enum variants =>
        rcases hdup : dupNames (variants.map Prod.fst) with _ | ⟨d, ds⟩
        · rcases h1 : compileVariantsN f variants ctx no u [] 0 [] with ⟨r1, ctx1, u1⟩
          simp only [compileStructI, hdup, h1] at h
          cases r1 with
          | error e => simp at h
          | ok t =>
            rcases t with ⟨v2s2, mc2, off2⟩
            simp only [] at h
            by_cases hm : mc2 = variants.length
            · rw [if_pos hm] at h
              simp at h
            · rw [if_neg hm] at h
              simp only [Prod.mk.injEq, Except.ok.injEq] at h
              obtain ⟨hst, hctx, hno, hu⟩ := h
              subst hst hctx
              have hN := ihN variants ctx no u [] 0 [] v2s2 mc2 off2 ctx1 u1 h1
                (dupNames_nil_nodup hdup) (fun k _ => rfl)
              refine ⟨fun δ hδ => ?_, fun C conv fuel2 hcd hC hf => ?_⟩
              · have := hN.2.1 δ hδ
                simp only [specNodeCount, structSize, pairListSize] at this ⊢
                omega
              · obtain ⟨f2, rfl⟩ : ∃ f2, fuel2 = f2 + 1 := ⟨fuel2 - 1, by omega⟩
                simp only [specNodeCount] at hf
                obtain ⟨conv1, hmk, hcd1⟩ := hN.2.2 C conv f2 v2s2 hcd hC
                  (fun _ _ => rfl) (by omega)
                refine ⟨conv1, ?_, hcd1⟩
                simp only [makeSpecF, hmk]
        · simp only [compileStructI, hdup] at h
          simp at h
      | Union variants =>
        rcases h1 : compileVariantsU f variants.enum ctx no u [] 0 [] with ⟨r1, ctx1, u1⟩
        simp only [compileStructI, h1] at h
        cases r1 with
        | error e => simp at h
        | ok t =>
          rcases t with ⟨v2s2, mc2, off2⟩
          simp only [] at h
          by_cases hm : mc2 = variants.length
          · rw [if_pos hm] at h
            simp at h
          · rw [if_neg hm] at h
            rcases h2 : unionCollect v2s2 0 variants.length with _ | cvs
            · simp only [h2] at h
              simp at h
            · simp only [h2] at h
              rcases h3 : dupByFp cvs with _ | ⟨d, ds⟩
              · simp only [h3, Prod.mk.injEq, Except.ok.injEq] at h
                obtain ⟨hst, hctx, hno, hu⟩ := h
                subst hst hctx
                have hkeys : (variants.enum.map Prod.fst).Nodup := by
                  rw [List.enum_map_fst]
                  exact List.nodup_range _
                obtain ⟨csl, hfa, happ, hsize, hmk⟩ :=
                  ihU variants.enum ctx no u [] 0 [] v2s2 mc2 off2 ctx1 u1 h1
                    hkeys (fun k _ => rfl)
                have hcoll : unionCollect v2s2 0 variants.length = some csl := by
                  apply unionCollect_of variants 0 csl
                  have : variants.enum = variants.enumFrom 0 := rfl
                  rw [← this]
                  exact hfa
                rw [h2] at hcoll
                have hcvs : csl = cvs := by
                  simpa using hcoll.symm
                subst hcvs
                have hlen : variants.enum.length = csl.length := hfa.length_eq
                have hv2s2 : idxListSize v2s2 = csListSize csl := by
                  rw [happ]
                  simp only [List.nil_append]
                  apply idxListSize_zip
                  rw [List.length_map, List.enum_length]
                  rw [List.enum_length] at hlen
                  exact hlen
                refine ⟨fun δ hδ => ?_, fun C conv fuel2 hcd hC hf => ?_⟩
                · have := hsize δ hδ
                  rw [List.enum_map_snd] at this
                  simp only [idxListSize] at this
                  rw [hv2s2] at this
                  simp only [specNodeCount, structSize]
                  omega
                · obtain ⟨f2, rfl⟩ : ∃ f2, fuel2 = f2 + 1 := ⟨fuel2 - 1, by omega⟩
                  simp only [specNodeCount] at hf
                  have hC' : ∀ n ∈ definedNamesSeq (variants.enum.map Prod.snd),
                      ctxLookup C n = ctxLookup ctx1 n := by
                    rw [List.enum_map_snd]
                    exact hC
                  obtain ⟨conv1, hmk1, hcd1⟩ := hmk C conv f2 hcd hC' (by
                    rw [List.enum_map_snd]
                    omega)
                  rw [List.enum_map_snd] at hmk1
                  refine ⟨conv1, ?_, hcd1⟩
                  simp only [makeSpecF, hmk1]
              · simp only [h3] at h
                simp at h
    · -- boxCompile
      intro s ctx u cs ctx' u' h
      rcases h1 : compileSpecI f s ctx [] u with ⟨r1, ctx1, no1, u1⟩
      simp only [boxCompile, h1] at h
      cases r1 with
      | error e => simp at h
      | ok cs0 =>
        simp only [Prod.mk.injEq, Except.ok.injEq] at h
        obtain ⟨hcs, hctx, hu⟩ := h
        subst hcs hctx
        exact ihS s ctx [] u cs0 ctx1 no1 u1 h1
    · -- compileRecFieldsI
      intro entries ctx no u f2sA dupsA f2sO dupsO ctx' no' u' h
      cases entries with
      | nil =>
        simp only [compileRecFieldsI, Prod.mk.injEq, Except.ok.injEq] at h
        obtain ⟨⟨hf2s, hdups⟩, hctx, hno, hu⟩ := h
        subst hf2s hdups hctx
        refine ⟨fun n hn => hn, fun hd0 => ⟨fun k hk => rfl, fun δ hδ => ?_,
          fun C conv fuel2 f2sSup hcd hC hsup hf => ?_⟩⟩
        · rw [delta_of_self hδ]
          simp [namedSpecCount, pairListSize]
        · obtain ⟨f2, rfl⟩ : ∃ f2, fuel2 = f2 + 1 := ⟨fuel2 - 1, by omega⟩
          exact ⟨conv, rfl, hcd⟩
      | cons e rest =>
        obtain ⟨fname, fspec⟩ := e
        rcases h1 : compileSpecI f fspec ctx no u with ⟨r1, ctx1, no1, u1⟩
        simp only [compileRecFieldsI, h1] at h
        cases r1 with
        | error e => simp at h
        | ok cs =>
          simp only [] at h
          have hRt := ihR rest ctx1 no1 u1 (ctxInsert f2sA fname cs)
            (if ctxContains f2sA fname then setInsert dupsA fname else dupsA)
            f2sO dupsO ctx' no' u' h
          refine ⟨?_, ?_⟩
          · intro n hn
            apply hRt.1
            split
            · exact mem_setInsert.mpr (Or.inl hn)
            · exact hn
          · intro hd0
            have hfresh : ctxContains f2sA fname = false := by
              by_contra hcc
              have hcc' : ctxContains f2sA fname = true := by
                cases hx : ctxContains f2sA fname
                · exact absurd hx hcc
                · rfl
              have : fname ∈ dupsO := by
                apply hRt.1
                rw [if_pos hcc']
                exact mem_setInsert.mpr (Or.inr rfl)
              rw [hd0] at this
              simp at this
            have hdups1 : (if ctxContains f2sA fname then setInsert dupsA fname
                else dupsA) = dupsA := by
              rw [if_neg (by simp [hfresh])]
            rw [hdups1] at hRt h
            have hRt2 := hRt.2 hd0
            have hBf := ihS fspec ctx no u cs ctx1 no1 u1 h1
            have hf2s1 : ctxInsert f2sA fname cs = f2sA ++ [(fname, cs)] :=
              ctxInsert_eq_append _ hfresh
            have hev1 : CtxEvolves ctx ctx1 (definedNames fspec) := by
              have := (eS fspec ctx no u).1
              rw [h1] at this
              exact this
            have hev2 : CtxEvolves ctx1 ctx' (definedNamesNamed rest) := by
              have := (eR rest ctx1 no1 u1 (ctxInsert f2sA fname cs) dupsA).1
              rw [h] at this
              exact this
            obtain ⟨δ1, hδ1, _⟩ := hev1
            obtain ⟨δ2, hδ2, _⟩ := hev2
            refine ⟨?_, ?_, ?_⟩
            · intro k hk
              have hkne : k ≠ fname := by
                intro hkk
                rw [hkk, hfresh] at hk
                exact absurd hk (by simp)
              rw [hRt2.1 k (by
                  rw [ctxContains_insert]
                  exact Or.inr hk),
                ctxLookup_insert_ne _ _ hkne]
            · intro δ hδ
              have hδe : δ = δ1 ++ δ2 := by
                have h9 : ctx ++ δ = ctx ++ (δ1 ++ δ2) := by
                  rw [← hδ, hδ2, hδ1, List.append_assoc]
                exact List.append_cancel_left h9
              subst hδe
              have s1 := hBf.1 δ1 hδ1
              have s2 := hRt2.2.1 δ2 hδ2
              rw [hf2s1, pairListSize_append] at s2
              rw [pairListSize_append]
              simp only [namedSpecCount, pairListSize] at s2 ⊢
              omega
            · intro C conv fuel2 f2sSup hcd hC hsup hf
              obtain ⟨f2, rfl⟩ : ∃ f2, fuel2 = f2 + 1 := ⟨fuel2 - 1, by omega⟩
              have hlook : ctxLookup f2sSup fname = some cs := by
                rw [hsup fname (by simp)]
                rw [hRt2.1 fname (by
                  rw [ctxContains_insert]
                  exact Or.inl rfl)]
                exact ctxLookup_insert_self _ _ _
              have hCf : ∀ n ∈ definedNames fspec, ctxLookup C n = ctxLookup ctx1 n := by
                intro n hn
                rw [hC n (by simp only [definedNamesNamed, List.mem_append]; exact Or.inl hn)]
                rw [hδ2]
                exact ctxLookup_append_left δ2 (dS fspec ctx no u cs ctx1 no1 u1 h1 n hn)
              simp only [namedSpecCount] at hf
              obtain ⟨conv1, hmk1, hcd1⟩ := hBf.2 C conv f2 hcd hCf (by omega)
              obtain ⟨conv2, hmk2, hcd2⟩ := hRt2.2.2 C conv1 f2 f2sSup hcd1
                (fun n hn => hC n (by
                  simp only [definedNamesNamed, List.mem_append]
                  exact Or.inr hn))
                (fun fn hfn => hsup fn (by simp [hfn])) (by omega)
              refine ⟨conv2, ?_, hcd2⟩
              simp only [List.map_cons, makeSpecNamedF, hlook, hmk1, hmk2]
    · -- compileTupleI
      intro fields ctx no u csl ctx' u' h
      cases fields with
      | nil =>
        simp only [compileTupleI, Prod.mk.injEq, Except.ok.injEq] at h
        obtain ⟨hcsl, hctx, hu⟩ := h
        subst hcsl hctx
        refine ⟨fun δ hδ => ?_, fun C conv fuel2 hcd hC hf => ?_⟩
        · rw [delta_of_self hδ]
          simp [seqSpecCount, csListSize, pairListSize]
        · obtain ⟨f2, rfl⟩ : ∃ f2, fuel2 = f2 + 1 := ⟨fuel2 - 1, by omega⟩
          exact ⟨conv, rfl, hcd⟩
      | cons fspec rest =>
        rcases h1 : compileSpecI f fspec ctx no u with ⟨r1, ctx1, no1, u1⟩
        simp only [compileTupleI, h1] at h
        cases r1 with
        | error e => simp at h
        | ok cs =>
          rcases h2 : compileTupleI f rest ctx1 no u1 with ⟨r2, ctx2, u2⟩
          simp only [h2] at h
          cases r2 with
          | error e => simp at h
          | ok rest' =>
            simp only [Prod.mk.injEq, Except.ok.injEq] at h
            obtain ⟨hcsl, hctx, hu⟩ := h
            subst hcsl hctx
            have hBf := ihS fspec ctx no u cs ctx1 no1 u1 h1
            have hTt := ihT rest ctx1 no u1 rest' ctx2 u2 h2
            have hev1 : CtxEvolves ctx ctx1 (definedNames fspec) := by
              have := (eS fspec ctx no u).1
              rw [h1] at this
              exact this
            have hev2 : CtxEvolves ctx1 ctx2 (definedNamesSeq rest) := by
              have := (eT rest ctx1 no u1).1
              rw [h2] at this
              exact this
            obtain ⟨δ1, hδ1, _⟩ := hev1
            obtain ⟨δ2, hδ2, _⟩ := hev2
            refine ⟨fun δ hδ => ?_, fun C conv fuel2 hcd hC hf => ?_⟩
            · have hδe : δ = δ1 ++ δ2 := by
                have h9 : ctx ++ δ = ctx ++ (δ1 ++ δ2) := by
                  rw [← hδ, hδ2, hδ1, List.append_assoc]
                exact List.append_cancel_left h9
              subst hδe
              have s1 := hBf.1 δ1 hδ1
              have s2 := hTt.1 δ2 hδ2
              rw [pairListSize_append]
              simp only [seqSpecCount, csListSize]
              omega
            · obtain ⟨f2, rfl⟩ : ∃ f2, fuel2 = f2 + 1 := ⟨fuel2 - 1, by omega⟩
              have hCf : ∀ n ∈ definedNames fspec, ctxLookup C n = ctxLookup ctx1 n := by
                intro n hn
                rw [hC n (by simp only [definedNamesSeq, List.mem_append]; exact Or.inl hn),
                  hδ2]
                exact ctxLookup_append_left δ2 (dS fspec ctx no u cs ctx1 no1 u1 h1 n hn)
              simp only [seqSpecCount] at hf
              obtain ⟨conv1, hmk1, hcd1⟩ := hBf.2 C conv f2 hcd hCf (by omega)
              obtain ⟨conv2, hmk2, hcd2⟩ := hTt.2 C conv1 f2 hcd1
                (fun n hn => hC n (by
                  simp only [definedNamesSeq, List.mem_append]
                  exact Or.inr hn)) (by omega)
              refine ⟨conv2, ?_, hcd2⟩
              simp only [makeSpecSeqF, hmk1, hmk2]
    · -- variantRetryLoop
      intro vspec ctx noff offAcc u m cs offs marked ctx' u' h
      rcases h1 : compileSpecI f vspec ctx noff u with ⟨r1, ctx1, no1, u1⟩
      simp only [variantRetryLoop, h1] at h
      cases r1 with
      | ok cs0 =>
        simp only [Prod.mk.injEq, Except.ok.injEq, Prod.mk.injEq] at h
        obtain ⟨⟨hcs, _, _⟩, hctx, hu⟩ := h
        subst hcs hctx
        exact ihS vspec ctx noff u cs0 ctx1 no1 u1 h1
      | error e =>
        cases e with
        | InfinitelyRecursiveTypes offsf =>
          simp only [] at h
          have hfail : CtxEvolves ctx ctx1 (definedNames vspec) := by
            have := (eS vspec ctx noff u).1
            rw [h1] at this
            exact this
          have hfresh := okV vspec ctx1
            (setRemoveAll no1 offsf) (setUnionL offAcc offsf) u1 true
            (cs, offs, marked) ctx' u' h
          have hctx1 : ctx1 = ctx := by
            obtain ⟨δ1, hδ1, hmem⟩ := hfail
            cases δ1 with
            | nil => simpa using hδ1
            | cons p ps =>
              obtain ⟨k, v⟩ := p
              have hk : k ∈ definedNames vspec := hmem (k, v) (List.mem_cons_self _ _)
              have hin : (k, v) ∈ ctx1 := by
                rw [hδ1]
                exact List.mem_append.mpr (Or.inr (List.mem_cons_self _ _))
              have := (hfresh k hk).1
              rw [contains_of_mem hin] at this
              exact absurd this (by simp)
          rw [hctx1] at h
          exact ihV vspec ctx (setRemoveAll no1 offsf) (setUnionL offAcc offsf) u1 true
            cs offs marked ctx' u' h
        | DuplicateName a => simp at h
        | UndefinedName a => simp at h
        | DuplicateRecordFieldNames a => simp at h
        | DuplicateEnumVariantNames a => simp at h
        | DuplicateUnionVariantSpecs a => simp at h
        | IllegalDecimalFmt => simp at h
        | FuelExhausted => simp at h
        | LookupPanic => simp at h
    · -- compileVariantsN
      intro entries ctx no u v2sA mc offAll v2sO mc2 offAll2 ctx' u' h hnd hfreshA
      cases entries with
      | nil =>
        simp only [compileVariantsN, Prod.mk.injEq, Except.ok.injEq] at h
        obtain ⟨⟨hv2s, _, _⟩, hctx, hu⟩ := h
        subst hv2s hctx
        refine ⟨fun k hk => rfl, fun δ hδ => ?_,
          fun C conv fuel2 v2sSup hcd hC hsup hf => ?_⟩
        · rw [delta_of_self hδ]
          simp [namedSpecCount, pairListSize]
        · obtain ⟨f2, rfl⟩ : ∃ f2, fuel2 = f2 + 1 := ⟨fuel2 - 1, by omega⟩
          exact ⟨conv, rfl, hcd⟩
      | cons e rest =>
        obtain ⟨vname, vspec⟩ := e
        rcases h1 : variantRetryLoop f vspec ctx no [] u false with ⟨r1, ctx1, u1⟩
        simp only [compileVariantsN, h1] at h
        cases r1 with
        | error e => simp at h
        | ok t =>
          rcases t with ⟨cs, offs, marked⟩
          simp only [] at h
          rw [List.map_cons, List.nodup_cons] at hnd
          have hfreshName : ctxContains v2sA vname = false := hfreshA vname (by simp)
          have hfresh1 : ∀ k ∈ rest.map Prod.fst,
              ctxContains (ctxInsert v2sA vname cs) k = false := by
            intro k hk
            have hkne : k ≠ vname := fun hkk => hnd.1 (hkk ▸ hk)
            have := hfreshA k (by simp [hk])
            simp only [ctxContains]
            rw [ctxLookup_insert_ne _ _ hkne]
            exact this
          have hNt := ihN rest ctx1 no u1 (ctxInsert v2sA vname cs)
            (mc + (if marked then 1 else 0)) (setUnionL offAll offs)
            v2sO mc2 offAll2 ctx' u' h hnd.2 hfresh1
          have hBv := ihV vspec ctx no [] u false cs offs marked ctx1 u1 h1
          have hv2s1 : ctxInsert v2sA vname cs = v2sA ++ [(vname, cs)] :=
            ctxInsert_eq_append _ hfreshName
          have hev1 : CtxEvolves ctx ctx1 (definedNames vspec) := by
            have := (eV vspec ctx no [] u false).1
            rw [h1] at this
            exact this
          have hev2 : CtxEvolves ctx1 ctx' (definedNamesNamed rest) := by
            have := (eN rest ctx1 no u1 (ctxInsert v2sA vname cs)
              (mc + (if marked then 1 else 0)) (setUnionL offAll offs)).1
            rw [h] at this
            exact this
          obtain ⟨δ1, hδ1, _⟩ := hev1
          obtain ⟨δ2, hδ2, _⟩ := hev2
          refine ⟨?_, ?_, ?_⟩
          · intro k hk
            have hkne : k ≠ vname := by
              intro hkk
              rw [hkk, hfreshName] at hk
              exact absurd hk (by simp)
            rw [hNt.1 k (by
                simp only [ctxContains]
                rw [ctxLookup_insert_ne _ _ hkne]
                exact hk),
              ctxLookup_insert_ne _ _ hkne]
          · intro δ hδ
            have hδe : δ = δ1 ++ δ2 := by
              have h9 : ctx ++ δ = ctx ++ (δ1 ++ δ2) := by
                rw [← hδ, hδ2, hδ1, List.append_assoc]
              exact List.append_cancel_left h9
            subst hδe
            have s1 := hBv.1 δ1 hδ1
            have s2 := hNt.2.1 δ2 hδ2
            rw [hv2s1, pairListSize_append] at s2
            rw [pairListSize_append]
            simp only [namedSpecCount, pairListSize] at s2 ⊢
            omega
          · intro C conv fuel2 v2sSup hcd hC hsup hf
            obtain ⟨f2, rfl⟩ : ∃ f2, fuel2 = f2 + 1 := ⟨fuel2 - 1, by omega⟩
            have hlook : ctxLookup v2sSup vname = some cs := by
              rw [hsup vname (by simp)]
              rw [hNt.1 vname (by
                simp [ctxContains, ctxLookup_insert_self])]
              exact ctxLookup_insert_self _ _ _
            have hCv : ∀ n ∈ definedNames vspec, ctxLookup C n = ctxLookup ctx1 n := by
              intro n hn
              rw [hC n (by simp only [definedNamesNamed, List.mem_append]; exact Or.inl hn)]
              rw [hδ2]
              exact ctxLookup_append_left δ2
                (dV vspec ctx no [] u false (cs, offs, marked) ctx1 u1 h1 n hn)
            simp only [namedSpecCount] at hf
            obtain ⟨conv1, hmk1, hcd1⟩ := hBv.2 C conv f2 hcd hCv (by omega)
            obtain ⟨conv2, hmk2, hcd2⟩ := hNt.2.2 C conv1 f2 v2sSup hcd1
              (fun n hn => hC n (by
                simp only [definedNamesNamed, List.mem_append]
                exact Or.inr hn))
              (fun fn hfn => hsup fn (by simp [hfn])) (by omega)
            refine ⟨conv2, ?_, hcd2⟩
            simp only [List.map_cons, makeSpecNamedF, hlook, hmk1, hmk2]
    · -- compileVariantsU
      intro entries ctx no u v2sA mc offAll v2sO mc2 offAll2 ctx' u' h hnd hfreshA
      cases entries with
      | nil =>
        simp only [compileVariantsU, Prod.mk.injEq, Except.ok.injEq] at h
        obtain ⟨⟨hv2s, _, _⟩, hctx, hu⟩ := h
        subst hv2s hctx
        refine ⟨[], List.Forall₂.nil, by simp, fun δ hδ => ?_,
          fun C conv fuel2 hcd hC hf => ?_⟩
        · rw [delta_of_self hδ]
          simp [seqSpecCount, pairListSize]
        · obtain ⟨f2, rfl⟩ : ∃ f2, fuel2 = f2 + 1 := ⟨fuel2 - 1, by omega⟩
          exact ⟨conv, rfl, hcd⟩
      | cons e rest =>
        obtain ⟨vidx, vspec⟩ := e
        rcases h1 : variantRetryLoop f vspec ctx no [] u false with ⟨r1, ctx1, u1⟩
        simp only [compileVariantsU, h1] at h
        cases r1 with
        | error e => simp at h
        | ok t =>
          rcases t with ⟨cs, offs, marked⟩
          simp only [] at h
          rw [List.map_cons, List.nodup_cons] at hnd
          have hfreshName : idxContains v2sA vidx = false := hfreshA vidx (by simp)
          have hfresh1 : ∀ k ∈ rest.map Prod.fst,
              idxContains (idxInsert v2sA vidx cs) k = false := by
            intro k hk
            have hkne : k ≠ vidx := fun hkk => hnd.1 (hkk ▸ hk)
            have := hfreshA k (by simp [hk])
            simp only [idxContains]
            rw [idxLookup_insert_ne _ _ hkne]
            exact this
          obtain ⟨csl', hfa', happ', hsize', hmk'⟩ := ihU rest ctx1 no u1
            (idxInsert v2sA vidx cs) (mc + (if marked then 1 else 0))
            (setUnionL offAll offs) v2sO mc2 offAll2 ctx' u' h hnd.2 hfresh1
          have hBv := ihV vspec ctx no [] u false cs offs marked ctx1 u1 h1
          have hv2s1 : idxInsert v2sA vidx cs = v2sA ++ [(vidx, cs)] :=
            idxInsert_eq_append _ hfreshName
          have hev2 : CtxEvolves ctx1 ctx' (definedNamesSeq (rest.map Prod.snd)) := by
            have := (eU rest ctx1 no u1 (idxInsert v2sA vidx cs)
              (mc + (if marked then 1 else 0)) (setUnionL offAll offs)).1
            rw [h] at this
            exact this
          have hev1 : CtxEvolves ctx ctx1 (definedNames vspec) := by
            have := (eV vspec ctx no [] u false).1
            rw [h1] at this
            exact this
          obtain ⟨δ1, hδ1, _⟩ := hev1
          obtain ⟨δ2, hδ2, _⟩ := hev2
          have hlookhead : idxLookup v2sO vidx = some cs := by
            rw [happ', hv2s1, List.append_assoc, idxLookup_append_right _ hfreshName]
            simp [idxLookup]
          refine ⟨cs :: csl', ?_, ?_, ?_, ?_⟩
          · refine List.Forall₂.cons hlookhead ?_
            exact hfa'
          · rw [happ', hv2s1]
            simp
          · intro δ hδ
            have hδe : δ = δ1 ++ δ2 := by
              have h9 : ctx ++ δ = ctx ++ (δ1 ++ δ2) := by
                rw [← hδ, hδ2, hδ1, List.append_assoc]
              exact List.append_cancel_left h9
            subst hδe
            have s1 := hBv.1 δ1 hδ1
            have s2 := hsize' δ2 hδ2
            rw [hv2s1, idxListSize_append] at s2
            rw [pairListSize_append]
            simp only [List.map_cons, seqSpecCount, idxListSize] at s2 ⊢
            omega
          · intro C conv fuel2 hcd hC hf
            obtain ⟨f2, rfl⟩ : ∃ f2, fuel2 = f2 + 1 := ⟨fuel2 - 1, by omega⟩
            simp only [List.map_cons, seqSpecCount] at hf hC
            have hCv : ∀ n ∈ definedNames vspec, ctxLookup C n = ctxLookup ctx1 n := by
              intro n hn
              rw [hC n (by simp only [definedNamesSeq, List.mem_append]; exact Or.inl hn)]
              rw [hδ2]
              exact ctxLookup_append_left δ2
                (dV vspec ctx no [] u false (cs, offs, marked) ctx1 u1 h1 n hn)
            obtain ⟨conv1, hmk1, hcd1⟩ := hBv.2 C conv f2 hcd hCv (by omega)
            obtain ⟨conv2, hmk2, hcd2⟩ := hmk' C conv1 f2 hcd1
              (fun n hn => hC n (by
                simp only [definedNamesSeq, List.mem_append]
                exact Or.inr hn)) (by omega)
            refine ⟨conv2, ?_, hcd2⟩
            simp only [List.map_cons, makeSpecSeqF, hmk1, hmk2]

theorem sum_le_of_sublist {l1 l2 : List Nat} (h : l1.Sublist l2) : l1.sum ≤ l2.sum := by
  induction h with
  | slnil => exact Nat.le_refl 0
  | cons a h ih =>
    simp only [List.sum_cons]
    omega
  | cons₂ a h ih =>
    simp only [List.sum_cons]
    omega

theorem entry_lookup_of_nodupKeys : ∀ {m : Ctx} {k : List Nat} {v : CompiledSpec},
    nodupKeys m → (k, v) ∈ m → ctxLookup m k = some v := by
  intro m
  induction m with
  | nil =>
    intro k v _ hmem
    simp at hmem
  | cons p rest ih =>
    intro k v hnk hmem
    obtain ⟨k', v'⟩ := p
    simp only [nodupKeys, List.map_cons] at hnk
    have hsplit := List.nodup_cons.mp hnk
    rcases List.mem_cons.mp hmem with heq | hmem2
    · obtain ⟨h1, h2⟩ := Prod.mk.injEq .. ▸ heq
      subst h1 h2
      simp [ctxLookup]
    · by_cases hk : k' = k
      · subst hk
        exact absurd (List.mem_map.mpr ⟨(k', v), hmem2, rfl⟩) hsplit.1
      · simpa [ctxLookup, hk] using ih hsplit.2 hmem2

/-- Weight of one named-schema slot: the `1 + size` of the entry when the
lookup succeeds. -/
def optEntrySize : Option CompiledSpec → Nat
  | some v => 1 + csSize v
  | none => 0

theorem pairListSize_eq_sum (m : Ctx) :
    pairListSize m = (m.map fun p => 1 + csSize p.2).sum := by
  induction m with
  | nil => rfl
  | cons p rest ih =>
    obtain ⟨k, v⟩ := p
    simp [pairListSize, ih]

theorem buildNamedSchema_sizes {ctx : Ctx} : ∀ {l : NSet} {ns : Ctx},
    buildNamedSchema ctx l = some ns →
    ns.map (fun p => 1 + csSize p.2) = l.map fun n => optEntrySize (ctxLookup ctx n) := by
  intro l
  induction l with
  | nil =>
    intro ns h
    rw [buildNamedSchema] at h
    simp at h
    subst h
    rfl
  | cons m rest ih =>
    intro ns h
    rw [buildNamedSchema] at h
    rcases hm : ctxLookup ctx m with _ | cs
    · rw [hm] at h
      simp at h
    · rcases hrest : buildNamedSchema ctx rest with _ | ns'
      · rw [hm, hrest] at h
        simp at h
      · rw [hm, hrest] at h
        simp at h
        subst h
        simp only [List.map_cons]
        rw [ih hrest, hm]
        rfl

/-- The context a successful compile leaves behind never outweighs the
named schema built from it, provided its keys are distinct and all appear
in the (duplicate-free) internal used-name list. -/
theorem pairListSize_le_build {ctx : Ctx} {l : NSet} {ns : Ctx}
    (hnk : nodupKeys ctx) (hb : buildNamedSchema ctx l = some ns)
    (hsub : ∀ p ∈ ctx, p.1 ∈ l) (hnd : l.Nodup) :
    pairListSize ctx ≤ ctxSize ns := by
  rw [ctxSize_eq_pairListSize, pairListSize_eq_sum, pairListSize_eq_sum,
    buildNamedSchema_sizes hb]
  have hmap : ctx.map (fun p => 1 + csSize p.2) =
      (ctx.map Prod.fst).map fun n => optEntrySize (ctxLookup ctx n) := by
    rw [List.map_map]
    apply List.map_congr_left
    intro p hp
    obtain ⟨k, v⟩ := p
    simp only [Function.comp]
    rw [entry_lookup_of_nodupKeys hnk hp]
    rfl
  rw [hmap]
  obtain ⟨l2, hperm, hsl⟩ := List.Nodup.subperm hnk (by
    intro k hk
    obtain ⟨p, hp, rfl⟩ := List.mem_map.mp hk
    exact hsub p hp)
  have e1 := (hperm.map fun n => optEntrySize (ctxLookup ctx n)).sum_eq
  have e2 := sum_le_of_sublist (hsl.map fun n => optEntrySize (ctxLookup ctx n))
  omega

/-- Claim C2 (confirmed): for every `Spec` that `CompiledSpec::compile`
accepts, `to_spec` of the compiled result rebuilds exactly the original
spec — name definitions are re-expanded at their first occurrence and
later occurrences become `Ref`. -/
theorem claim_C2 (s : Spec) (cs : CompiledSpec)
    (h : CompiledSpec.compile s = .ok cs) : cs.to_spec = some s := by
  obtain ⟨F, hF⟩ : ∃ F, 2 ^ (specNodeCount s + 2) = F + 1 :=
    ⟨2 ^ (specNodeCount s + 2) - 1, by
      have := Nat.two_pow_pos (specNodeCount s + 2)
      omega⟩
  simp only [CompiledSpec.compile, hF] at h
  rcases h1 : compileStructI F s [] [] [] with ⟨r1, ctx1, no1, int1⟩
  simp only [compileSpecI, h1] at h
  cases r1 with
  | error e => simp at h
  | ok st =>
    rcases h2 : buildNamedSchema ctx1 int1 with _ | ns
    · simp only [h2] at h
      simp at h
    · simp only [h2, Except.ok.injEq] at h
      subst h
      have hok := (compile_ok_facts F).2.1 s [] [] [] st ctx1 no1 int1 h1
      have hnk1 : nodupKeys ctx1 := by
        have hn := ((compile_nodup F).2.1 s [] [] []).1 (by simp [nodupKeys])
        rw [h1] at hn
        exact hn
      have hintN : int1.Nodup := by
        have hn := ((compile_nodup F).2.1 s [] [] []).2 List.nodup_nil
        rw [h1] at hn
        exact hn
      have hevol : CtxEvolves [] ctx1 (definedNames s) := by
        have he := ((compile_evolution F).2.1 s [] [] []).1
        rw [h1] at he
        exact he
      obtain ⟨δ, hδ, hδmem⟩ := hevol
      have hδ2 : ctx1 = δ := by simpa using hδ
      have hsub : ∀ p ∈ ctx1, p.1 ∈ int1 := by
        intro p hp
        rw [hδ2] at hp
        exact (hok p.1 (hδmem p hp)).2
      have hB := (compile_to_spec F).2.1 s [] [] [] st ctx1 no1 int1 h1
      have hsize : specNodeCount s ≤ structSize st + pairListSize ctx1 :=
        hB.1 ctx1 (by simp)
      have hPL : pairListSize ctx1 ≤ ctxSize ns :=
        pairListSize_le_build hnk1 h2 hsub hintN
      have hfuel : specNodeCount s + 1 ≤ mkFuel ns st := by
        simp only [mkFuel]
        omega
      have hcd0 : ConvDom [] ([] : Ctx) := by
        intro n
        simp [ctxContains, ctxLookup]
      have hC : ∀ n ∈ definedNames s, ctxLookup ns n = ctxLookup ctx1 n :=
        fun n hn => buildNamedSchema_lookup h2 n ((hok n hn).2)
      obtain ⟨conv2, hmk, _⟩ := hB.2 ns [] (mkFuel ns st) hcd0 hC hfuel
      simp only [CompiledSpec.to_spec, CompiledSpec.named_schema, CompiledSpec.struct]
      rw [hmk]

/-- Witness for C2 at a concrete input: `Bool` compiles to the compiled
spec with empty named schema and `Bool` structure, and `to_spec` of that
compiled spec gives back `Bool`. -/
theorem claim_C2_witness :
    CompiledSpec.compile .Bool =
      .ok (.mk (specFingerprintNew [] .Bool) [] .Bool) ∧
    (CompiledSpec.mk (specFingerprintNew [] .Bool) [] .Bool).to_spec = some .Bool :=
  ⟨rfl, claim_C2 .Bool _ rfl⟩

end Gluino
